import Mathlib

/-!
Verification of the line-diff core of `python-examdiff`.

This file gives a shallow embedding, in Lean, of the code in
`src/core/myers_algorithm.py` and `src/core/diff_engine.py`:
the Myers shortest-edit-script solver, the diff-result builder,
replace-merging, unified-diff formatting, the diff-engine orchestration
(preprocessing, fuzzy post-pass) and the three-way merge, together with
theorems settling the specification's claims about them.

Conventions of the embedding:
* Python `int` is modelled as `Int`; Python lists of lines as `List String`.
* The solver's dictionary `v` (diagonal -> furthest x) is modelled as a
  function `Int → Option Int`; `dict.get(k, dflt)` becomes `vget v k dflt`.
* Python list indexing and slicing are modelled by `lineAt` / `pySlice`,
  which reproduce Python's negative-index and clamping semantics.
  (An out-of-range plain index raises `IndexError` in Python; the states
  where this would happen are unreachable in the executions analysed here,
  and the embedding returns a default in those states.)
* Python `for` loops with early `return` become recursive functions
  returning `Option`; the unbounded `while` loop of `three_way_merge`
  is modelled with explicit fuel, `none` meaning the loop has not
  terminated within the given fuel.
* `str.strip/split/lower` are modelled on the ASCII whitespace/case
  range, which agrees with Python on all inputs used in the claims.
-/

/-- `DiffType` from `myers_algorithm.py`: the kind of a diff operation. -/
inductive DiffType where
  | equal
  | insert
  | delete
  | replace
deriving DecidableEq, Repr

/-- `DiffResult` from `myers_algorithm.py`: one difference operation.
Counts and 0-based start indices are Python ints, hence `Int`. -/
structure DiffResult where
  type : DiffType
  old_start : Int
  old_count : Int
  new_start : Int
  new_count : Int
  old_lines : List String
  new_lines : List String
deriving DecidableEq, Repr

/-! ### Python string and list primitives used by the source -/

/-- Python whitespace test, restricted to the ASCII whitespace characters
(space, tab, newline, carriage return, vertical tab, form feed). -/
def isPySpace (c : Char) : Bool :=
  c == ' ' || c == '\t' || c == '\n' || c == '\r' || c == '\x0b' || c == '\x0c'

/-- `not line.strip()`: the line is empty or entirely whitespace. -/
def isBlankLine (s : String) : Bool := s.toList.all isPySpace

/-- `line.lstrip()`. -/
def pyLstrip (s : String) : String := String.mk (s.toList.dropWhile isPySpace)

/-- `line.rstrip()`. -/
def pyRstrip (s : String) : String :=
  String.mk ((s.toList.reverse.dropWhile isPySpace).reverse)

/-- `line.lower()` (ASCII case mapping; Python's `lower` agrees on ASCII). -/
def pyLower (s : String) : String := String.mk (s.toList.map Char.toLower)

/-- Helper for `str.split()`: accumulate the current word (reversed) while
scanning; whitespace runs separate words and empty words are dropped. -/
def splitWSGo : List Char → List Char → List String
  | [], [] => []
  | [], acc => [String.mk acc.reverse]
  | c :: cs, acc =>
    if isPySpace c then
      if acc = [] then splitWSGo cs []
      else String.mk acc.reverse :: splitWSGo cs []
    else splitWSGo cs (c :: acc)

/-- `line.split()`: split on whitespace runs, dropping empty pieces. -/
def pySplit (s : String) : List String := splitWSGo s.toList []

/-- `' '.join(line.split())` — the whitespace normalization of
`MyersDiff._preprocess_sequence`. -/
def normalizeWS (s : String) : String := String.intercalate " " (pySplit s)

/-- Python list indexing `l[i]` (negative indices count from the end).
Out-of-range access raises in Python; here it yields `none`. -/
def lineAt (l : List String) (i : Int) : Option String :=
  let j := if i < 0 then i + l.length else i
  if 0 ≤ j then l.get? j.toNat else none

/-- Index clamping of Python slice endpoints. -/
def sliceIndex (len : Nat) (i : Int) : Nat :=
  if i < 0 then (len + i).toNat else min i.toNat len

/-- Python slicing `l[i:j]` (step 1). -/
def pySlice (l : List String) (i j : Int) : List String :=
  (l.take (sliceIndex l.length j)).drop (sliceIndex l.length i)

/-! ### `MyersDiff._preprocess_sequence` -/

/-- `MyersDiff._preprocess_sequence`: skip blank lines when requested,
then normalize whitespace, then lowercase, per the ignore options. -/
def preprocessSequence (iCase iWS iBlank : Bool) : List String → List String
  | [] => []
  | line :: rest =>
    if iBlank ∧ isBlankLine line then preprocessSequence iCase iWS iBlank rest
    else
      let l1 := if iWS then normalizeWS line else line
      let l2 := if iCase then pyLower l1 else l1
      l2 :: preprocessSequence iCase iWS iBlank rest

/-! ### `MyersDiff._find_shortest_edit_script` -/

/-- The solver's `v` dictionary: diagonal number `k = x - y` to the
furthest-reaching `x` on that diagonal. -/
abbrev VMap := Int → Option Int

/-- `v.get(k, dflt)`. -/
def vget (v : VMap) (k dflt : Int) : Int := (v k).getD dflt

/-- `v[k] = x`. -/
def vset (v : VMap) (k x : Int) : VMap := fun j => if j = k then some x else v j

/-- The initial dictionary `{1: 0}`. -/
def vInit : VMap := fun k => if k = 1 then some 0 else none

/-- `MyersDiff._lines_equal` on the processed sequences `a`, `b`. -/
def linesEqual (a b : List String) (x y : Int) : Bool :=
  match lineAt a x, lineAt b y with
  | some s, some t => s == t
  | _, _ => false

/-- The inner diagonal extension:
`while x < n and y < m and self._lines_equal(x, y): x += 1; y += 1`. -/
def snake (a b : List String) (x y : Int) : Int × Int :=
  if h : x < (a.length : Int) ∧ y < (b.length : Int) ∧ linesEqual a b x y = true then
    snake a b (x + 1) (y + 1)
  else (x, y)
termination_by ((a.length : Int) - x).toNat
decreasing_by simp_wf; omega

/-- The down-or-right decision
`k == -d or (k != d and v.get(k - 1, -1) < v.get(k + 1, -1))`,
used identically by the forward pass and by `_backtrack`. -/
def chooseDown (v : VMap) (d k : Int) : Bool :=
  k == -d || (k != d && decide (vget v (k - 1) (-1) < vget v (k + 1) (-1)))

/-- The chosen start `x` on diagonal `k` at distance `d`:
`x = v.get(k + 1, 0)` when moving down, else `x = v.get(k - 1, 0) + 1`. -/
def chooseX (v : VMap) (d k : Int) : Int :=
  if chooseDown v d k then vget v (k + 1) 0 else vget v (k - 1) 0 + 1

/-- The list `range(-d, d + 1, 2)` of diagonals explored at distance `d`. -/
def kRange (d : Nat) : List Int :=
  (List.range (d + 1)).map (fun i : Nat => -(d : Int) + 2 * (i : Int))

/-- One pass of the inner `for k in range(-d, d + 1, 2)` loop: process the
remaining diagonals; `none` signals that `x >= n and y >= m` was hit (the
function then returns via `_backtrack`), `some v'` the updated dictionary. -/
def innerLoop (a b : List String) (d : Int) (v : VMap) : List Int → Option VMap
  | [] => some v
  | k :: rest =>
    let x0 := chooseX v d k
    let s := snake a b x0 (x0 - k)
    let v' := vset v k s.1
    if (a.length : Int) ≤ s.1 ∧ (b.length : Int) ≤ s.2 then none
    else innerLoop a b d v' rest

/-! ### `MyersDiff._backtrack` -/

/-- The diagonal walk-back
`while x > prev_x and y > prev_y: x -= 1; y -= 1; path.append((x, y))`.
Returns the final `(x, y)` and the extended (append-order) path. -/
def diagWalk (prevx prevy x y : Int) (acc : List (Int × Int)) :
    (Int × Int) × List (Int × Int) :=
  if h : prevx < x ∧ prevy < y then
    diagWalk prevx prevy (x - 1) (y - 1) (acc ++ [(x - 1, y - 1)])
  else ((x, y), acc)
termination_by (x - prevx).toNat
decreasing_by simp_wf; omega

/-- The `for depth in range(d, 0, -1)` loop of `_backtrack`.  `acc` is the
path in Python append order.  `trace[depth]` is read with a default empty
dictionary and `v[prev_k]` with default `0`; both lookups always succeed in
the executions analysed here (Python would raise otherwise). -/
def backLoop (trace : List VMap) : Nat → Int → Int → List (Int × Int) → List (Int × Int)
  | 0, _, _, acc => acc
  | dp + 1, x, y, acc =>
    let v := (trace.get? (dp + 1)).getD (fun _ => none)
    let k := x - y
    let prevk := if chooseDown v ((dp : Int) + 1) k then k + 1 else k - 1
    let prevx := vget v prevk 0
    let prevy := prevx - prevk
    let w := diagWalk prevx prevy x y acc
    if prevx < w.1.1 then
      backLoop trace dp prevx w.1.2 (w.2 ++ [(prevx, w.1.2)])
    else
      backLoop trace dp w.1.1 prevy (w.2 ++ [(w.1.1, prevy)])

/-- `MyersDiff._backtrack`: walk back from `(n, m)`, reverse, and ensure the
path starts at `(0, 0)` and ends at `(n, m)`. -/
def backtrack (a b : List String) (trace : List VMap) (d : Nat) : List (Int × Int) :=
  let n : Int := a.length
  let m : Int := b.length
  let path0 := (backLoop trace d n m [(n, m)]).reverse
  let path1 := if path0 = [] ∨ path0.head? ≠ some (0, 0) then (0, 0) :: path0 else path0
  if path1.getLast? ≠ some (n, m) then path1 ++ [(n, m)] else path1

/-- The `for d in range(max_d + 1)` loop of `_find_shortest_edit_script`:
snapshot `v` into the trace, run the inner loop, and either return via
`_backtrack` or continue with the next distance.  Past `dmax` the source's
fallback `[(0, 0), (n, m)]` is returned. -/
def solveAux (a b : List String) (dmax : Nat) (d : Nat) (trace : List VMap) (v : VMap) :
    List (Int × Int) :=
  if h : d ≤ dmax then
    let trace' := trace ++ [v]
    match innerLoop a b (d : Int) v (kRange d) with
    | none => backtrack a b trace' d
    | some v' => solveAux a b dmax (d + 1) trace' v'
  else [(0, 0), ((a.length : Int), (b.length : Int))]
termination_by dmax + 1 - d

/-- `MyersDiff._find_shortest_edit_script` with `max_d = n + m`,
run on the processed sequences `a`, `b`. -/
def findShortestEditScript (a b : List String) : List (Int × Int) :=
  solveAux a b (a.length + b.length) 0 [] vInit

/-! ### `MyersDiff._build_diff_results` -/

/-- `path[i]` (in-range in all reachable states). -/
def pathGet (p : List (Int × Int)) (i : Nat) : Int × Int := p.getD i (0, 0)

/-- The scan for the end of an equal block:
`while j < len(path) - 1` and the next step is `(+1, +1)`, advance `j`. -/
def scanEqualEnd (p : List (Int × Int)) (j : Nat) : Nat :=
  if h : j + 1 < p.length ∧
      (pathGet p (j + 1)).1 = (pathGet p j).1 + 1 ∧
      (pathGet p (j + 1)).2 = (pathGet p j).2 + 1 then
    scanEqualEnd p (j + 1)
  else j
termination_by p.length - j
decreasing_by simp_wf; omega

theorem le_scanEqualEnd (p : List (Int × Int)) (j : Nat) : j ≤ scanEqualEnd p j := by
  rw [scanEqualEnd]
  split
  · have := le_scanEqualEnd p (j + 1)
    omega
  · exact Nat.le_refl j
termination_by p.length - j
decreasing_by simp_wf; omega

/-- The main `while i < len(path) - 1` loop of `_build_diff_results`.
Note that the slices are taken from the *original* sequences `a`, `b`
at the path's (processed-sequence) coordinates, exactly as in the source. -/
def buildLoop (a b : List String) (p : List (Int × Int)) (i : Nat) : List DiffResult :=
  if hi : i + 1 < p.length then
    let x1 := (pathGet p i).1
    let y1 := (pathGet p i).2
    let x2 := (pathGet p (i + 1)).1
    let y2 := (pathGet p (i + 1)).2
    if x1 < x2 ∧ y1 < y2 then
      let j := scanEqualEnd p (i + 1)
      let ex := (pathGet p j).1
      let ey := (pathGet p j).2
      ⟨.equal, x1, ex - x1, y1, ey - y1, pySlice a x1 ex, pySlice b y1 ey⟩ ::
        buildLoop a b p j
    else if x1 = x2 ∧ y1 < y2 then
      ⟨.insert, x1, 0, y1, 1, [], pySlice b y1 y2⟩ :: buildLoop a b p (i + 1)
    else if x1 < x2 ∧ y1 = y2 then
      ⟨.delete, x1, 1, y1, 0, pySlice a x1 x2, []⟩ :: buildLoop a b p (i + 1)
    else buildLoop a b p (i + 1)
  else []
termination_by p.length - i
decreasing_by
  all_goals simp_wf
  all_goals have h9 := le_scanEqualEnd p (i + 1)
  all_goals omega

/-- `MyersDiff._build_diff_results` (before replace-merging). -/
def buildDiffResults (a b : List String) (p : List (Int × Int)) : List DiffResult :=
  buildLoop a b p 0

/-- `MyersDiff._merge_replace_operations`: greedy left-to-right merge of a
Delete immediately followed by an Insert into a Replace. -/
def mergeReplaceOperations : List DiffResult → List DiffResult
  | r1 :: r2 :: rest =>
    if r1.type = .delete ∧ r2.type = .insert then
      ⟨.replace, r1.old_start, r1.old_count, r2.new_start, r2.new_count,
        r1.old_lines, r2.new_lines⟩ :: mergeReplaceOperations rest
    else r1 :: mergeReplaceOperations (r2 :: rest)
  | l => l

/-- `MyersDiff(...).compute()`: preprocess both sequences, solve, build,
merge replaces.  The builder slices the original `seqA`/`seqB`. -/
def myersCompute (seqA seqB : List String) (iCase iWS iBlank : Bool) : List DiffResult :=
  let pa := preprocessSequence iCase iWS iBlank seqA
  let pb := preprocessSequence iCase iWS iBlank seqB
  mergeReplaceOperations (buildDiffResults seqA seqB (findShortestEditScript pa pb))

/-- `myers_diff(seq_a, seq_b)` with default options. -/
def myersDiffDefault (seqA seqB : List String) : List DiffResult :=
  myersCompute seqA seqB false false false

/-! ### `format_diff_unified` -/

/-- The lines contributed by one `DiffResult` in `format_diff_unified`. -/
def formatResultLines (r : DiffResult) : List String :=
  if r.type = .equal then []
  else
    ["@@ -" ++ toString (r.old_start + 1) ++ "," ++ toString r.old_count ++
      " +" ++ toString (r.new_start + 1) ++ "," ++ toString r.new_count ++ " @@"] ++
    (if r.type = .delete ∨ r.type = .replace then r.old_lines.map (fun l => "-" ++ l) else []) ++
    (if r.type = .insert ∨ r.type = .replace then r.new_lines.map (fun l => "+" ++ l) else [])

/-- `format_diff_unified` (the `context_lines` parameter is accepted by the
source but never used). -/
def formatDiffUnified (results : List DiffResult) (filenameA filenameB : String) : String :=
  String.intercalate "\n"
    (["--- " ++ filenameA, "+++ " ++ filenameB] ++ (results.map formatResultLines).flatten)

/-! ## Semantic layer: the edit graph and longest common subsequences

`Steps a b p q d` means: there is a monotone path from grid point `p` to
grid point `q` using `d` insert/delete unit moves and any number of
diagonal moves, where a diagonal move at `(x, y)` requires `0 ≤ x < |a|`,
`0 ≤ y < |b|` and equality of the lines `a[x]` and `b[y]`.  This is the
edit graph of the spec's glossary, extended with the points beyond the
grid that insert/delete moves may reach. -/
inductive Steps (a b : List String) : ℤ × ℤ → ℤ × ℤ → ℕ → Prop where
  | refl (p : ℤ × ℤ) : Steps a b p p 0
  | del {p q : ℤ × ℤ} {d : ℕ} : Steps a b p q d → Steps a b p (q.1 + 1, q.2) (d + 1)
  | ins {p q : ℤ × ℤ} {d : ℕ} : Steps a b p q d → Steps a b p (q.1, q.2 + 1) (d + 1)
  | diag {p q : ℤ × ℤ} {d : ℕ} : Steps a b p q d → 0 ≤ q.1 → q.1 < (a.length : ℤ) →
      0 ≤ q.2 → q.2 < (b.length : ℤ) → linesEqual a b q.1 q.2 = true →
      Steps a b p (q.1 + 1, q.2 + 1) d

/-- The classic recursive length of a longest common subsequence. -/
def lcsLen : List String → List String → ℕ
  | [], _ => 0
  | _ :: _, [] => 0
  | x :: xs, y :: ys =>
    if x = y then 1 + lcsLen xs ys
    else max (lcsLen (x :: xs) ys) (lcsLen xs (y :: ys))
termination_by u v => u.length + v.length

theorem Steps.mono {a b : List String} {p q : ℤ × ℤ} {d : ℕ}
    (h : Steps a b p q d) : p.1 ≤ q.1 ∧ p.2 ≤ q.2 := by
  induction h with
  | refl => exact ⟨le_refl _, le_refl _⟩
  | del _ ih => exact ⟨by omega, by omega⟩
  | ins _ ih => exact ⟨by omega, by omega⟩
  | diag _ _ _ _ _ _ ih => exact ⟨by omega, by omega⟩

theorem Steps.diag_bound {a b : List String} {p q : ℤ × ℤ} {d : ℕ}
    (h : Steps a b p q d) : (q.1 - q.2) - (p.1 - p.2) ≤ d ∧ (p.1 - p.2) - (q.1 - q.2) ≤ d := by
  induction h with
  | refl => omega
  | del _ ih => simp only []; omega
  | ins _ ih => simp only []; omega
  | diag _ _ _ _ _ _ ih => simp only []; omega

theorem Steps.trans {a b : List String} {p q r : ℤ × ℤ} {d e : ℕ}
    (h₁ : Steps a b p q d) (h₂ : Steps a b q r e) : Steps a b p r (d + e) := by
  induction h₂ with
  | refl => exact h₁
  | del h ih => exact (Steps.del ih : _)
  | ins h ih => exact (Steps.ins ih : _)
  | diag h h1 h2 h3 h4 h5 ih => exact ih.diag h1 h2 h3 h4 h5

/-- Any path from the origin to a point at or beyond `(n, m)` can be
truncated to a path from the origin to the clamped point, at no extra cost. -/
theorem Steps.truncate {a b : List String} {q : ℤ × ℤ} {d : ℕ}
    (h : Steps a b (0, 0) q d) :
    ∃ d' ≤ d, Steps a b (0, 0) (min q.1 (a.length : ℤ), min q.2 (b.length : ℤ)) d' := by
  induction h with
  | refl =>
    refine ⟨0, le_refl _, ?_⟩
    have h1 : min (0 : ℤ) (a.length : ℤ) = 0 := by omega
    have h2 : min (0 : ℤ) (b.length : ℤ) = 0 := by omega
    rw [h1, h2]
    exact Steps.refl _
  | @del q d h ih =>
    obtain ⟨d', hd', hs⟩ := ih
    by_cases hq : q.1 < (a.length : ℤ)
    · have h1 : min (q.1 + 1) (a.length : ℤ) = min q.1 (a.length : ℤ) + 1 := by omega
      rw [show ((q.1 + 1, q.2) : ℤ × ℤ).1 = q.1 + 1 from rfl, show ((q.1 + 1, q.2) : ℤ × ℤ).2 = q.2 from rfl, h1]
      exact ⟨d' + 1, by omega, (Steps.del hs : _)⟩
    · have h1 : min (q.1 + 1) (a.length : ℤ) = min q.1 (a.length : ℤ) := by omega
      rw [show ((q.1 + 1, q.2) : ℤ × ℤ).1 = q.1 + 1 from rfl, show ((q.1 + 1, q.2) : ℤ × ℤ).2 = q.2 from rfl, h1]
      exact ⟨d', by omega, hs⟩
  | @ins q d h ih =>
    obtain ⟨d', hd', hs⟩ := ih
    by_cases hq : q.2 < (b.length : ℤ)
    · have h1 : min (q.2 + 1) (b.length : ℤ) = min q.2 (b.length : ℤ) + 1 := by omega
      rw [show ((q.1, q.2 + 1) : ℤ × ℤ).1 = q.1 from rfl, show ((q.1, q.2 + 1) : ℤ × ℤ).2 = q.2 + 1 from rfl, h1]
      exact ⟨d' + 1, by omega, (Steps.ins hs : _)⟩
    · have h1 : min (q.2 + 1) (b.length : ℤ) = min q.2 (b.length : ℤ) := by omega
      rw [show ((q.1, q.2 + 1) : ℤ × ℤ).1 = q.1 from rfl, show ((q.1, q.2 + 1) : ℤ × ℤ).2 = q.2 + 1 from rfl, h1]
      exact ⟨d', by omega, hs⟩
  | @diag q d h h1 h2 h3 h4 h5 ih =>
    obtain ⟨d', hd', hs⟩ := ih
    have e1 : min q.1 (a.length : ℤ) = q.1 := by omega
    have e2 : min q.2 (b.length : ℤ) = q.2 := by omega
    rw [e1, e2] at hs
    have h1' : min (q.1 + 1) (a.length : ℤ) = q.1 + 1 := by omega
    have h2' : min (q.2 + 1) (b.length : ℤ) = q.2 + 1 := by omega
    rw [show ((q.1 + 1, q.2 + 1) : ℤ × ℤ).1 = q.1 + 1 from rfl, show ((q.1 + 1, q.2 + 1) : ℤ × ℤ).2 = q.2 + 1 from rfl, h1', h2']
    exact ⟨d', by omega, hs.diag h1 h2 h3 h4 h5⟩

theorem snake_le (a b : List String) (x y : Int) :
    x ≤ (snake a b x y).1 ∧ y ≤ (snake a b x y).2 := by
  rw [snake]
  split
  · have := snake_le a b (x + 1) (y + 1)
    omega
  · exact ⟨le_refl _, le_refl _⟩
termination_by ((a.length : Int) - x).toNat
decreasing_by simp_wf; omega

theorem snake_sub (a b : List String) (x y : Int) :
    (snake a b x y).1 - (snake a b x y).2 = x - y := by
  rw [snake]
  split
  · have := snake_sub a b (x + 1) (y + 1)
    omega
  · simp
termination_by ((a.length : Int) - x).toNat
decreasing_by simp_wf; omega

/-- The snake's result no longer satisfies the loop guard. -/
theorem snake_not_guard (a b : List String) (x y : Int) :
    ¬((snake a b x y).1 < (a.length : Int) ∧ (snake a b x y).2 < (b.length : Int) ∧
      linesEqual a b (snake a b x y).1 (snake a b x y).2 = true) := by
  rw [snake]
  split
  · exact snake_not_guard a b (x + 1) (y + 1)
  · next h => simpa using h
termination_by ((a.length : Int) - x).toNat
decreasing_by simp_wf; omega

/-- Extending a path by the snake's diagonal moves. -/
theorem snake_steps {a b : List String} {p : ℤ × ℤ} {x y : Int} {d : ℕ}
    (h : Steps a b p (x, y) d) (hx : 0 ≤ x) (hy : 0 ≤ y) :
    Steps a b p (snake a b x y) d := by
  rw [snake]
  split
  · next hg =>
    exact snake_steps (h.diag hx hg.1 hy hg.2.1 hg.2.2) (by omega) (by omega)
  · exact h
termination_by ((a.length : Int) - x).toNat
decreasing_by simp_wf; omega

theorem vset_self (v : VMap) (k x : Int) : vset v k x k = some x := by simp [vset]

theorem vset_other (v : VMap) (k x j : Int) (h : j ≠ k) : vset v k x j = v j := by
  simp [vset, h]

theorem mem_kRange {d : Nat} {k : Int} :
    k ∈ kRange d ↔ -(d : Int) ≤ k ∧ k ≤ d ∧ (k + d) % 2 = 0 := by
  simp only [kRange, List.mem_map, List.mem_range]
  constructor
  · rintro ⟨i, hi, rfl⟩
    omega
  · rintro ⟨h1, h2, h3⟩
    exact ⟨((k + d) / 2).toNat, by omega, by omega⟩

theorem Steps.del' {a b : List String} {p : ℤ × ℤ} {x y : ℤ} {d : ℕ}
    (h : Steps a b p (x, y) d) : Steps a b p (x + 1, y) (d + 1) := Steps.del h

theorem Steps.ins' {a b : List String} {p : ℤ × ℤ} {x y : ℤ} {d : ℕ}
    (h : Steps a b p (x, y) d) : Steps a b p (x, y + 1) (d + 1) := Steps.ins h

/-! ## The furthest-reach invariant of the solver

`Layer a b s v` says: for every diagonal `k` explored by round `s`
(`|k| ≤ s`, `k ≡ s (mod 2)`), the dictionary holds a value `xv` that
(i) obeys the growth bound `s + k ≤ 2 xv`, (ii) is reachable at edit
distance exactly `s`, and (iii) dominates every point on diagonal `k`
reachable at distance exactly `s` — i.e. it is the furthest reach. -/
def Layer (a b : List String) (s : ℕ) (v : VMap) : Prop :=
  ∀ k : ℤ, -(s : ℤ) ≤ k → k ≤ (s : ℤ) → (k + (s : ℤ)) % 2 = 0 →
    ∃ xv : ℤ, v k = some xv ∧ (s : ℤ) + k ≤ 2 * xv ∧
      Steps a b (0, 0) (xv, xv - k) s ∧
      ∀ x : ℤ, Steps a b (0, 0) (x, x - k) s → x ≤ xv

/-- No stored value has passed the termination test `x >= n and y >= m`
(each store is checked right after it is made, and the solver returns
immediately when the test first succeeds). -/
def NoFind (a b : List String) (v : VMap) : Prop :=
  ∀ k xv : ℤ, v k = some xv →
    ¬((a.length : ℤ) ≤ xv ∧ (b.length : ℤ) ≤ xv - k)

/-- The value round `d` writes for diagonal `k`, when computed from a
dictionary state `v` whose relevant neighbour entries are unoverwritten. -/
def roundVal (a b : List String) (d : ℤ) (v : VMap) (k : ℤ) : ℤ :=
  (snake a b (chooseX v d k) (chooseX v d k - k)).1

theorem chooseDown_iff (v : VMap) (d k : ℤ) :
    chooseDown v d k = true ↔
      (k = -d ∨ (k ≠ d ∧ vget v (k - 1) (-1) < vget v (k + 1) (-1))) := by
  simp [chooseDown, Bool.or_eq_true, Bool.and_eq_true, beq_iff_eq, bne_iff_ne,
    decide_eq_true_eq]

theorem chooseX_down {v : VMap} {d k : ℤ} (h : chooseDown v d k = true) :
    chooseX v d k = vget v (k + 1) 0 := by simp [chooseX, h]

theorem chooseX_right {v : VMap} {d k : ℤ} (h : chooseDown v d k = false) :
    chooseX v d k = vget v (k - 1) 0 + 1 := by simp [chooseX, h]

theorem chooseX_congr {v v' : VMap} (d k : ℤ)
    (h1 : v (k - 1) = v' (k - 1)) (h2 : v (k + 1) = v' (k + 1)) :
    chooseX v d k = chooseX v' d k := by
  simp [chooseX, chooseDown, vget, h1, h2]

/-- Behaviour of the chosen start coordinate on diagonal `k` at round
`s + 1`, given the furthest-reach property of round `s`: it obeys the
growth bound, it is reachable at distance `s + 1`, and it dominates the
stored `k - 1` value plus one (a delete move) and the stored `k + 1`
value (an insert move) whenever those diagonals are in range. -/
theorem chooseX_cases (a b : List String) (s : ℕ) (v : VMap) (hL : Layer a b s v)
    (k : ℤ) (hk1 : -((s : ℤ) + 1) ≤ k) (hk2 : k ≤ (s : ℤ) + 1)
    (hpar : (k + (s : ℤ) + 1) % 2 = 0) :
    ((s : ℤ) + 1) + k ≤ 2 * chooseX v ((s : ℤ) + 1) k ∧
    Steps a b (0, 0) (chooseX v ((s : ℤ) + 1) k, chooseX v ((s : ℤ) + 1) k - k) (s + 1) ∧
    (∀ xv : ℤ, -(s : ℤ) ≤ k - 1 → v (k - 1) = some xv → xv + 1 ≤ chooseX v ((s : ℤ) + 1) k) ∧
    (∀ xv : ℤ, k + 1 ≤ (s : ℤ) → v (k + 1) = some xv → xv ≤ chooseX v ((s : ℤ) + 1) k) := by
  by_cases hke : k = -((s : ℤ) + 1)
  · obtain ⟨xv, hv, hb, hs, _⟩ := hL (k + 1) (by omega) (by omega) (by omega)
    have hcd : chooseDown v ((s : ℤ) + 1) k = true := by
      rw [chooseDown_iff]
      exact Or.inl hke
    have hcx : chooseX v ((s : ℤ) + 1) k = xv := by
      rw [chooseX_down hcd, vget, hv]
      rfl
    refine ⟨by omega, ?_, ?_, ?_⟩
    · rw [hcx]
      have h' := Steps.ins' hs
      have he : xv - (k + 1) + 1 = xv - k := by ring
      rwa [he] at h'
    · intro xv' h1 _
      exact absurd h1 (by omega)
    · intro xv' _ hv'
      have : xv = xv' := by
        have := hv.symm.trans hv'
        exact Option.some.inj this
      omega
  · by_cases hke2 : k = (s : ℤ) + 1
    · obtain ⟨xv, hv, hb, hs, _⟩ := hL (k - 1) (by omega) (by omega) (by omega)
      have hcd : chooseDown v ((s : ℤ) + 1) k = false := by
        rw [← Bool.not_eq_true, chooseDown_iff]
        push_neg
        exact ⟨by omega, fun h => absurd hke2 h.elim⟩
      have hcx : chooseX v ((s : ℤ) + 1) k = xv + 1 := by
        rw [chooseX_right hcd, vget, hv]
        rfl
      refine ⟨by omega, ?_, ?_, ?_⟩
      · rw [hcx]
        have h' := Steps.del' hs
        have he : xv - (k - 1) = xv + 1 - k := by ring
        rwa [he] at h'
      · intro xv' _ hv'
        have : xv = xv' := Option.some.inj (hv.symm.trans hv')
        omega
      · intro xv' h1 _
        exact absurd h1 (by omega)
    · obtain ⟨xvl, hvl, hbl, hsl, _⟩ := hL (k - 1) (by omega) (by omega) (by omega)
      obtain ⟨xvr, hvr, hbr, hsr, _⟩ := hL (k + 1) (by omega) (by omega) (by omega)
      have hgl : vget v (k - 1) (-1) = xvl := by rw [vget, hvl]; rfl
      have hgr : vget v (k + 1) (-1) = xvr := by rw [vget, hvr]; rfl
      have hgl0 : vget v (k - 1) 0 = xvl := by rw [vget, hvl]; rfl
      have hgr0 : vget v (k + 1) 0 = xvr := by rw [vget, hvr]; rfl
      by_cases hlt : xvl < xvr
      · have hcd : chooseDown v ((s : ℤ) + 1) k = true := by
          rw [chooseDown_iff]
          exact Or.inr ⟨by omega, by rw [hgl, hgr]; exact hlt⟩
        have hcx : chooseX v ((s : ℤ) + 1) k = xvr := by
          rw [chooseX_down hcd, hgr0]
        refine ⟨by omega, ?_, ?_, ?_⟩
        · rw [hcx]
          have h' := Steps.ins' hsr
          have he : xvr - (k + 1) + 1 = xvr - k := by ring
          rwa [he] at h'
        · intro xv' _ hv'
          have : xvl = xv' := Option.some.inj (hvl.symm.trans hv')
          omega
        · intro xv' _ hv'
          have : xvr = xv' := Option.some.inj (hvr.symm.trans hv')
          omega
      · have hcd : chooseDown v ((s : ℤ) + 1) k = false := by
          rw [← Bool.not_eq_true, chooseDown_iff]
          push_neg
          refine ⟨by omega, fun _ => ?_⟩
          rw [hgl, hgr]
          omega
        have hcx : chooseX v ((s : ℤ) + 1) k = xvl + 1 := by
          rw [chooseX_right hcd, hgl0]
        refine ⟨by omega, ?_, ?_, ?_⟩
        · rw [hcx]
          have h' := Steps.del' hsl
          have he : xvl - (k - 1) = xvl + 1 - k := by ring
          rwa [he] at h'
        · intro xv' _ hv'
          have : xvl = xv' := Option.some.inj (hvl.symm.trans hv')
          omega
        · intro xv' _ hv'
          have : xvr = xv' := Option.some.inj (hvr.symm.trans hv')
          omega

/-- The value written by round `s + 1` on diagonal `k` obeys the growth
bound and is reachable at distance exactly `s + 1`. -/
theorem roundVal_spec (a b : List String) (s : ℕ) (v : VMap) (hL : Layer a b s v)
    (k : ℤ) (hk1 : -((s : ℤ) + 1) ≤ k) (hk2 : k ≤ (s : ℤ) + 1)
    (hpar : (k + (s : ℤ) + 1) % 2 = 0) :
    ((s : ℤ) + 1) + k ≤ 2 * roundVal a b ((s : ℤ) + 1) v k ∧
    Steps a b (0, 0)
      (roundVal a b ((s : ℤ) + 1) v k, roundVal a b ((s : ℤ) + 1) v k - k) (s + 1) := by
  obtain ⟨hb, hs, _, _⟩ := chooseX_cases a b s v hL k hk1 hk2 hpar
  have hle := snake_le a b (chooseX v ((s : ℤ) + 1) k) (chooseX v ((s : ℤ) + 1) k - k)
  have hsub := snake_sub a b (chooseX v ((s : ℤ) + 1) k) (chooseX v ((s : ℤ) + 1) k - k)
  constructor
  · rw [roundVal]
    omega
  · have hsnk := snake_steps hs (by omega) (by omega)
    have h2 : snake a b (chooseX v ((s : ℤ) + 1) k) (chooseX v ((s : ℤ) + 1) k - k) =
        (roundVal a b ((s : ℤ) + 1) v k, roundVal a b ((s : ℤ) + 1) v k - k) := by
      rw [roundVal]
      exact Prod.ext rfl (by omega)
    rwa [h2] at hsnk

/-- Furthest-reach completeness: every point on diagonal `k` reachable at
distance exactly `s + 1` is dominated by the value round `s + 1` computes. -/
theorem roundVal_complete (a b : List String) (s : ℕ) (v : VMap) (hL : Layer a b s v)
    (k : ℤ) (hk1 : -((s : ℤ) + 1) ≤ k) (hk2 : k ≤ (s : ℤ) + 1)
    (hpar : (k + (s : ℤ) + 1) % 2 = 0) {q : ℤ × ℤ} {d' : ℕ}
    (h : Steps a b (0, 0) q d') :
    d' = s + 1 → q.1 - q.2 = k → q.1 ≤ roundVal a b ((s : ℤ) + 1) v k := by
  induction h with
  | refl =>
    intro hd _
    exact absurd hd (by omega)
  | @del q0 d0 h ih =>
    intro hd hq
    obtain ⟨xv, hv, _, _, hcomp⟩ := hL (k - 1) (by have := h.diag_bound; omega)
      (by have := h.diag_bound; omega) (by omega)
    have hd0 : d0 = s := by omega
    have h' : Steps a b (0, 0) (q0.1, q0.1 - (k - 1)) s := by
      have hee : q0.1 - (k - 1) = q0.2 := by
        simp only [Prod.fst, Prod.snd] at hq
        omega
      rw [hee, Prod.mk.eta]
      exact hd0 ▸ h
    have hx := hcomp q0.1 h'
    obtain ⟨_, _, hdel, _⟩ := chooseX_cases a b s v hL k hk1 hk2 hpar
    have h1 := hdel xv (by have := h.diag_bound; omega) hv
    have h2 := (snake_le a b (chooseX v ((s : ℤ) + 1) k) (chooseX v ((s : ℤ) + 1) k - k)).1
    rw [roundVal]
    simp only [Prod.fst]
    omega
  | @ins q0 d0 h ih =>
    intro hd hq
    obtain ⟨xv, hv, _, _, hcomp⟩ := hL (k + 1) (by have := h.diag_bound; omega)
      (by have := h.diag_bound; omega) (by omega)
    have hd0 : d0 = s := by omega
    have h' : Steps a b (0, 0) (q0.1, q0.1 - (k + 1)) s := by
      have hee : q0.1 - (k + 1) = q0.2 := by
        simp only [Prod.fst, Prod.snd] at hq
        omega
      rw [hee, Prod.mk.eta]
      exact hd0 ▸ h
    have hx := hcomp q0.1 h'
    obtain ⟨_, _, _, hins⟩ := chooseX_cases a b s v hL k hk1 hk2 hpar
    have h1 := hins xv (by have := h.diag_bound; omega) hv
    have h2 := (snake_le a b (chooseX v ((s : ℤ) + 1) k) (chooseX v ((s : ℤ) + 1) k - k)).1
    rw [roundVal]
    simp only [Prod.fst]
    omega
  | @diag q0 d0 h g1 g2 g3 g4 g5 ih =>
    intro hd hq
    simp only [Prod.fst, Prod.snd] at hq
    have hih := ih hd (by omega)
    simp only [Prod.fst]
    by_contra hlt
    have hval : roundVal a b ((s : ℤ) + 1) v k = q0.1 := by
      rw [roundVal] at hih hlt ⊢
      omega
    have hfix := snake_not_guard a b (chooseX v ((s : ℤ) + 1) k)
      (chooseX v ((s : ℤ) + 1) k - k)
    have hsub := snake_sub a b (chooseX v ((s : ℤ) + 1) k) (chooseX v ((s : ℤ) + 1) k - k)
    apply hfix
    have hv1 : (snake a b (chooseX v ((s : ℤ) + 1) k) (chooseX v ((s : ℤ) + 1) k - k)).1
        = q0.1 := hval
    have hv2 : (snake a b (chooseX v ((s : ℤ) + 1) k) (chooseX v ((s : ℤ) + 1) k - k)).2
        = q0.2 := by omega
    rw [hv1, hv2]
    exact ⟨g2, g4, g5⟩

/-- Running the inner loop at round `s + 1` over a list of fresh-parity
diagonals: either it completes, having written exactly the round values for
the processed diagonals and preserving the no-find property, or it stops
because some processed diagonal's round value passed the termination test. -/
theorem innerLoop_run (a b : List String) (s : ℕ) (v₀ : VMap)
    (ks : List ℤ) (v : VMap)
    (hodd : ∀ j : ℤ, (j + (s : ℤ) + 1) % 2 ≠ 0 → v j = v₀ j)
    (hks : ∀ k ∈ ks, -((s : ℤ) + 1) ≤ k ∧ k ≤ (s : ℤ) + 1 ∧ (k + (s : ℤ) + 1) % 2 = 0)
    (hNFv : NoFind a b v) :
    (∃ v', innerLoop a b ((s : ℤ) + 1) v ks = some v' ∧
      (∀ j ∈ ks, v' j = some (roundVal a b ((s : ℤ) + 1) v₀ j)) ∧
      (∀ j : ℤ, j ∉ ks → v' j = v j) ∧ NoFind a b v') ∨
    (innerLoop a b ((s : ℤ) + 1) v ks = none ∧
      ∃ k ∈ ks, (a.length : ℤ) ≤ roundVal a b ((s : ℤ) + 1) v₀ k ∧
        (b.length : ℤ) ≤ roundVal a b ((s : ℤ) + 1) v₀ k - k) := by
  induction ks generalizing v with
  | nil =>
    left
    exact ⟨v, rfl, by simp, fun j _ => rfl, hNFv⟩
  | cons k rest ih =>
    obtain ⟨hr1, hr2, hr3⟩ := hks k (List.mem_cons_self k rest)
    have hcong : chooseX v ((s : ℤ) + 1) k = chooseX v₀ ((s : ℤ) + 1) k := by
      apply chooseX_congr
      · exact hodd (k - 1) (by omega)
      · exact hodd (k + 1) (by omega)
    have hsub := snake_sub a b (chooseX v ((s : ℤ) + 1) k) (chooseX v ((s : ℤ) + 1) k - k)
    have hfst : (snake a b (chooseX v ((s : ℤ) + 1) k)
        (chooseX v ((s : ℤ) + 1) k - k)).1 = roundVal a b ((s : ℤ) + 1) v₀ k := by
      rw [roundVal, hcong]
    have hsnd : (snake a b (chooseX v ((s : ℤ) + 1) k)
        (chooseX v ((s : ℤ) + 1) k - k)).2 = roundVal a b ((s : ℤ) + 1) v₀ k - k := by
      omega
    rw [innerLoop]
    by_cases hfire : (a.length : ℤ) ≤ (snake a b (chooseX v ((s : ℤ) + 1) k)
        (chooseX v ((s : ℤ) + 1) k - k)).1 ∧
        (b.length : ℤ) ≤ (snake a b (chooseX v ((s : ℤ) + 1) k)
          (chooseX v ((s : ℤ) + 1) k - k)).2
    · right
      simp only [hfire, if_true]
      exact ⟨rfl, k, List.mem_cons_self k rest, by omega, by omega⟩
    · simp only [hfire, if_false]
      set val := (snake a b (chooseX v ((s : ℤ) + 1) k)
        (chooseX v ((s : ℤ) + 1) k - k)).1 with hval
      have hodd' : ∀ j : ℤ, (j + (s : ℤ) + 1) % 2 ≠ 0 → vset v k val j = v₀ j := by
        intro j hj
        rw [vset_other v k val j (by omega)]
        exact hodd j hj
      have hNF' : NoFind a b (vset v k val) := by
        intro j xv hj
        by_cases hjk : j = k
        · subst hjk
          rw [vset_self] at hj
          have hx : xv = val := (Option.some.inj hj).symm
          subst hx
          omega
        · rw [vset_other v k val j hjk] at hj
          exact hNFv j xv hj
      rcases ih (vset v k val) hodd' (fun k' hk' => hks k' (List.mem_cons_of_mem k hk')) hNF' with
        ⟨v', heq, hmem, hnotmem, hNF''⟩ | ⟨heq, k', hk', hf1, hf2⟩
      · left
        refine ⟨v', heq, ?_, ?_, hNF''⟩
        · intro j hj
          rcases List.mem_cons.mp hj with hjk | hjr
          · subst hjk
            by_cases hjr2 : j ∈ rest
            · exact hmem j hjr2
            · rw [hnotmem j hjr2, vset_self]
              rw [hfst]
          · exact hmem j hjr
        · intro j hj
          have hj1 : j ≠ k := fun hh => hj (hh ▸ List.mem_cons_self k rest)
          have hj2 : j ∉ rest := fun hh => hj (List.mem_cons_of_mem k hh)
          rw [hnotmem j hj2, vset_other v k val j hj1]
      · right
        exact ⟨heq, k', List.mem_cons_of_mem k hk', hf1, hf2⟩

/-! ## Longest common subsequences -/

theorem lcsLen_exists : ∀ xs ys : List String,
    ∃ s : List String, List.Sublist s xs ∧ List.Sublist s ys ∧ s.length = lcsLen xs ys
  | [], ys => ⟨[], List.nil_sublist _, List.nil_sublist _, by simp [lcsLen]⟩
  | x :: xs, [] => ⟨[], List.nil_sublist _, List.nil_sublist _, by simp [lcsLen]⟩
  | x :: xs, y :: ys => by
    by_cases h : x = y
    · obtain ⟨s, h1, h2, h3⟩ := lcsLen_exists xs ys
      exact ⟨x :: s, List.Sublist.cons₂ x h1, by rw [h]; exact List.Sublist.cons₂ y h2,
        by simp [lcsLen, h, h3]; omega⟩
    · obtain ⟨s₁, ha1, ha2, ha3⟩ := lcsLen_exists (x :: xs) ys
      obtain ⟨s₂, hb1, hb2, hb3⟩ := lcsLen_exists xs (y :: ys)
      by_cases hm : lcsLen xs (y :: ys) ≤ lcsLen (x :: xs) ys
      · refine ⟨s₁, ha1, List.Sublist.cons y ha2, ?_⟩
        simp only [lcsLen, if_neg h]
        omega
      · refine ⟨s₂, List.Sublist.cons x hb1, hb2, ?_⟩
        simp only [lcsLen, if_neg h]
        omega
termination_by xs ys => xs.length + ys.length

theorem lcsLen_ge : ∀ (xs ys s : List String),
    List.Sublist s xs → List.Sublist s ys → s.length ≤ lcsLen xs ys
  | [], ys, s => by
    intro h1 _
    rw [List.sublist_nil.mp h1]
    simp
  | x :: xs, [], s => by
    intro _ h2
    rw [List.sublist_nil.mp h2]
    simp
  | x :: xs, y :: ys, s => by
    intro h1 h2
    rcases List.sublist_cons_iff.mp h1 with h1' | ⟨t1, rfl, ht1⟩
    · rcases List.sublist_cons_iff.mp h2 with h2' | ⟨t2, he2, ht2⟩
      · -- s avoids both heads
        have := lcsLen_ge xs ys s h1' h2'
        by_cases h : x = y
        · simp only [lcsLen, if_pos h]
          omega
        · have h' := lcsLen_ge xs (y :: ys) s h1' h2
          simp only [lcsLen, if_neg h]
          omega
      · -- s = y :: t2 with t2 <+ ys, and s <+ xs
        subst he2
        by_cases h : x = y
        · have ht2' : List.Sublist t2 xs :=
            List.Sublist.trans (List.sublist_cons_self y t2) h1'
          have := lcsLen_ge xs ys t2 ht2' ht2
          simp only [lcsLen, if_pos h, List.length_cons]
          omega
        · have h' := lcsLen_ge xs (y :: ys) (y :: t2) h1' h2
          simp only [lcsLen, if_neg h]
          omega
    · rcases List.sublist_cons_iff.mp h2 with h2' | ⟨t2, he2, ht2⟩
      · -- s = x :: t1 with t1 <+ xs, and s <+ ys
        by_cases h : x = y
        · have ht1' : List.Sublist t1 ys :=
            List.Sublist.trans (List.sublist_cons_self x t1) h2'
          have := lcsLen_ge xs ys t1 ht1 ht1'
          simp only [lcsLen, if_pos h, List.length_cons]
          omega
        · have h' := lcsLen_ge (x :: xs) ys (x :: t1) (List.Sublist.cons₂ x ht1) h2'
          simp only [lcsLen, if_neg h]
          omega
      · -- s = x :: t1 = y :: t2
        have hxy : x = y := by
          have := he2
          injection this with hh _
        have ht2' : List.Sublist t2 ys := ht2
        have ht12 : t1 = t2 := by injection he2
        subst ht12
        have := lcsLen_ge xs ys t1 ht1 ht2'
        simp only [lcsLen, if_pos hxy, List.length_cons]
        omega
termination_by xs ys => xs.length + ys.length

theorem lcsLen_le_left (xs ys : List String) : lcsLen xs ys ≤ xs.length := by
  obtain ⟨s, h1, _, h3⟩ := lcsLen_exists xs ys
  have := h1.length_le
  omega

theorem lcsLen_le_right (xs ys : List String) : lcsLen xs ys ≤ ys.length := by
  obtain ⟨s, _, h2, h3⟩ := lcsLen_exists xs ys
  have := h2.length_le
  omega

theorem lcsLen_mono (xs xs' ys ys' : List String) (h1 : List.Sublist xs xs')
    (h2 : List.Sublist ys ys') : lcsLen xs ys ≤ lcsLen xs' ys' := by
  obtain ⟨s, hs1, hs2, hs3⟩ := lcsLen_exists xs ys
  have := lcsLen_ge xs' ys' s (hs1.trans h1) (hs2.trans h2)
  omega

theorem linesEqual_nat (a b : List String) (x y : ℕ) (hx : x < a.length) (hy : y < b.length) :
    linesEqual a b (x : ℤ) (y : ℤ) = true ↔ a.get ⟨x, hx⟩ = b.get ⟨y, hy⟩ := by
  have h1 : lineAt a (x : ℤ) = some (a.get ⟨x, hx⟩) := by
    simp only [lineAt]
    rw [if_neg (show ¬((x : ℤ) < 0) by omega), if_pos (show (0 : ℤ) ≤ (x : ℤ) by omega)]
    simp [List.get?_eq_get hx]
  have h2 : lineAt b (y : ℤ) = some (b.get ⟨y, hy⟩) := by
    simp only [lineAt]
    rw [if_neg (show ¬((y : ℤ) < 0) by omega), if_pos (show (0 : ℤ) ≤ (y : ℤ) by omega)]
    simp [List.get?_eq_get hy]
  rw [linesEqual, h1, h2]
  simp

theorem straight_del (a b : List String) (x y : ℤ) :
    ∀ c : ℕ, Steps a b (x, y) (x + c, y) c
  | 0 => by simpa using Steps.refl (x, y)
  | c + 1 => by
    have h := Steps.del' (straight_del a b x y c)
    have he : (x + c) + 1 = x + (c + 1 : ℕ) := by push_cast; ring
    rwa [he] at h

theorem straight_ins (a b : List String) (x y : ℤ) :
    ∀ c : ℕ, Steps a b (x, y) (x, y + c) c
  | 0 => by simpa using Steps.refl (x, y)
  | c + 1 => by
    have h := Steps.ins' (straight_ins a b x y c)
    have he : (y + c) + 1 = y + (c + 1 : ℕ) := by push_cast; ring
    rwa [he] at h

/-- Construction: from grid point `(x, y)` the corner `(n, m)` is reachable
at cost `(n - x) + (m - y) - 2 * L` where `L` is the LCS length of the
suffixes. -/
theorem reach_of_lcs (a b : List String) :
    ∀ x y : ℕ, x ≤ a.length → y ≤ b.length →
    Steps a b ((x : ℤ), (y : ℤ)) ((a.length : ℤ), (b.length : ℤ))
      ((a.length - x) + (b.length - y) - 2 * lcsLen (a.drop x) (b.drop y)) := by
  intro x y hx hy
  by_cases hxe : x = a.length
  · subst hxe
    have : a.drop a.length = [] := by simp
    rw [this]
    have h := straight_ins a b (a.length : ℤ) (y : ℤ) (b.length - y)
    have he : (y : ℤ) + ((b.length : ℕ) - y : ℕ) = (b.length : ℤ) := by push_cast; omega
    rw [he] at h
    have hc : (a.length - a.length) + (b.length - y) - 2 * lcsLen [] (b.drop y)
        = b.length - y := by simp [lcsLen]
    rwa [hc]
  · by_cases hye : y = b.length
    · subst hye
      have hb : b.drop b.length = [] := by simp
      rw [hb]
      have hxl : x < a.length := by omega
      have h := straight_del a b (x : ℤ) (b.length : ℤ) (a.length - x)
      have he : (x : ℤ) + ((a.length : ℕ) - x : ℕ) = (a.length : ℤ) := by push_cast; omega
      rw [he] at h
      have hc : (a.length - x) + (b.length - b.length) - 2 * lcsLen (a.drop x) []
          = a.length - x := by
        cases hd : a.drop x with
        | nil => simp [lcsLen]
        | cons z zs => simp [lcsLen]
      rwa [hc]
    · have hxl : x < a.length := by omega
      have hyl : y < b.length := by omega
      have hda := List.drop_eq_getElem_cons hxl
      have hdb := List.drop_eq_getElem_cons hyl
      by_cases heq : a[x] = b[y]
      · have hle : linesEqual a b (x : ℤ) (y : ℤ) = true := by
          rw [linesEqual_nat a b x y hxl hyl]
          simpa using heq
        have ih := reach_of_lcs a b (x + 1) (y + 1) (by omega) (by omega)
        have hstep : Steps a b ((x : ℤ), (y : ℤ)) (((x : ℤ) + 1), ((y : ℤ) + 1)) 0 := by
          have := (Steps.refl ((x : ℤ), (y : ℤ))).diag (p := ((x : ℤ), (y : ℤ)))
            (by simp) (by simpa using hxl) (by simp) (by simpa using hyl) hle
          simpa using this
        have hcomp := hstep.trans (by
          have hc1 : ((x : ℕ) + 1 : ℕ) = ((x : ℤ) + 1 : ℤ) := by push_cast; ring
          have hc2 : ((y : ℕ) + 1 : ℕ) = ((y : ℤ) + 1 : ℤ) := by push_cast; ring
          rw [← hc1, ← hc2]
          exact ih)
        have hlcs : lcsLen (a.drop x) (b.drop y)
            = 1 + lcsLen (a.drop (x + 1)) (b.drop (y + 1)) := by
          rw [hda, hdb]
          simp only [lcsLen]
          rw [if_pos heq]
        have harith : 0 + ((a.length - (x + 1)) + (b.length - (y + 1))
            - 2 * lcsLen (a.drop (x + 1)) (b.drop (y + 1)))
            = (a.length - x) + (b.length - y) - 2 * lcsLen (a.drop x) (b.drop y) := by
          have h1 := lcsLen_le_left (a.drop (x + 1)) (b.drop (y + 1))
          have h2 : (a.drop (x + 1)).length = a.length - (x + 1) := by simp
          rw [hlcs]
          omega
        rwa [harith] at hcomp
      · have hlcs : lcsLen (a.drop x) (b.drop y)
            = max (lcsLen (a.drop x) (b.drop (y + 1))) (lcsLen (a.drop (x + 1)) (b.drop y)) := by
          conv_lhs => rw [hda, hdb]
          rw [lcsLen]
          · rw [if_neg heq, ← hda, ← hdb]
        by_cases hm : lcsLen (a.drop (x + 1)) (b.drop y) ≤ lcsLen (a.drop x) (b.drop (y + 1))
        · -- step right (insert): advance y
          have ih := reach_of_lcs a b x (y + 1) (by omega) (by omega)
          have hstep : Steps a b ((x : ℤ), (y : ℤ)) ((x : ℤ), ((y : ℤ) + 1)) 1 :=
            Steps.ins' (Steps.refl _)
          have hcomp := hstep.trans (by
            have hc2 : ((y : ℕ) + 1 : ℕ) = ((y : ℤ) + 1 : ℤ) := by push_cast; ring
            rw [← hc2]
            exact ih)
          have harith : 1 + ((a.length - x) + (b.length - (y + 1))
              - 2 * lcsLen (a.drop x) (b.drop (y + 1)))
              = (a.length - x) + (b.length - y) - 2 * lcsLen (a.drop x) (b.drop y) := by
            have h1 := lcsLen_le_right (a.drop x) (b.drop (y + 1))
            have h2 : (b.drop (y + 1)).length = b.length - (y + 1) := by simp
            have h3 := lcsLen_le_left (a.drop x) (b.drop (y + 1))
            have h4 : (a.drop x).length = a.length - x := by simp
            have hmax : lcsLen (a.drop x) (b.drop y) = lcsLen (a.drop x) (b.drop (y + 1)) := by
              rw [hlcs]
              exact max_eq_left hm
            omega
          rwa [harith] at hcomp
        · -- step down (delete): advance x
          have ih := reach_of_lcs a b (x + 1) y (by omega) (by omega)
          have hstep : Steps a b ((x : ℤ), (y : ℤ)) (((x : ℤ) + 1), (y : ℤ)) 1 :=
            Steps.del' (Steps.refl _)
          have hcomp := hstep.trans (by
            have hc1 : ((x : ℕ) + 1 : ℕ) = ((x : ℤ) + 1 : ℤ) := by push_cast; ring
            rw [← hc1]
            exact ih)
          have harith : 1 + ((a.length - (x + 1)) + (b.length - y)
              - 2 * lcsLen (a.drop (x + 1)) (b.drop y))
              = (a.length - x) + (b.length - y) - 2 * lcsLen (a.drop x) (b.drop y) := by
            have h1 := lcsLen_le_left (a.drop (x + 1)) (b.drop y)
            have h2 : (a.drop (x + 1)).length = a.length - (x + 1) := by simp
            have h3 := lcsLen_le_right (a.drop (x + 1)) (b.drop y)
            have h4 : (b.drop y).length = b.length - y := by simp
            have hmax : lcsLen (a.drop x) (b.drop y) = lcsLen (a.drop (x + 1)) (b.drop y) := by
              rw [hlcs]
              exact max_eq_right (by omega)
            omega
          rwa [harith] at hcomp
termination_by x y => (a.length - x) + (b.length - y)
decreasing_by
  all_goals omega

theorem Steps.parity {a b : List String} {p q : ℤ × ℤ} {d : ℕ}
    (h : Steps a b p q d) : ((q.1 - q.2) - (p.1 - p.2) + d) % 2 = 0 := by
  induction h with
  | refl => omega
  | del _ ih => simp only [] at ih ⊢; omega
  | ins _ ih => simp only [] at ih ⊢; omega
  | diag _ _ _ _ _ _ ih => simp only [] at ih ⊢; omega

theorem take_sublist_take_succ (l : List String) (t : ℕ) :
    List.Sublist (l.take t) (l.take (t + 1)) := by
  have h1 : (l.take (t + 1)).take t = l.take t := by
    rw [List.take_take]
    congr 1
    omega
  rw [← h1]
  exact List.take_sublist t (l.take (t + 1))

/-- Lower bound: any path from the origin to an in-grid point `q` has cost
at least `q.1 + q.2 - 2 * L` for `L` the LCS length of the prefixes. -/
theorem steps_lower (a b : List String) {q : ℤ × ℤ} {d : ℕ}
    (h : Steps a b (0, 0) q d) :
    q.1 ≤ (a.length : ℤ) → q.2 ≤ (b.length : ℤ) →
    q.1 + q.2 ≤ (d : ℤ) + 2 * lcsLen (a.take q.1.toNat) (b.take q.2.toNat) := by
  induction h with
  | refl =>
    intro _ _
    simp
  | @del q0 d0 h ih =>
    intro h1 h2
    simp only [Prod.fst, Prod.snd] at h1 h2 ⊢
    have hm := h.mono
    simp only [Prod.fst, Prod.snd] at hm
    have ihh := ih (by omega) (by omega)
    have he : (q0.1 + 1).toNat = q0.1.toNat + 1 := by omega
    rw [he]
    have hmono := lcsLen_mono (a.take q0.1.toNat) (a.take (q0.1.toNat + 1))
      (b.take q0.2.toNat) (b.take q0.2.toNat)
      (take_sublist_take_succ a q0.1.toNat) (List.Sublist.refl _)
    push_cast
    omega
  | @ins q0 d0 h ih =>
    intro h1 h2
    simp only [Prod.fst, Prod.snd] at h1 h2 ⊢
    have hm := h.mono
    simp only [Prod.fst, Prod.snd] at hm
    have ihh := ih (by omega) (by omega)
    have he : (q0.2 + 1).toNat = q0.2.toNat + 1 := by omega
    rw [he]
    have hmono := lcsLen_mono (a.take q0.1.toNat) (a.take q0.1.toNat)
      (b.take q0.2.toNat) (b.take (q0.2.toNat + 1))
      (List.Sublist.refl _) (take_sublist_take_succ b q0.2.toNat)
    push_cast
    omega
  | @diag q0 d0 h g1 g2 g3 g4 g5 ih =>
    intro h1 h2
    simp only [Prod.fst, Prod.snd] at h1 h2 ⊢
    have ihh := ih (by omega) (by omega)
    have hx : q0.1.toNat < a.length := by omega
    have hy : q0.2.toNat < b.length := by omega
    have hxe : ((q0.1.toNat : ℕ) : ℤ) = q0.1 := by omega
    have hye : ((q0.2.toNat : ℕ) : ℤ) = q0.2 := by omega
    have heq : a.get ⟨q0.1.toNat, hx⟩ = b.get ⟨q0.2.toNat, hy⟩ := by
      rw [← linesEqual_nat a b q0.1.toNat q0.2.toNat hx hy]
      rw [hxe, hye]
      exact g5
    have hstepup : lcsLen (a.take q0.1.toNat) (b.take q0.2.toNat) + 1 ≤
        lcsLen (a.take (q0.1.toNat + 1)) (b.take (q0.2.toNat + 1)) := by
      obtain ⟨s, hs1, hs2, hs3⟩ := lcsLen_exists (a.take q0.1.toNat) (b.take q0.2.toNat)
      have hta : a.take (q0.1.toNat + 1) = a.take q0.1.toNat ++ [a[q0.1.toNat]] :=
        (List.take_concat_get' a q0.1.toNat hx).symm
      have htb : b.take (q0.2.toNat + 1) = b.take q0.2.toNat ++ [b[q0.2.toNat]] :=
        (List.take_concat_get' b q0.2.toNat hy).symm
      have hel : a[q0.1.toNat] = b[q0.2.toNat] := heq
      have hsa : List.Sublist (s ++ [a[q0.1.toNat]]) (a.take (q0.1.toNat + 1)) := by
        rw [hta]
        exact List.Sublist.append hs1 (List.Sublist.refl _)
      have hsb : List.Sublist (s ++ [a[q0.1.toNat]]) (b.take (q0.2.toNat + 1)) := by
        rw [htb, hel]
        exact List.Sublist.append hs2 (List.Sublist.refl _)
      have := lcsLen_ge (a.take (q0.1.toNat + 1)) (b.take (q0.2.toNat + 1)) _ hsa hsb
      simp only [List.length_append, List.length_singleton] at this
      omega
    have he1 : (q0.1 + 1).toNat = q0.1.toNat + 1 := by omega
    have he2 : (q0.2 + 1).toNat = q0.2.toNat + 1 := by omega
    rw [he1, he2]
    push_cast
    omega

/-- Any path from the origin to the corner costs at least `N + M - 2L`. -/
theorem steps_corner_lower (a b : List String) {d : ℕ}
    (h : Steps a b (0, 0) ((a.length : ℤ), (b.length : ℤ)) d) :
    (a.length : ℤ) + b.length - 2 * lcsLen a b ≤ d := by
  have hh := steps_lower a b h (by simp) (by simp)
  simp only [Prod.fst, Prod.snd] at hh
  have h1 : ((a.length : ℤ)).toNat = a.length := by omega
  have h2 : ((b.length : ℤ)).toNat = b.length := by omega
  rw [h1, h2, List.take_length, List.take_length] at hh
  omega

/-! ## Round-by-round description of the forward pass -/

/-- The dictionary state before round `t` (after rounds `0 .. t-1`, all of
which completed without triggering the return test). -/
def vRounds (a b : List String) : ℕ → VMap
  | 0 => vInit
  | t + 1 =>
    match innerLoop a b (t : ℤ) (vRounds a b t) (kRange t) with
    | some v' => v'
    | none => vRounds a b t

/-- Whether round `t` triggers the `x >= n and y >= m` return. -/
def foundAt (a b : List String) (t : ℕ) : Bool :=
  (innerLoop a b (t : ℤ) (vRounds a b t) (kRange t)).isNone

theorem round0_eq (a b : List String) :
    innerLoop a b ((0 : ℕ) : ℤ) vInit (kRange 0) =
      if (a.length : ℤ) ≤ (snake a b 0 0).1 ∧ (b.length : ℤ) ≤ (snake a b 0 0).2 then none
      else some (vset vInit 0 (snake a b 0 0).1) := by
  have hk : kRange 0 = [0] := by decide
  have hcx : chooseX vInit ((0 : ℕ) : ℤ) 0 = 0 := by decide
  rw [hk, innerLoop]
  simp only [hcx, sub_zero]
  split
  · rfl
  · rw [innerLoop]

/-- Diagonal absorption at round 0: any zero-cost point is dominated by the
snake from the origin. -/
theorem zero_complete (a b : List String) {q : ℤ × ℤ} {d' : ℕ}
    (h : Steps a b (0, 0) q d') :
    d' = 0 → q.1 - q.2 = 0 → q.1 ≤ (snake a b 0 0).1 := by
  induction h with
  | refl =>
    intro _ _
    exact (snake_le a b 0 0).1
  | del _ _ =>
    intro hd _
    exact absurd hd (by omega)
  | ins _ _ =>
    intro hd _
    exact absurd hd (by omega)
  | @diag q0 d0 h g1 g2 g3 g4 g5 ih =>
    intro hd hq
    simp only [Prod.fst, Prod.snd] at hq ⊢
    have hih := ih hd (by omega)
    by_contra hlt
    have hval : (snake a b 0 0).1 = q0.1 := by omega
    have hsub := snake_sub a b 0 0
    have hfix := snake_not_guard a b 0 0
    apply hfix
    have hv2 : (snake a b 0 0).2 = q0.2 := by omega
    rw [hval, hv2]
    exact ⟨g2, g4, g5⟩

/-- The main induction over rounds: as long as no round has triggered the
return, the dictionary satisfies the furthest-reach layer invariant, the
no-find property, and each round writes exactly its round values. -/
theorem rounds_invariant (a b : List String) :
    ∀ t : ℕ, (∀ t' : ℕ, t' ≤ t → foundAt a b t' = false) →
      Layer a b t (vRounds a b (t + 1)) ∧ NoFind a b (vRounds a b (t + 1)) ∧
      (∀ k ∈ kRange t, vRounds a b (t + 1) k = some (roundVal a b (t : ℤ) (vRounds a b t) k)) ∧
      (∀ j : ℤ, j ∉ kRange t → vRounds a b (t + 1) j = vRounds a b t j) := by
  intro t
  induction t with
  | zero =>
    intro hf
    have h0 := hf 0 (le_refl 0)
    rw [foundAt, show vRounds a b 0 = vInit from rfl, round0_eq] at h0
    have hnf : ¬((a.length : ℤ) ≤ (snake a b 0 0).1 ∧ (b.length : ℤ) ≤ (snake a b 0 0).2) := by
      intro hc
      rw [if_pos hc] at h0
      simp at h0
    have hv1 : vRounds a b 1 = vset vInit 0 (snake a b 0 0).1 := by
      show (match innerLoop a b ((0 : ℕ) : ℤ) (vRounds a b 0) (kRange 0) with
        | some v' => v'
        | none => vRounds a b 0) = _
      rw [show vRounds a b 0 = vInit from rfl, round0_eq, if_neg hnf]
    have hp0 : 0 ≤ (snake a b 0 0).1 := (snake_le a b 0 0).1
    have hsub := snake_sub a b 0 0
    have hsnd : (snake a b 0 0).2 = (snake a b 0 0).1 := by omega
    have hsound : Steps a b (0, 0) ((snake a b 0 0).1, (snake a b 0 0).1 - 0) 0 := by
      have hst := snake_steps (Steps.refl (a := a) (b := b) ((0 : ℤ), (0 : ℤ)))
        (le_refl 0) (le_refl 0)
      have : snake a b 0 0 = ((snake a b 0 0).1, (snake a b 0 0).1 - 0) :=
        Prod.ext rfl (by omega)
      rwa [this] at hst
    refine ⟨?_, ?_, ?_, ?_⟩
    · intro k hk1 hk2 _
      have hk0 : k = 0 := by omega
      subst hk0
      refine ⟨(snake a b 0 0).1, by rw [hv1]; exact vset_self _ _ _, by omega, hsound, ?_⟩
      intro x hx
      exact zero_complete a b hx rfl (by simp)
    · intro j xv hj
      rw [hv1] at hj
      by_cases hj0 : j = 0
      · subst hj0
        rw [vset_self] at hj
        have : xv = (snake a b 0 0).1 := (Option.some.inj hj).symm
        subst this
        intro hc
        exact hnf ⟨hc.1, by omega⟩
      · rw [vset_other _ _ _ _ hj0, vInit] at hj
        by_cases hj1 : j = 1
        · rw [if_pos hj1] at hj
          have : xv = 0 := (Option.some.inj hj).symm
          subst this
          intro hc
          have := hc.2
          omega
        · rw [if_neg hj1] at hj
          exact absurd hj (by simp)
    · intro k hk
      have hk0 : k = 0 := by
        have := mem_kRange.mp hk
        omega
      subst hk0
      rw [hv1, vset_self]
      have hcx : chooseX vInit ((0 : ℕ) : ℤ) 0 = 0 := by decide
      show _ = some (roundVal a b ((0 : ℕ) : ℤ) (vRounds a b 0) 0)
      rw [roundVal, show vRounds a b 0 = vInit from rfl, hcx, sub_zero]
    · intro j hj
      have hj0 : j ≠ 0 := by
        intro hh
        subst hh
        exact hj (mem_kRange.mpr (by norm_num))
      rw [hv1, vset_other _ _ _ _ hj0]
      rfl
  | succ s ihs =>
    intro hf
    obtain ⟨hL, hNF, _, _⟩ := ihs (fun t' ht' => hf t' (by omega))
    have hfs := hf (s + 1) (le_refl _)
    rw [foundAt] at hfs
    have hcast : ((s + 1 : ℕ) : ℤ) = (s : ℤ) + 1 := by push_cast; ring
    have hrun := innerLoop_run a b s (vRounds a b (s + 1)) (kRange (s + 1))
      (vRounds a b (s + 1)) (fun j _ => rfl)
      (fun k hk => by
        have := mem_kRange.mp hk
        push_cast at this
        exact ⟨by omega, by omega, by omega⟩) hNF
    rcases hrun with ⟨v', heq, hmem, hnotmem, hNF'⟩ | ⟨heq, _⟩
    · have hv2 : vRounds a b (s + 2) = v' := by
        show (match innerLoop a b ((s + 1 : ℕ) : ℤ) (vRounds a b (s + 1)) (kRange (s + 1)) with
          | some v'' => v''
          | none => vRounds a b (s + 1)) = v'
        rw [hcast, heq]
      refine ⟨?_, by rw [hv2]; exact hNF', ?_, ?_⟩
      · intro k hk1 hk2 hpar
        have hkmem : k ∈ kRange (s + 1) := by
          rw [mem_kRange]
          push_cast
          push_cast at hk1 hk2 hpar
          exact ⟨by omega, by omega, by omega⟩
        refine ⟨roundVal a b ((s : ℤ) + 1) (vRounds a b (s + 1)) k,
          by rw [hv2]; exact hmem k hkmem, ?_, ?_, ?_⟩
        · have := (roundVal_spec a b s (vRounds a b (s + 1)) hL k
            (by push_cast at hk1; omega) (by push_cast at hk2; omega)
            (by push_cast at hpar; omega)).1
          push_cast
          omega
        · have := (roundVal_spec a b s (vRounds a b (s + 1)) hL k
            (by push_cast at hk1; omega) (by push_cast at hk2; omega)
            (by push_cast at hpar; omega)).2
          exact this
        · intro x hx
          exact roundVal_complete a b s (vRounds a b (s + 1)) hL k
            (by push_cast at hk1; omega) (by push_cast at hk2; omega)
            (by push_cast at hpar; omega) hx rfl (by simp)
      · intro k hk
        rw [hv2, hcast]
        exact hmem k hk
      · intro j hj
        rw [hv2]
        exact hnotmem j hj
    · rw [hcast, heq] at hfs
      simp at hfs

theorem corner_reach (a b : List String) :
    Steps a b (0, 0) ((a.length : ℤ), (b.length : ℤ))
      (a.length + b.length - 2 * lcsLen a b) := by
  have h := reach_of_lcs a b 0 0 (by omega) (by omega)
  simpa using h

theorem fires (a b : List String) (t : ℕ)
    (hprev : ∀ t' : ℕ, t' < t → foundAt a b t' = false)
    (hreach : Steps a b (0, 0) ((a.length : ℤ), (b.length : ℤ)) t) :
    foundAt a b t = true := by
  by_contra hft
  have hft' : foundAt a b t = false := by
    cases h : foundAt a b t
    · rfl
    · exact absurd h hft
  cases t with
  | zero =>
    rw [foundAt, show vRounds a b 0 = vInit from rfl, round0_eq] at hft'
    have hnm : (a.length : ℤ) = (b.length : ℤ) := by
      have := hreach.diag_bound
      simp only [Prod.fst, Prod.snd] at this
      omega
    have hcomp := zero_complete a b hreach rfl (by simp only [Prod.fst, Prod.snd]; omega)
    simp only [Prod.fst] at hcomp
    have hsub := snake_sub a b 0 0
    have hc : (a.length : ℤ) ≤ (snake a b 0 0).1 ∧ (b.length : ℤ) ≤ (snake a b 0 0).2 :=
      ⟨hcomp, by omega⟩
    rw [if_pos hc] at hft'
    simp at hft'
  | succ s =>
    obtain ⟨hL, hNF, _, _⟩ := rounds_invariant a b s (fun t' ht' => hprev t' (by omega))
    rw [foundAt] at hft'
    have hcast : ((s + 1 : ℕ) : ℤ) = (s : ℤ) + 1 := by push_cast; ring
    rw [hcast] at hft'
    have hdb := hreach.diag_bound
    simp only [Prod.fst, Prod.snd] at hdb
    have hpar := hreach.parity
    simp only [Prod.fst, Prod.snd] at hpar
    rcases innerLoop_run a b s (vRounds a b (s + 1)) (kRange (s + 1)) (vRounds a b (s + 1))
      (fun j _ => rfl)
      (fun k hk => by
        have := mem_kRange.mp hk
        push_cast at this
        exact ⟨by omega, by omega, by omega⟩) hNF with
      ⟨v', heq, hmem, _, hNF'⟩ | ⟨heq, _⟩
    · have hkmem : ((a.length : ℤ) - b.length) ∈ kRange (s + 1) := by
        rw [mem_kRange]
        push_cast
        refine ⟨by omega, by omega, by omega⟩
      have hval := hmem _ hkmem
      have hcomplete := roundVal_complete a b s (vRounds a b (s + 1)) hL
        ((a.length : ℤ) - b.length) (by push_cast at hdb ⊢; omega)
        (by push_cast at hdb ⊢; omega) (by push_cast at hpar ⊢; omega)
        hreach rfl rfl
      simp only [Prod.fst] at hcomplete
      exact hNF' _ _ hval ⟨hcomplete, by omega⟩
    · rw [heq] at hft'
      simp at hft'

theorem found_exists (a b : List String) : ∃ t : ℕ, foundAt a b t = true := by
  by_contra hall
  push_neg at hall
  have hall' : ∀ t : ℕ, foundAt a b t = false := by
    intro t
    cases h : foundAt a b t
    · rfl
    · exact absurd h (hall t)
  have := fires a b (a.length + b.length - 2 * lcsLen a b)
    (fun t' _ => hall' t') (corner_reach a b)
  rw [hall'] at this
  exact Bool.false_ne_true this

/-- The round at which the solver first triggers the return test. -/
def dFound (a b : List String) : ℕ := Nat.find (found_exists a b)

theorem dFound_found (a b : List String) : foundAt a b (dFound a b) = true :=
  Nat.find_spec (found_exists a b)

theorem dFound_min (a b : List String) {t : ℕ} (h : t < dFound a b) :
    foundAt a b t = false := by
  have := Nat.find_min (found_exists a b) h
  cases hh : foundAt a b t
  · rfl
  · exact absurd hh this

theorem dFound_le (a b : List String) :
    dFound a b ≤ a.length + b.length - 2 * lcsLen a b := by
  by_contra h
  push_neg at h
  have hfire := fires a b (a.length + b.length - 2 * lcsLen a b)
    (fun t' ht' => dFound_min a b (by omega)) (corner_reach a b)
  have hfalse := dFound_min a b h
  rw [hfalse] at hfire
  exact Bool.false_ne_true hfire

theorem dFound_ge (a b : List String) :
    a.length + b.length - 2 * lcsLen a b ≤ dFound a b := by
  have hfound := dFound_found a b
  have hlcsa := lcsLen_le_left a b
  have hlcsb := lcsLen_le_right a b
  cases hd : dFound a b with
  | zero =>
    rw [hd, foundAt, show vRounds a b 0 = vInit from rfl, round0_eq] at hfound
    by_cases hc : (a.length : ℤ) ≤ (snake a b 0 0).1 ∧ (b.length : ℤ) ≤ (snake a b 0 0).2
    · have hsub := snake_sub a b 0 0
      have hsound : Steps a b (0, 0) (snake a b 0 0) 0 :=
        snake_steps (Steps.refl (a := a) (b := b) ((0 : ℤ), (0 : ℤ))) (le_refl 0) (le_refl 0)
      obtain ⟨d', hd', hcorner⟩ := hsound.truncate
      have hmin1 : min (snake a b 0 0).1 (a.length : ℤ) = (a.length : ℤ) := by omega
      have hmin2 : min (snake a b 0 0).2 (b.length : ℤ) = (b.length : ℤ) := by omega
      rw [hmin1, hmin2] at hcorner
      have := steps_corner_lower a b hcorner
      omega
    · rw [if_neg hc] at hfound
      simp at hfound
  | succ s =>
    rw [hd, foundAt] at hfound
    have hcast : ((s + 1 : ℕ) : ℤ) = (s : ℤ) + 1 := by push_cast; ring
    rw [hcast] at hfound
    obtain ⟨hL, hNF, _, _⟩ := rounds_invariant a b s
      (fun t' ht' => dFound_min a b (by omega))
    rcases innerLoop_run a b s (vRounds a b (s + 1)) (kRange (s + 1)) (vRounds a b (s + 1))
      (fun j _ => rfl)
      (fun k hk => by
        have := mem_kRange.mp hk
        push_cast at this
        exact ⟨by omega, by omega, by omega⟩) hNF with
      ⟨v', heq, _, _, _⟩ | ⟨heq, k, hk, hf1, hf2⟩
    · rw [heq] at hfound
      simp at hfound
    · have hkr := mem_kRange.mp hk
      push_cast at hkr
      have hspec := roundVal_spec a b s (vRounds a b (s + 1)) hL k
        (by omega) (by omega) (by omega)
      obtain ⟨d', hd', hcorner⟩ := hspec.2.truncate
      simp only [Prod.fst, Prod.snd] at hcorner
      have hmin1 : min (roundVal a b ((s : ℤ) + 1) (vRounds a b (s + 1)) k)
          (a.length : ℤ) = (a.length : ℤ) := by omega
      have hmin2 : min (roundVal a b ((s : ℤ) + 1) (vRounds a b (s + 1)) k - k)
          (b.length : ℤ) = (b.length : ℤ) := by omega
      rw [hmin1, hmin2] at hcorner
      have := steps_corner_lower a b hcorner
      omega

theorem dFound_eq (a b : List String) :
    dFound a b = a.length + b.length - 2 * lcsLen a b :=
  le_antisymm (dFound_le a b) (dFound_ge a b)

theorem dFound_le_sum (a b : List String) : dFound a b ≤ a.length + b.length := by
  have := dFound_le a b
  omega

theorem dFound_parity (a b : List String) :
    ((a.length : ℤ) - b.length + dFound a b) % 2 = 0 := by
  have h := dFound_eq a b
  have h1 := lcsLen_le_left a b
  have h2 := lcsLen_le_right a b
  have : (dFound a b : ℤ) = (a.length : ℤ) + b.length - 2 * lcsLen a b := by
    rw [h]
    push_cast
    omega
  omega

theorem dFound_diag (a b : List String) :
    -(dFound a b : ℤ) ≤ (a.length : ℤ) - b.length ∧
    (a.length : ℤ) - b.length ≤ (dFound a b : ℤ) := by
  have h := dFound_eq a b
  have h1 := lcsLen_le_left a b
  have h2 := lcsLen_le_right a b
  have : (dFound a b : ℤ) = (a.length : ℤ) + b.length - 2 * lcsLen a b := by
    rw [h]
    push_cast
    omega
  omega

theorem solveAux_eq (a b : List String) (t : ℕ) (ht : t ≤ dFound a b) :
    solveAux a b (a.length + b.length) t ((List.range t).map (vRounds a b)) (vRounds a b t) =
      backtrack a b ((List.range (dFound a b + 1)).map (vRounds a b)) (dFound a b) := by
  have htle : t ≤ a.length + b.length := le_trans ht (dFound_le_sum a b)
  rw [solveAux, dif_pos htle]
  have htr : (List.range t).map (vRounds a b) ++ [vRounds a b t] =
      (List.range (t + 1)).map (vRounds a b) := by
    rw [List.range_succ, List.map_append]
    rfl
  by_cases hteq : t = dFound a b
  · subst hteq
    have hfound := dFound_found a b
    rw [foundAt, Option.isNone_iff_eq_none] at hfound
    rw [hfound, htr]
  · have hlt : t < dFound a b := by omega
    have hfalse := dFound_min a b hlt
    rw [foundAt] at hfalse
    cases heq : innerLoop a b (t : ℤ) (vRounds a b t) (kRange t) with
    | none =>
      rw [heq] at hfalse
      simp at hfalse
    | some v' =>
      have hv : vRounds a b (t + 1) = v' := by
        show (match innerLoop a b (t : ℤ) (vRounds a b t) (kRange t) with
          | some v'' => v''
          | none => vRounds a b t) = v'
        rw [heq]
    -- the match in solveAux reduces via the cases equation
      show solveAux a b (a.length + b.length) (t + 1)
        ((List.range t).map (vRounds a b) ++ [vRounds a b t]) v' = _
      rw [htr, ← hv]
      exact solveAux_eq a b (t + 1) (by omega)
termination_by dFound a b - t

theorem findSES_eq (a b : List String) :
    findShortestEditScript a b =
      backtrack a b ((List.range (dFound a b + 1)).map (vRounds a b)) (dFound a b) := by
  rw [findShortestEditScript]
  have h := solveAux_eq a b 0 (Nat.zero_le _)
  simpa using h

/-! ## Staircase paths

The path returned by `_backtrack` is shown to be a staircase: consecutive
points differ by a unit insert step, a unit delete step, or a positive
diagonal jump.  `PathCost` counts the non-diagonal steps. -/

/-- One admissible step of an edit-graph path as the builder understands it. -/
def StepOK (p q : ℤ × ℤ) : Prop :=
  (q.1 = p.1 ∧ q.2 = p.2 + 1) ∨ (q.1 = p.1 + 1 ∧ q.2 = p.2) ∨
  (q.1 - p.1 = q.2 - p.2 ∧ 1 ≤ q.1 - p.1)

/-- The insert/delete cost of one step (diagonal jumps are free). -/
def editCost (p q : ℤ × ℤ) : ℕ := if q.1 - p.1 = q.2 - p.2 then 0 else 1

/-- All consecutive steps of the list are admissible. -/
def IsStaircase : List (ℤ × ℤ) → Prop
  | p :: q :: L => StepOK p q ∧ IsStaircase (q :: L)
  | _ => True

/-- Total insert/delete cost along the list. -/
def PathCost : List (ℤ × ℤ) → ℕ
  | p :: q :: L => editCost p q + PathCost (q :: L)
  | _ => 0

theorem isStaircase_snoc : ∀ (L : List (ℤ × ℤ)) (p q : ℤ × ℤ),
    IsStaircase L → L.getLast? = some p → StepOK p q → IsStaircase (L ++ [q])
  | [], p, q => by
    intro _ hl _
    simp at hl
  | [r], p, q => by
    intro _ hl hs
    have : r = p := by simpa using hl
    subst this
    exact ⟨hs, trivial⟩
  | r :: r' :: L, p, q => by
    intro hst hl hs
    refine ⟨hst.1, ?_⟩
    exact isStaircase_snoc (r' :: L) p q hst.2 (by simpa using hl) hs

theorem pathCost_snoc : ∀ (L : List (ℤ × ℤ)) (p q : ℤ × ℤ),
    L.getLast? = some p → PathCost (L ++ [q]) = PathCost L + editCost p q
  | [], p, q => by
    intro hl
    simp at hl
  | [r], p, q => by
    intro hl
    have : r = p := by simpa using hl
    subst this
    simp [PathCost]
  | r :: r' :: L, p, q => by
    intro hl
    show editCost r r' + PathCost ((r' :: L) ++ [q]) = editCost r r' + PathCost (r' :: L) + editCost p q
    rw [pathCost_snoc (r' :: L) p q (by simpa using hl)]
    omega

theorem getLast?_snoc (L : List (ℤ × ℤ)) (q : ℤ × ℤ) : (L ++ [q]).getLast? = some q := by
  simp

theorem head?_snoc_ne (L : List (ℤ × ℤ)) (q : ℤ × ℤ) (h : L ≠ []) :
    (L ++ [q]).head? = L.head? := by
  cases L with
  | nil => exact absurd rfl h
  | cons r L' => simp

theorem stepOK_diag1 (x y : ℤ) : StepOK (x - 1, y - 1) (x, y) := by
  right
  right
  constructor
  · show x - (x - 1) = y - (y - 1)
    omega
  · show 1 ≤ x - (x - 1)
    omega

/-- The diagonal walk-back in the "came from an insert" configuration
(`prev_y = prev_x - (k + 1)`, so `y - prev_y = x - prev_x + 1`): it stops at
`(prev_x, prev_y + 1)` and the walked points form a unit-diagonal chain. -/
theorem diagWalk_down (prevx prevy : ℤ) : ∀ (x y : ℤ) (acc : List (ℤ × ℤ)),
    y - prevy = x - prevx + 1 → prevx ≤ x →
    ∃ w : List (ℤ × ℤ),
      diagWalk prevx prevy x y acc = ((prevx, prevy + 1), acc ++ w) ∧
      IsStaircase (w.reverse ++ [(x, y)]) ∧ PathCost (w.reverse ++ [(x, y)]) = 0 ∧
      (w.reverse ++ [(x, y)]).head? = some (prevx, prevy + 1) := by
  intro x y acc hk hge
  rw [diagWalk]
  by_cases hcond : prevx < x ∧ prevy < y
  · rw [dif_pos hcond]
    obtain ⟨w', hw1, hw2, hw3, hw4⟩ :=
      diagWalk_down prevx prevy (x - 1) (y - 1) (acc ++ [(x - 1, y - 1)]) (by omega) (by omega)
    refine ⟨(x - 1, y - 1) :: w', by rw [hw1]; simp, ?_, ?_, ?_⟩
    · have hlast : (w'.reverse ++ [(x - 1, y - 1)]).getLast? = some (x - 1, y - 1) :=
        getLast?_snoc _ _
      have := isStaircase_snoc (w'.reverse ++ [(x - 1, y - 1)]) (x - 1, y - 1) (x, y)
        hw2 hlast (stepOK_diag1 x y)
      simpa using this
    · have hlast : (w'.reverse ++ [(x - 1, y - 1)]).getLast? = some (x - 1, y - 1) :=
        getLast?_snoc _ _
      have := pathCost_snoc (w'.reverse ++ [(x - 1, y - 1)]) (x - 1, y - 1) (x, y) hlast
      have hec : editCost (x - 1, y - 1) (x, y) = 0 := by simp [editCost]
      have happ : ((x - 1, y - 1) :: w').reverse ++ [(x, y)]
          = (w'.reverse ++ [(x - 1, y - 1)]) ++ [(x, y)] := by simp
      rw [happ, this, hec, hw3]
    · have happ : ((x - 1, y - 1) :: w').reverse ++ [(x, y)]
          = (w'.reverse ++ [(x - 1, y - 1)]) ++ [(x, y)] := by simp
      rw [happ, head?_snoc_ne _ _ (by simp), hw4]
  · rw [dif_neg hcond]
    have hxe : x = prevx := by omega
    have hye : y = prevy + 1 := by omega
    subst hxe
    subst hye
    exact ⟨[], by simp, trivial, rfl, rfl⟩
termination_by x => (x - prevx).toNat
decreasing_by simp_wf; omega

/-- The diagonal walk-back in the "came from a delete" configuration
(`prev_y = prev_x - (k - 1)`, so `y - prev_y = x - prev_x - 1`): it stops at
`(prev_x + 1, prev_y)`. -/
theorem diagWalk_right (prevx prevy : ℤ) : ∀ (x y : ℤ) (acc : List (ℤ × ℤ)),
    y - prevy = x - prevx - 1 → prevx + 1 ≤ x →
    ∃ w : List (ℤ × ℤ),
      diagWalk prevx prevy x y acc = ((prevx + 1, prevy), acc ++ w) ∧
      IsStaircase (w.reverse ++ [(x, y)]) ∧ PathCost (w.reverse ++ [(x, y)]) = 0 ∧
      (w.reverse ++ [(x, y)]).head? = some (prevx + 1, prevy) := by
  intro x y acc hk hge
  rw [diagWalk]
  by_cases hcond : prevx < x ∧ prevy < y
  · rw [dif_pos hcond]
    obtain ⟨w', hw1, hw2, hw3, hw4⟩ :=
      diagWalk_right prevx prevy (x - 1) (y - 1) (acc ++ [(x - 1, y - 1)]) (by omega) (by omega)
    refine ⟨(x - 1, y - 1) :: w', by rw [hw1]; simp, ?_, ?_, ?_⟩
    · have hlast : (w'.reverse ++ [(x - 1, y - 1)]).getLast? = some (x - 1, y - 1) :=
        getLast?_snoc _ _
      have := isStaircase_snoc (w'.reverse ++ [(x - 1, y - 1)]) (x - 1, y - 1) (x, y)
        hw2 hlast (stepOK_diag1 x y)
      simpa using this
    · have hlast : (w'.reverse ++ [(x - 1, y - 1)]).getLast? = some (x - 1, y - 1) :=
        getLast?_snoc _ _
      have := pathCost_snoc (w'.reverse ++ [(x - 1, y - 1)]) (x - 1, y - 1) (x, y) hlast
      have hec : editCost (x - 1, y - 1) (x, y) = 0 := by simp [editCost]
      have happ : ((x - 1, y - 1) :: w').reverse ++ [(x, y)]
          = (w'.reverse ++ [(x - 1, y - 1)]) ++ [(x, y)] := by simp
      rw [happ, this, hec, hw3]
    · have happ : ((x - 1, y - 1) :: w').reverse ++ [(x, y)]
          = (w'.reverse ++ [(x - 1, y - 1)]) ++ [(x, y)] := by simp
      rw [happ, head?_snoc_ne _ _ (by simp), hw4]
  · rw [dif_neg hcond]
    have hye : y = prevy := by omega
    have hcase : x = prevx + 1 := by omega
    subst hye
    subst hcase
    exact ⟨[], by simp, trivial, rfl, rfl⟩
termination_by x => (x - prevx).toNat
decreasing_by simp_wf; omega

theorem isStaircase_glue : ∀ (L₁ : List (ℤ × ℤ)) (L₂ : List (ℤ × ℤ)) (p q : ℤ × ℤ),
    IsStaircase L₁ → L₁.getLast? = some p → IsStaircase L₂ → L₂.head? = some q →
    StepOK p q → IsStaircase (L₁ ++ L₂)
  | [], L₂, p, q => by
    intro _ hl _ _ _
    simp at hl
  | [r], L₂, p, q => by
    intro _ hl h2 hh hs
    have : r = p := by simpa using hl
    subst this
    cases L₂ with
    | nil => simp at hh
    | cons r' L' =>
      have : r' = q := by simpa using hh
      subst this
      exact ⟨hs, h2⟩
  | r :: r' :: L, L₂, p, q => by
    intro h1 hl h2 hh hs
    refine ⟨h1.1, ?_⟩
    exact isStaircase_glue (r' :: L) L₂ p q h1.2 (by simpa using hl) h2 hh hs

theorem pathCost_glue : ∀ (L₁ : List (ℤ × ℤ)) (L₂ : List (ℤ × ℤ)) (p q : ℤ × ℤ),
    L₁.getLast? = some p → L₂.head? = some q →
    PathCost (L₁ ++ L₂) = PathCost L₁ + editCost p q + PathCost L₂
  | [], L₂, p, q => by
    intro hl _
    simp at hl
  | [r], L₂, p, q => by
    intro hl hh
    have : r = p := by simpa using hl
    subst this
    cases L₂ with
    | nil => simp at hh
    | cons r' L' =>
      have : r' = q := by simpa using hh
      subst this
      simp [PathCost]
  | r :: r' :: L, L₂, p, q => by
    intro hl hh
    show editCost r r' + PathCost ((r' :: L) ++ L₂) = _
    rw [pathCost_glue (r' :: L) L₂ p q (by simpa using hl) hh]
    show _ = editCost r r' + PathCost (r' :: L) + editCost p q + PathCost L₂
    omega

theorem trace_get (a b : List String) (d t : ℕ) (ht : t < d + 1) :
    (((List.range (d + 1)).map (vRounds a b)).get? t).getD (fun _ => none) = vRounds a b t := by
  rw [List.get?_map, List.get?_range ht]
  rfl

/-- The stored previous-diagonal value that `_backtrack` reads at depth
`t + 1` is dominated by the current `x` (with a strict margin in the
"came from a delete" case), both for interior depths — where the current
point is the stored round value — and at the top, where the current point
is `(n, m)` and the no-find property bounds the stored value. -/
theorem backtrack_prev_bound (a b : List String) (t : ℕ) (ht : t + 1 ≤ dFound a b)
    (x y : ℤ) (hpar : ((x - y) + ((t : ℤ) + 1)) % 2 = 0)
    (hk1 : -((t : ℤ) + 1) ≤ x - y) (hk2 : x - y ≤ (t : ℤ) + 1)
    (hcur : (t + 1 < dFound a b ∧ vRounds a b (t + 2) (x - y) = some x) ∨
      (t + 1 = dFound a b ∧ x = (a.length : ℤ) ∧ y = (b.length : ℤ))) :
    (chooseDown (vRounds a b (t + 1)) ((t : ℤ) + 1) (x - y) = true →
      ∃ xv : ℤ, vRounds a b (t + 1) ((x - y) + 1) = some xv ∧ xv ≤ x) ∧
    (chooseDown (vRounds a b (t + 1)) ((t : ℤ) + 1) (x - y) = false →
      ∃ xv : ℤ, vRounds a b (t + 1) ((x - y) - 1) = some xv ∧ xv + 1 ≤ x) := by
  obtain ⟨hL, hNF, _, _⟩ :=
    rounds_invariant a b t (fun t' ht' => dFound_min a b (by omega))
  have hcast : ((t + 1 : ℕ) : ℤ) = (t : ℤ) + 1 := by push_cast; ring
  constructor
  · intro hcd
    have hkne : x - y ≠ (t : ℤ) + 1 := by
      rcases (chooseDown_iff _ _ _).mp hcd with h | h
      · omega
      · exact h.1
    obtain ⟨xv, hxv, hbnd, _, _⟩ := hL ((x - y) + 1) (by omega) (by omega) (by omega)
    refine ⟨xv, hxv, ?_⟩
    rcases hcur with ⟨hlt, hv⟩ | ⟨heq, hx, hy⟩
    · obtain ⟨_, _, hRR, _⟩ :=
        rounds_invariant a b (t + 1) (fun t' ht' => dFound_min a b (by omega))
      have hkmem : (x - y) ∈ kRange (t + 1) := by
        rw [mem_kRange]
        push_cast
        exact ⟨by omega, by omega, by omega⟩
      have hx' := hRR _ hkmem
      have hxeq : x = roundVal a b ((t + 1 : ℕ) : ℤ) (vRounds a b (t + 1)) (x - y) :=
        Option.some.inj (hv.symm.trans hx')
      rw [roundVal, hcast, chooseX_down hcd] at hxeq
      have hget : vget (vRounds a b (t + 1)) ((x - y) + 1) 0 = xv := by
        rw [vget, hxv]
        rfl
      rw [hget] at hxeq
      have := (snake_le a b xv (xv - (x - y))).1
      omega
    · have hnf := hNF _ _ hxv
      push_neg at hnf
      by_cases hge : (a.length : ℤ) ≤ xv
      · have := hnf hge
        omega
      · omega
  · intro hcd
    have hkne : x - y ≠ -((t : ℤ) + 1) := by
      intro hh
      have : chooseDown (vRounds a b (t + 1)) ((t : ℤ) + 1) (x - y) = true :=
        (chooseDown_iff _ _ _).mpr (Or.inl hh)
      rw [this] at hcd
      simp at hcd
    obtain ⟨xv, hxv, hbnd, _, _⟩ := hL ((x - y) - 1) (by omega) (by omega) (by omega)
    refine ⟨xv, hxv, ?_⟩
    rcases hcur with ⟨hlt, hv⟩ | ⟨heq, hx, hy⟩
    · obtain ⟨_, _, hRR, _⟩ :=
        rounds_invariant a b (t + 1) (fun t' ht' => dFound_min a b (by omega))
      have hkmem : (x - y) ∈ kRange (t + 1) := by
        rw [mem_kRange]
        push_cast
        exact ⟨by omega, by omega, by omega⟩
      have hx' := hRR _ hkmem
      have hxeq : x = roundVal a b ((t + 1 : ℕ) : ℤ) (vRounds a b (t + 1)) (x - y) :=
        Option.some.inj (hv.symm.trans hx')
      rw [roundVal, hcast, chooseX_right hcd] at hxeq
      have hget : vget (vRounds a b (t + 1)) ((x - y) - 1) 0 = xv := by
        rw [vget, hxv]
        rfl
      rw [hget] at hxeq
      have := (snake_le a b (xv + 1) (xv + 1 - (x - y))).1
      omega
    · have hnf := hNF _ _ hxv
      push_neg at hnf
      by_cases hge : (a.length : ℤ) ≤ xv
      · have := hnf hge
        omega
      · omega

theorem head?_append_left (L₁ L₂ : List (ℤ × ℤ)) (p : ℤ × ℤ) (h : L₁.head? = some p) :
    (L₁ ++ L₂).head? = some p := by
  cases L₁ with
  | nil => simp at h
  | cons r L => simpa using h

/-- The backtrack loop produces (in reverse append order) a staircase from a
diagonal point `(s, s)` to the current point, with exactly `t` unit
insert/delete steps for the `t` depths walked. -/
theorem backLoop_chain (a b : List String) :
    ∀ t : ℕ, t ≤ dFound a b →
    ∀ (x y : ℤ) (acc : List (ℤ × ℤ)),
    ((x - y) + (t : ℤ)) % 2 = 0 → -(t : ℤ) ≤ x - y → x - y ≤ (t : ℤ) →
    ((t < dFound a b ∧ vRounds a b (t + 1) (x - y) = some x) ∨
      (t = dFound a b ∧ x = (a.length : ℤ) ∧ y = (b.length : ℤ))) →
    ∃ l : List (ℤ × ℤ),
      backLoop ((List.range (dFound a b + 1)).map (vRounds a b)) t x y acc = acc ++ l ∧
      IsStaircase (l.reverse ++ [(x, y)]) ∧
      PathCost (l.reverse ++ [(x, y)]) = t ∧
      ∃ s : ℤ, 0 ≤ s ∧ (l.reverse ++ [(x, y)]).head? = some (s, s) := by
  intro t
  induction t with
  | zero =>
    intro _ x y acc hpar hk1 hk2 hcur
    have hxy : x = y := by omega
    refine ⟨[], by rw [backLoop]; simp, trivial, rfl, ?_⟩
    rcases hcur with ⟨hlt, hv⟩ | ⟨heq, hx, hy⟩
    · obtain ⟨hL, _, _, _⟩ :=
        rounds_invariant a b 0 (fun t' ht' => dFound_min a b (by omega))
      obtain ⟨xv, hxv, hb, _, _⟩ := hL 0 (by omega) (by omega) (by omega)
      rw [show x - y = 0 by omega] at hv
      have : x = xv := Option.some.inj (hv.symm.trans hxv)
      exact ⟨x, by omega, by rw [hxy]; simp⟩
    · have hd0 := dFound_eq a b
      rw [← heq] at hd0
      have h1 := lcsLen_le_left a b
      have h2 := lcsLen_le_right a b
      have hnm : a.length = b.length := by omega
      refine ⟨(a.length : ℤ), by omega, ?_⟩
      rw [hx, hy, hnm]
      simp
  | succ t ih =>
    intro hts x y acc hpar hk1 hk2 hcur
    have hveq : ((((List.range (dFound a b + 1)).map (vRounds a b)).get? (t + 1)).getD
        (fun _ => none)) = vRounds a b (t + 1) :=
      trace_get a b (dFound a b) (t + 1) (by omega)
    have hbp := backtrack_prev_bound a b t hts x y hpar hk1 hk2 hcur
    cases hcd : chooseDown (vRounds a b (t + 1)) ((t : ℤ) + 1) (x - y) with
    | true =>
      obtain ⟨xv, hxv, hxvle⟩ := hbp.1 hcd
      have hkne : x - y ≠ (t : ℤ) + 1 := by
        rcases (chooseDown_iff _ _ _).mp hcd with h | h
        · omega
        · exact h.1
      have hget : vget (vRounds a b (t + 1)) ((x - y) + 1) 0 = xv := by
        rw [vget, hxv]
        rfl
      have hprevk : (if chooseDown (vRounds a b (t + 1)) ((t : ℤ) + 1) (x - y)
          then (x - y) + 1 else (x - y) - 1) = (x - y) + 1 := by
        rw [hcd]
        simp
      obtain ⟨w, hw1, hw2, hw3, hw4⟩ := diagWalk_down xv (xv - ((x - y) + 1)) x y acc
        (by omega) hxvle
      have hstep : backLoop ((List.range (dFound a b + 1)).map (vRounds a b)) (t + 1) x y acc
          = backLoop ((List.range (dFound a b + 1)).map (vRounds a b)) t xv
            (xv - ((x - y) + 1)) ((acc ++ w) ++ [(xv, xv - ((x - y) + 1))]) := by
        simp only [backLoop, hveq, hprevk, hget]
        rw [hw1]
        simp only [Prod.fst, Prod.snd]
        rw [if_neg (by omega)]
      obtain ⟨l', hl1, hl2, hl3, s, hs0, hshead⟩ := ih (by omega) xv (xv - ((x - y) + 1))
        ((acc ++ w) ++ [(xv, xv - ((x - y) + 1))])
        (by omega) (by omega) (by omega)
        (Or.inl ⟨by omega,
          by rw [show xv - (xv - ((x - y) + 1)) = (x - y) + 1 by omega]; exact hxv⟩)
      have happ : (w ++ [(xv, xv - ((x - y) + 1))] ++ l').reverse ++ [(x, y)]
          = (l'.reverse ++ [(xv, xv - ((x - y) + 1))]) ++ (w.reverse ++ [(x, y)]) := by
        simp
      refine ⟨w ++ [(xv, xv - ((x - y) + 1))] ++ l', ?_, ?_, ?_, s, hs0, ?_⟩
      · rw [hstep, hl1]
        simp
      · rw [happ]
        exact isStaircase_glue _ _ (xv, xv - ((x - y) + 1)) (xv, xv - ((x - y) + 1) + 1)
          hl2 (getLast?_snoc _ _) hw2 hw4 (Or.inl ⟨rfl, rfl⟩)
      · rw [happ, pathCost_glue _ _ (xv, xv - ((x - y) + 1)) (xv, xv - ((x - y) + 1) + 1)
          (getLast?_snoc _ _) hw4, hl3, hw3]
        have hec : editCost (xv, xv - ((x - y) + 1)) (xv, xv - ((x - y) + 1) + 1) = 1 := by
          rw [editCost, if_neg ?hne]
          case hne =>
            show ¬(xv - xv = (xv - ((x - y) + 1) + 1) - (xv - ((x - y) + 1)))
            omega
        rw [hec]
      · rw [happ]
        exact head?_append_left _ _ _ hshead
    | false =>
      obtain ⟨xv, hxv, hxvle⟩ := hbp.2 hcd
      have hkne : x - y ≠ -((t : ℤ) + 1) := by
        intro hh
        have hcc : chooseDown (vRounds a b (t + 1)) ((t : ℤ) + 1) (x - y) = true :=
          (chooseDown_iff _ _ _).mpr (Or.inl hh)
        rw [hcc] at hcd
        simp at hcd
      have hget : vget (vRounds a b (t + 1)) ((x - y) - 1) 0 = xv := by
        rw [vget, hxv]
        rfl
      have hprevk : (if chooseDown (vRounds a b (t + 1)) ((t : ℤ) + 1) (x - y)
          then (x - y) + 1 else (x - y) - 1) = (x - y) - 1 := by
        rw [hcd]
        simp
      obtain ⟨w, hw1, hw2, hw3, hw4⟩ := diagWalk_right xv (xv - ((x - y) - 1)) x y acc
        (by omega) hxvle
      have hstep : backLoop ((List.range (dFound a b + 1)).map (vRounds a b)) (t + 1) x y acc
          = backLoop ((List.range (dFound a b + 1)).map (vRounds a b)) t xv
            (xv - ((x - y) - 1)) ((acc ++ w) ++ [(xv, xv - ((x - y) - 1))]) := by
        simp only [backLoop, hveq, hprevk, hget]
        rw [hw1]
        simp only [Prod.fst, Prod.snd]
        rw [if_pos (by omega)]
      obtain ⟨l', hl1, hl2, hl3, s, hs0, hshead⟩ := ih (by omega) xv (xv - ((x - y) - 1))
        ((acc ++ w) ++ [(xv, xv - ((x - y) - 1))])
        (by omega) (by omega) (by omega)
        (Or.inl ⟨by omega,
          by rw [show xv - (xv - ((x - y) - 1)) = (x - y) - 1 by omega]; exact hxv⟩)
      have happ : (w ++ [(xv, xv - ((x - y) - 1))] ++ l').reverse ++ [(x, y)]
          = (l'.reverse ++ [(xv, xv - ((x - y) - 1))]) ++ (w.reverse ++ [(x, y)]) := by
        simp
      refine ⟨w ++ [(xv, xv - ((x - y) - 1))] ++ l', ?_, ?_, ?_, s, hs0, ?_⟩
      · rw [hstep, hl1]
        simp
      · rw [happ]
        exact isStaircase_glue _ _ (xv, xv - ((x - y) - 1)) (xv + 1, xv - ((x - y) - 1))
          hl2 (getLast?_snoc _ _) hw2 hw4 (Or.inr (Or.inl ⟨rfl, rfl⟩))
      · rw [happ, pathCost_glue _ _ (xv, xv - ((x - y) - 1)) (xv + 1, xv - ((x - y) - 1))
          (getLast?_snoc _ _) hw4, hl3, hw3]
        have hec : editCost (xv, xv - ((x - y) - 1)) (xv + 1, xv - ((x - y) - 1)) = 1 := by
          rw [editCost, if_neg ?hne]
          case hne =>
            show ¬((xv + 1) - xv = (xv - ((x - y) - 1)) - (xv - ((x - y) - 1)))
            omega
        rw [hec]
      · rw [happ]
        exact head?_append_left _ _ _ hshead

theorem isStaircase_cons (p : ℤ × ℤ) (L : List (ℤ × ℤ)) (q : ℤ × ℤ)
    (hh : L.head? = some q) (hs : StepOK p q) (h : IsStaircase L) :
    IsStaircase (p :: L) := by
  cases L with
  | nil => simp at hh
  | cons r L' =>
    have : r = q := by simpa using hh
    subst this
    exact ⟨hs, h⟩

theorem pathCost_cons (p : ℤ × ℤ) (L : List (ℤ × ℤ)) (q : ℤ × ℤ)
    (hh : L.head? = some q) : PathCost (p :: L) = editCost p q + PathCost L := by
  cases L with
  | nil => simp at hh
  | cons r L' =>
    have : r = q := by simpa using hh
    subst this
    rfl

/-- The path returned by the solver is a staircase from `(0, 0)` to
`(n, m)` whose insert/delete cost is exactly the found edit distance. -/
theorem findSES_staircase (a b : List String) :
    IsStaircase (findShortestEditScript a b) ∧
    PathCost (findShortestEditScript a b) = dFound a b ∧
    (findShortestEditScript a b).head? = some (0, 0) ∧
    (findShortestEditScript a b).getLast? = some ((a.length : ℤ), (b.length : ℤ)) := by
  obtain ⟨l, hbl, hstair, hcost, s, hs0, hhead⟩ := backLoop_chain a b (dFound a b)
    (le_refl _) (a.length : ℤ) (b.length : ℤ) [((a.length : ℤ), (b.length : ℤ))]
    (by have := dFound_parity a b; omega)
    (by have := dFound_diag a b; omega)
    (by have := dFound_diag a b; omega)
    (Or.inr ⟨rfl, rfl, rfl⟩)
  rw [findSES_eq, backtrack, hbl]
  have hrev : ([((a.length : ℤ), (b.length : ℤ))] ++ l).reverse
      = l.reverse ++ [((a.length : ℤ), (b.length : ℤ))] := by simp
  rw [hrev]
  have hlastL : (l.reverse ++ [((a.length : ℤ), (b.length : ℤ))]).getLast?
      = some ((a.length : ℤ), (b.length : ℤ)) := getLast?_snoc _ _
  by_cases hs : s = 0
  · subst hs
    have hc : ¬(l.reverse ++ [((a.length : ℤ), (b.length : ℤ))] = [] ∨
        (l.reverse ++ [((a.length : ℤ), (b.length : ℤ))]).head? ≠ some (0, 0)) := by
      push_neg
      exact ⟨by simp, by rw [hhead]⟩
    rw [if_neg hc, if_neg (by rw [hlastL]; simp)]
    exact ⟨hstair, hcost, by rw [hhead], hlastL⟩
  · have hc : (l.reverse ++ [((a.length : ℤ), (b.length : ℤ))] = [] ∨
        (l.reverse ++ [((a.length : ℤ), (b.length : ℤ))]).head? ≠ some (0, 0)) := by
      right
      rw [hhead]
      intro hcc
      have h1 := (Prod.mk.inj (Option.some.inj hcc)).1
      exact hs h1
    rw [if_pos hc]
    have hlast2 : ((0, 0) :: (l.reverse ++ [((a.length : ℤ), (b.length : ℤ))])).getLast?
        = some ((a.length : ℤ), (b.length : ℤ)) := by
      rw [show ((0, 0) : ℤ × ℤ) :: (l.reverse ++ [((a.length : ℤ), (b.length : ℤ))])
        = ((0, 0) :: l.reverse) ++ [((a.length : ℤ), (b.length : ℤ))] by simp]
      exact getLast?_snoc _ _
    rw [if_neg (by rw [hlast2]; simp)]
    have hstep : StepOK (0, 0) (s, s) := by
      right
      right
      constructor
      · show s - 0 = s - 0
        rfl
      · show 1 ≤ s - 0
        omega
    refine ⟨isStaircase_cons _ _ _ hhead hstep hstair, ?_, rfl, hlast2⟩
    rw [pathCost_cons _ _ _ hhead, hcost]
    have : editCost (0, 0) (s, s) = 0 := by
      rw [editCost, if_pos]
      show s - 0 = s - 0
      rfl
    omega


/-! ## The builder

`_build_diff_results` is an index-based walk over the path.  We first give
a structural description of the same walk (`scanS`, `buildS`), prove it
equal to `buildLoop`, and then verify the structural form against the
staircase facts. -/

theorem sliceIndex_mono (n : ℕ) (i j : ℤ) (hi : 0 ≤ i) (hij : i ≤ j) :
    sliceIndex n i ≤ sliceIndex n j := by
  unfold sliceIndex
  rw [if_neg (by omega), if_neg (by omega)]
  omega

theorem take_drop_glue (l : List String) (i j k : ℕ) (hij : i ≤ j) (hjk : j ≤ k) :
    (l.take j).drop i ++ (l.take k).drop j = (l.take k).drop i := by
  by_cases hi : i ≤ (l.take j).length
  · have hsplit : l.take k = l.take j ++ (l.take k).drop j := by
      conv_lhs => rw [← List.take_append_drop j (l.take k)]
      rw [List.take_take, min_eq_left hjk]
    conv_rhs => rw [hsplit]
    rw [List.drop_append_of_le_length hi]
  · push_neg at hi
    rw [List.length_take] at hi
    have h1 : (l.take j).drop i = [] := List.drop_eq_nil_of_le (by rw [List.length_take]; omega)
    have h2 : (l.take k).drop j = [] := List.drop_eq_nil_of_le (by rw [List.length_take]; omega)
    have h3 : (l.take k).drop i = [] := List.drop_eq_nil_of_le (by rw [List.length_take]; omega)
    rw [h1, h2, h3]
    rfl

theorem pySlice_append (l : List String) (x y z : ℤ) (hx : 0 ≤ x) (hxy : x ≤ y)
    (hyz : y ≤ z) : pySlice l x y ++ pySlice l y z = pySlice l x z :=
  take_drop_glue l _ _ _ (sliceIndex_mono l.length x y hx hxy)
    (sliceIndex_mono l.length y z (by omega) hyz)

theorem pySlice_self (l : List String) (x : ℤ) : pySlice l x x = [] := by
  unfold pySlice
  exact List.drop_eq_nil_of_le (by rw [List.length_take]; omega)

theorem pySlice_all (l : List String) : pySlice l 0 (l.length : ℤ) = l := by
  unfold pySlice sliceIndex
  rw [if_neg (by omega), if_neg (by omega)]
  simp

/-- Structural form of the equal-block scan: absorb unit-diagonal steps,
returning the final point and the unconsumed tail. -/
def scanS (cur : ℤ × ℤ) : List (ℤ × ℤ) → (ℤ × ℤ) × List (ℤ × ℤ)
  | [] => (cur, [])
  | nxt :: rest =>
    if nxt.1 = cur.1 + 1 ∧ nxt.2 = cur.2 + 1 then scanS nxt rest
    else (cur, nxt :: rest)

theorem scanS_len (cur : ℤ × ℤ) (l : List (ℤ × ℤ)) :
    (scanS cur l).2.length ≤ l.length := by
  induction l generalizing cur with
  | nil => simp [scanS]
  | cons h t ih =>
    rw [scanS]
    split
    · have := ih h
      simp only [List.length_cons]
      omega
    · simp

/-- Structural form of the builder loop: `cur` is the current path point,
the list argument the remaining path points. -/
def buildS (a b : List String) (cur : ℤ × ℤ) : List (ℤ × ℤ) → List DiffResult
  | [] => []
  | nxt :: rest =>
    if cur.1 < nxt.1 ∧ cur.2 < nxt.2 then
      ⟨.equal, cur.1, (scanS nxt rest).1.1 - cur.1, cur.2, (scanS nxt rest).1.2 - cur.2,
        pySlice a cur.1 (scanS nxt rest).1.1, pySlice b cur.2 (scanS nxt rest).1.2⟩ ::
        buildS a b (scanS nxt rest).1 (scanS nxt rest).2
    else if cur.1 = nxt.1 ∧ cur.2 < nxt.2 then
      ⟨.insert, cur.1, 0, cur.2, 1, [], pySlice b cur.2 nxt.2⟩ :: buildS a b nxt rest
    else if cur.1 < nxt.1 ∧ cur.2 = nxt.2 then
      ⟨.delete, cur.1, 1, cur.2, 0, pySlice a cur.1 nxt.1, []⟩ :: buildS a b nxt rest
    else buildS a b nxt rest
termination_by rest => rest.length
decreasing_by
  all_goals simp_wf
  all_goals have := scanS_len nxt rest
  all_goals omega

theorem pathGet_drop (p : List (ℤ × ℤ)) (i : ℕ) (h : i < p.length) :
    p.drop i = pathGet p i :: p.drop (i + 1) := by
  rw [List.drop_eq_getElem_cons h]
  congr 1
  simp [pathGet, List.getD, List.getElem?_eq_getElem h]

theorem scan_equiv (p : List (ℤ × ℤ)) (j : ℕ) :
    scanS (pathGet p j) (p.drop (j + 1)) =
      (pathGet p (scanEqualEnd p j), p.drop (scanEqualEnd p j + 1)) := by
  rw [scanEqualEnd]
  by_cases hc : j + 1 < p.length ∧
      (pathGet p (j + 1)).1 = (pathGet p j).1 + 1 ∧
      (pathGet p (j + 1)).2 = (pathGet p j).2 + 1
  · rw [dif_pos hc, pathGet_drop p (j + 1) hc.1, scanS, if_pos hc.2]
    exact scan_equiv p (j + 1)
  · rw [dif_neg hc]
    by_cases h1 : j + 1 < p.length
    · rw [pathGet_drop p (j + 1) h1, scanS, if_neg (fun hcc => hc ⟨h1, hcc⟩)]
    · rw [List.drop_eq_nil_of_le (by omega), scanS]
termination_by p.length - j
decreasing_by simp_wf; omega

theorem buildLoop_eq (a b : List String) (p : List (ℤ × ℤ)) (i : ℕ) :
    buildLoop a b p i =
      if i + 1 < p.length then
        (if (pathGet p i).1 < (pathGet p (i + 1)).1 ∧
            (pathGet p i).2 < (pathGet p (i + 1)).2 then
          ⟨.equal, (pathGet p i).1,
            (pathGet p (scanEqualEnd p (i + 1))).1 - (pathGet p i).1,
            (pathGet p i).2,
            (pathGet p (scanEqualEnd p (i + 1))).2 - (pathGet p i).2,
            pySlice a (pathGet p i).1 (pathGet p (scanEqualEnd p (i + 1))).1,
            pySlice b (pathGet p i).2 (pathGet p (scanEqualEnd p (i + 1))).2⟩ ::
            buildLoop a b p (scanEqualEnd p (i + 1))
        else if (pathGet p i).1 = (pathGet p (i + 1)).1 ∧
            (pathGet p i).2 < (pathGet p (i + 1)).2 then
          ⟨.insert, (pathGet p i).1, 0, (pathGet p i).2, 1, [],
            pySlice b (pathGet p i).2 (pathGet p (i + 1)).2⟩ :: buildLoop a b p (i + 1)
        else if (pathGet p i).1 < (pathGet p (i + 1)).1 ∧
            (pathGet p i).2 = (pathGet p (i + 1)).2 then
          ⟨.delete, (pathGet p i).1, 1, (pathGet p i).2, 0,
            pySlice a (pathGet p i).1 (pathGet p (i + 1)).1, []⟩ :: buildLoop a b p (i + 1)
        else buildLoop a b p (i + 1))
      else [] := by
  rw [buildLoop]
  rfl

theorem build_equiv (a b : List String) (p : List (ℤ × ℤ)) (i : ℕ) :
    buildLoop a b p i = buildS a b (pathGet p i) (p.drop (i + 1)) := by
  rw [buildLoop_eq]
  by_cases hi : i + 1 < p.length
  · rw [if_pos hi, pathGet_drop p (i + 1) hi, buildS]
    by_cases h1 : (pathGet p i).1 < (pathGet p (i + 1)).1 ∧
        (pathGet p i).2 < (pathGet p (i + 1)).2
    · rw [if_pos h1, if_pos h1, scan_equiv p (i + 1),
        build_equiv a b p (scanEqualEnd p (i + 1))]
    · rw [if_neg h1, if_neg h1]
      by_cases h2 : (pathGet p i).1 = (pathGet p (i + 1)).1 ∧
          (pathGet p i).2 < (pathGet p (i + 1)).2
      · rw [if_pos h2, if_pos h2, build_equiv a b p (i + 1)]
      · rw [if_neg h2, if_neg h2]
        by_cases h3 : (pathGet p i).1 < (pathGet p (i + 1)).1 ∧
            (pathGet p i).2 = (pathGet p (i + 1)).2
        · rw [if_pos h3, if_pos h3, build_equiv a b p (i + 1)]
        · rw [if_neg h3, if_neg h3, build_equiv a b p (i + 1)]
  · rw [if_neg hi, List.drop_eq_nil_of_le (by omega), buildS]
termination_by p.length - i
decreasing_by
  all_goals simp_wf
  all_goals have h9 := le_scanEqualEnd p (i + 1)
  all_goals omega

/-! ## Properties of the produced operations -/

/-- Concatenation of the `old_lines` fields, in order. -/
def oldConcat : List DiffResult → List String
  | [] => []
  | r :: rs => r.old_lines ++ oldConcat rs

/-- Concatenation of the `new_lines` fields, in order. -/
def newConcat : List DiffResult → List String
  | [] => []
  | r :: rs => r.new_lines ++ newConcat rs

/-- The number of non-Equal line-units: `old_count` over Delete/Replace
plus `new_count` over Insert/Replace. -/
def editUnits : List DiffResult → ℤ
  | [] => 0
  | r :: rs =>
    (if r.type = .delete ∨ r.type = .replace then r.old_count else 0) +
    (if r.type = .insert ∨ r.type = .replace then r.new_count else 0) + editUnits rs

/-- The operations form a contiguous chain from `(x, y)` to `(qx, qy)`:
each starts where the previous one ended, on both sides. -/
def OpsChain : ℤ → ℤ → List DiffResult → ℤ → ℤ → Prop
  | x, y, [], qx, qy => x = qx ∧ y = qy
  | x, y, r :: rs, qx, qy =>
    r.old_start = x ∧ r.new_start = y ∧
    OpsChain (x + r.old_count) (y + r.new_count) rs qx qy

/-- Shape facts for a single operation as produced by `_build_diff_results`
(before replace-merging): nonnegative counts, the line fields are the
corresponding slices, and per-type count constraints. -/
def OpShape (a b : List String) (r : DiffResult) : Prop :=
  0 ≤ r.old_count ∧ 0 ≤ r.new_count ∧ r.type ≠ .replace ∧
  r.old_lines = pySlice a r.old_start (r.old_start + r.old_count) ∧
  r.new_lines = pySlice b r.new_start (r.new_start + r.new_count) ∧
  (r.type = .insert → r.old_count = 0 ∧ r.new_count = 1) ∧
  (r.type = .delete → r.old_count = 1 ∧ r.new_count = 0) ∧
  (r.type = .equal → r.old_count = r.new_count ∧ 1 ≤ r.old_count)

/-- Shape facts surviving replace-merging. -/
def OpShapeM (a b : List String) (r : DiffResult) : Prop :=
  0 ≤ r.old_count ∧ 0 ≤ r.new_count ∧
  r.old_lines = pySlice a r.old_start (r.old_start + r.old_count) ∧
  r.new_lines = pySlice b r.new_start (r.new_start + r.new_count)

/-- No Delete operation is immediately followed by an Insert operation. -/
def noDelIns : List DiffResult → Prop
  | r1 :: r2 :: rest => ¬(r1.type = .delete ∧ r2.type = .insert) ∧ noDelIns (r2 :: rest)
  | _ => True

theorem staircase_last_ge : ∀ (l : List (ℤ × ℤ)) (p q : ℤ × ℤ),
    IsStaircase (p :: l) → (p :: l).getLast? = some q → p.1 ≤ q.1 ∧ p.2 ≤ q.2
  | [], p, q => by
    intro _ hl
    have : p = q := by simpa using hl
    subst this
    exact ⟨le_refl _, le_refl _⟩
  | r :: l', p, q => by
    intro hst hl
    have hrec := staircase_last_ge l' r q hst.2 (by simpa using hl)
    have hstep : StepOK p r := hst.1
    rcases hstep with ⟨e1, e2⟩ | ⟨e1, e2⟩ | ⟨e1, e2⟩ <;>
      exact ⟨by omega, by omega⟩

theorem scanS_spec : ∀ (l : List (ℤ × ℤ)) (cur : ℤ × ℤ), IsStaircase (cur :: l) →
    cur.1 ≤ (scanS cur l).1.1 ∧
    (scanS cur l).1.1 - cur.1 = (scanS cur l).1.2 - cur.2 ∧
    IsStaircase ((scanS cur l).1 :: (scanS cur l).2) ∧
    PathCost ((scanS cur l).1 :: (scanS cur l).2) = PathCost (cur :: l) ∧
    ((scanS cur l).1 :: (scanS cur l).2).getLast? = (cur :: l).getLast?
  | [], cur => by
    intro h
    rw [scanS]
    exact ⟨le_refl _, by simp, trivial, rfl, rfl⟩
  | nxt :: rest, cur => by
    intro h
    rw [scanS]
    by_cases hc : nxt.1 = cur.1 + 1 ∧ nxt.2 = cur.2 + 1
    · rw [if_pos hc]
      have ih := scanS_spec rest nxt h.2
      have hcost : PathCost (cur :: nxt :: rest) = editCost cur nxt + PathCost (nxt :: rest) := rfl
      have hec : editCost cur nxt = 0 := by
        unfold editCost
        rw [if_pos (by omega)]
      refine ⟨by omega, by omega, ih.2.2.1, ?_, ?_⟩
      · rw [hcost, hec, ih.2.2.2.1]
        omega
      · rw [ih.2.2.2.2, List.getLast?_cons_cons]
    · rw [if_neg hc]
      exact ⟨le_refl _, by simp, h, rfl, rfl⟩

theorem editUnits_cons_equal (r : DiffResult) (rs : List DiffResult)
    (h : r.type = .equal) : editUnits (r :: rs) = editUnits rs := by
  simp [editUnits, h]

theorem editUnits_cons_insert (r : DiffResult) (rs : List DiffResult)
    (h : r.type = .insert) : editUnits (r :: rs) = r.new_count + editUnits rs := by
  simp [editUnits, h]

theorem editUnits_cons_delete (r : DiffResult) (rs : List DiffResult)
    (h : r.type = .delete) : editUnits (r :: rs) = r.old_count + editUnits rs := by
  simp [editUnits, h]

theorem editUnits_cons_replace (r : DiffResult) (rs : List DiffResult)
    (h : r.type = .replace) :
    editUnits (r :: rs) = r.old_count + r.new_count + editUnits rs := by
  simp [editUnits, h]

theorem buildS_spec (a b : List String) : ∀ (l : List (ℤ × ℤ)) (cur q : ℤ × ℤ),
    IsStaircase (cur :: l) → (cur :: l).getLast? = some q → 0 ≤ cur.1 → 0 ≤ cur.2 →
    OpsChain cur.1 cur.2 (buildS a b cur l) q.1 q.2 ∧
    oldConcat (buildS a b cur l) = pySlice a cur.1 q.1 ∧
    newConcat (buildS a b cur l) = pySlice b cur.2 q.2 ∧
    editUnits (buildS a b cur l) = (PathCost (cur :: l) : ℤ) ∧
    ∀ r ∈ buildS a b cur l, OpShape a b r
  | [], cur, q => by
    intro _ hlast _ _
    have hq : cur = q := by simpa using hlast
    subst hq
    rw [buildS]
    refine ⟨⟨rfl, rfl⟩, ?_, ?_, by simp [editUnits, PathCost], ?_⟩
    · rw [pySlice_self]
      rfl
    · rw [pySlice_self]
      rfl
    · intro r hr
      exact absurd hr (List.not_mem_nil r)
  | nxt :: rest, cur, q => by
    intro hst hlast hx hy
    obtain ⟨hstep, hst2⟩ := hst
    rw [List.getLast?_cons_cons] at hlast
    rw [buildS]
    by_cases h1 : cur.1 < nxt.1 ∧ cur.2 < nxt.2
    · rw [if_pos h1]
      have hd : nxt.1 - cur.1 = nxt.2 - cur.2 ∧ 1 ≤ nxt.1 - cur.1 := by
        rcases hstep with ⟨e1, e2⟩ | ⟨e1, e2⟩ | ⟨e1, e2⟩ <;> omega
      have hscan := scanS_spec rest nxt hst2
      have he1 : nxt.1 ≤ (scanS nxt rest).1.1 := hscan.1
      have hed : (scanS nxt rest).1.1 - nxt.1 = (scanS nxt rest).1.2 - nxt.2 := hscan.2.1
      have hst3 := hscan.2.2.1
      have hcost3 := hscan.2.2.2.1
      have hlast3 : ((scanS nxt rest).1 :: (scanS nxt rest).2).getLast? = some q := by
        rw [hscan.2.2.2.2]
        exact hlast
      have ih := buildS_spec a b (scanS nxt rest).2 (scanS nxt rest).1 q hst3 hlast3
        (by omega) (by omega)
      have hq2 := staircase_last_ge _ _ _ hst3 hlast3
      refine ⟨⟨rfl, rfl, ?_⟩, ?_, ?_, ?_, ?_⟩
      · show OpsChain (cur.1 + ((scanS nxt rest).1.1 - cur.1))
          (cur.2 + ((scanS nxt rest).1.2 - cur.2))
          (buildS a b (scanS nxt rest).1 (scanS nxt rest).2) q.1 q.2
        rw [show cur.1 + ((scanS nxt rest).1.1 - cur.1) = (scanS nxt rest).1.1 from by ring,
          show cur.2 + ((scanS nxt rest).1.2 - cur.2) = (scanS nxt rest).1.2 from by ring]
        exact ih.1
      · show pySlice a cur.1 (scanS nxt rest).1.1 ++
          oldConcat (buildS a b (scanS nxt rest).1 (scanS nxt rest).2) = pySlice a cur.1 q.1
        rw [ih.2.1]
        exact pySlice_append a cur.1 _ _ hx (by omega) hq2.1
      · show pySlice b cur.2 (scanS nxt rest).1.2 ++
          newConcat (buildS a b (scanS nxt rest).1 (scanS nxt rest).2) = pySlice b cur.2 q.2
        rw [ih.2.2.1]
        exact pySlice_append b cur.2 _ _ hy (by omega) hq2.2
      · have hcostc : PathCost (cur :: nxt :: rest) = editCost cur nxt + PathCost (nxt :: rest) := rfl
        have hec : editCost cur nxt = 0 := by
          unfold editCost
          rw [if_pos (by omega)]
        have h5 := ih.2.2.2.1
        rw [hcost3] at h5
        rw [editUnits_cons_equal _ _ rfl, h5, hcostc, hec]
        push_cast
        ring
      · intro r hr
        rcases List.mem_cons.mp hr with hr | hr
        · subst hr
          refine ⟨(by omega : (0 : ℤ) ≤ (scanS nxt rest).1.1 - cur.1),
            (by omega : (0 : ℤ) ≤ (scanS nxt rest).1.2 - cur.2), by simp, ?_, ?_,
            fun habs => by simp at habs,
            fun habs => by simp at habs, fun _ => ⟨?_, ?_⟩⟩
          · show pySlice a cur.1 (scanS nxt rest).1.1 =
              pySlice a cur.1 (cur.1 + ((scanS nxt rest).1.1 - cur.1))
            rw [show cur.1 + ((scanS nxt rest).1.1 - cur.1) = (scanS nxt rest).1.1 from by ring]
          · show pySlice b cur.2 (scanS nxt rest).1.2 =
              pySlice b cur.2 (cur.2 + ((scanS nxt rest).1.2 - cur.2))
            rw [show cur.2 + ((scanS nxt rest).1.2 - cur.2) = (scanS nxt rest).1.2 from by ring]
          · show (scanS nxt rest).1.1 - cur.1 = (scanS nxt rest).1.2 - cur.2
            omega
          · show (1 : ℤ) ≤ (scanS nxt rest).1.1 - cur.1
            omega
        · exact ih.2.2.2.2 r hr
    · rw [if_neg h1]
      by_cases h2 : cur.1 = nxt.1 ∧ cur.2 < nxt.2
      · rw [if_pos h2]
        have hi2 : nxt.2 = cur.2 + 1 := by
          rcases hstep with ⟨e1, e2⟩ | ⟨e1, e2⟩ | ⟨e1, e2⟩ <;> omega
        have ih := buildS_spec a b rest nxt q hst2 hlast (by omega) (by omega)
        have hq2 := staircase_last_ge rest nxt q hst2 hlast
        refine ⟨⟨rfl, rfl, ?_⟩, ?_, ?_, ?_, ?_⟩
        · show OpsChain (cur.1 + 0) (cur.2 + 1) (buildS a b nxt rest) q.1 q.2
          rw [show cur.1 + (0 : ℤ) = nxt.1 from by omega,
            show cur.2 + (1 : ℤ) = nxt.2 from by omega]
          exact ih.1
        · show ([] : List String) ++ oldConcat (buildS a b nxt rest) = pySlice a cur.1 q.1
          rw [List.nil_append, ih.2.1, h2.1]
        · show pySlice b cur.2 nxt.2 ++ newConcat (buildS a b nxt rest) = pySlice b cur.2 q.2
          rw [ih.2.2.1]
          exact pySlice_append b cur.2 nxt.2 q.2 hy (by omega) hq2.2
        · have hcostc : PathCost (cur :: nxt :: rest) = editCost cur nxt + PathCost (nxt :: rest) := rfl
          have hec : editCost cur nxt = 1 := by
            unfold editCost
            rw [if_neg (by omega)]
          rw [editUnits_cons_insert _ _ rfl, ih.2.2.2.1, hcostc, hec]
          show (1 : ℤ) + (PathCost (nxt :: rest) : ℤ) = ((1 + PathCost (nxt :: rest) : ℕ) : ℤ)
          push_cast
          ring
        · intro r hr
          rcases List.mem_cons.mp hr with hr | hr
          · subst hr
            refine ⟨le_refl 0, zero_le_one, by simp, ?_, ?_, fun _ => ⟨rfl, rfl⟩,
              fun habs => by simp at habs, fun habs => by simp at habs⟩
            · show ([] : List String) = pySlice a cur.1 (cur.1 + 0)
              rw [add_zero, pySlice_self]
            · show pySlice b cur.2 nxt.2 = pySlice b cur.2 (cur.2 + 1)
              rw [← hi2]
          · exact ih.2.2.2.2 r hr
      · rw [if_neg h2]
        by_cases h3 : cur.1 < nxt.1 ∧ cur.2 = nxt.2
        · rw [if_pos h3]
          have hd2 : nxt.1 = cur.1 + 1 := by
            rcases hstep with ⟨e1, e2⟩ | ⟨e1, e2⟩ | ⟨e1, e2⟩ <;> omega
          have ih := buildS_spec a b rest nxt q hst2 hlast (by omega) (by omega)
          have hq2 := staircase_last_ge rest nxt q hst2 hlast
          refine ⟨⟨rfl, rfl, ?_⟩, ?_, ?_, ?_, ?_⟩
          · show OpsChain (cur.1 + 1) (cur.2 + 0) (buildS a b nxt rest) q.1 q.2
            rw [show cur.1 + (1 : ℤ) = nxt.1 from by omega,
              show cur.2 + (0 : ℤ) = nxt.2 from by omega]
            exact ih.1
          · show pySlice a cur.1 nxt.1 ++ oldConcat (buildS a b nxt rest) = pySlice a cur.1 q.1
            rw [ih.2.1]
            exact pySlice_append a cur.1 nxt.1 q.1 hx (by omega) hq2.1
          · show ([] : List String) ++ newConcat (buildS a b nxt rest) = pySlice b cur.2 q.2
            rw [List.nil_append, ih.2.2.1, h3.2]
          · have hcostc : PathCost (cur :: nxt :: rest) = editCost cur nxt + PathCost (nxt :: rest) := rfl
            have hec : editCost cur nxt = 1 := by
              unfold editCost
              rw [if_neg (by omega)]
            rw [editUnits_cons_delete _ _ rfl, ih.2.2.2.1, hcostc, hec]
            show (1 : ℤ) + (PathCost (nxt :: rest) : ℤ) = ((1 + PathCost (nxt :: rest) : ℕ) : ℤ)
            push_cast
            ring
          · intro r hr
            rcases List.mem_cons.mp hr with hr | hr
            · subst hr
              refine ⟨zero_le_one, le_refl 0, by simp, ?_, ?_,
                fun habs => by simp at habs, fun _ => ⟨rfl, rfl⟩,
                fun habs => by simp at habs⟩
              · show pySlice a cur.1 nxt.1 = pySlice a cur.1 (cur.1 + 1)
                rw [← hd2]
              · show ([] : List String) = pySlice b cur.2 (cur.2 + 0)
                rw [add_zero, pySlice_self]
            · exact ih.2.2.2.2 r hr
        · exfalso
          rcases hstep with ⟨e1, e2⟩ | ⟨e1, e2⟩ | ⟨e1, e2⟩ <;> omega
termination_by l _ _ => l.length
decreasing_by
  all_goals simp_wf
  all_goals first
    | omega
    | exact Nat.lt_succ_of_le (scanS_len _ _)

theorem buildDiffResults_spec (a b : List String) (p : List (ℤ × ℤ)) (q : ℤ × ℤ)
    (hst : IsStaircase p) (hhead : p.head? = some (0, 0)) (hlast : p.getLast? = some q) :
    OpsChain 0 0 (buildDiffResults a b p) q.1 q.2 ∧
    oldConcat (buildDiffResults a b p) = pySlice a 0 q.1 ∧
    newConcat (buildDiffResults a b p) = pySlice b 0 q.2 ∧
    editUnits (buildDiffResults a b p) = (PathCost p : ℤ) ∧
    ∀ r ∈ buildDiffResults a b p, OpShape a b r := by
  cases p with
  | nil => simp at hhead
  | cons h t =>
    have h0 : h = (0, 0) := by simpa using hhead
    subst h0
    have heq : buildDiffResults a b ((0, 0) :: t) = buildS a b (0, 0) t := by
      unfold buildDiffResults
      rw [build_equiv]
      rfl
    rw [heq]
    exact buildS_spec a b t (0, 0) q hst hlast (le_refl 0) (le_refl 0)

/-! ## `_merge_replace_operations` -/

theorem mergeReplace_spec (a b : List String) : ∀ (rs : List DiffResult) (x y qx qy : ℤ),
    OpsChain x y rs qx qy → (∀ r ∈ rs, OpShape a b r) →
    OpsChain x y (mergeReplaceOperations rs) qx qy ∧
    oldConcat (mergeReplaceOperations rs) = oldConcat rs ∧
    newConcat (mergeReplaceOperations rs) = newConcat rs ∧
    editUnits (mergeReplaceOperations rs) = editUnits rs ∧
    ∀ r ∈ mergeReplaceOperations rs, OpShapeM a b r
  | [], x, y, qx, qy => by
    intro hchain _
    exact ⟨hchain, rfl, rfl, rfl, fun r hr => absurd hr (List.not_mem_nil r)⟩
  | [r], x, y, qx, qy => by
    intro hchain hsh
    refine ⟨hchain, rfl, rfl, rfl, fun s hs => ?_⟩
    have hsp := hsh s hs
    exact ⟨hsp.1, hsp.2.1, hsp.2.2.2.1, hsp.2.2.2.2.1⟩
  | r1 :: r2 :: rest, x, y, qx, qy => by
    intro hchain hsh
    obtain ⟨ha1, hb1, hc⟩ := hchain
    obtain ⟨ha2, hb2, hrest⟩ := hc
    have hsh1 := hsh r1 (List.mem_cons_self r1 _)
    have hsh2 := hsh r2 (List.mem_cons.mpr (Or.inr (List.mem_cons_self r2 rest)))
    rw [mergeReplaceOperations]
    by_cases hdi : r1.type = .delete ∧ r2.type = .insert
    · rw [if_pos hdi]
      have hdel := hsh1.2.2.2.2.2.2.1 hdi.1
      have hins := hsh2.2.2.2.2.2.1 hdi.2
      have hnl1 : r1.new_lines = [] := by
        rw [hsh1.2.2.2.2.1, hdel.2, add_zero, pySlice_self]
      have hol2 : r2.old_lines = [] := by
        rw [hsh2.2.2.2.1, hins.1, add_zero, pySlice_self]
      have ih := mergeReplace_spec a b rest (x + r1.old_count + r2.old_count)
        (y + r1.new_count + r2.new_count) qx qy hrest
        (fun r hr => hsh r (List.mem_cons.mpr (Or.inr (List.mem_cons.mpr (Or.inr hr)))))
      refine ⟨⟨ha1, ?_, ?_⟩, ?_, ?_, ?_, ?_⟩
      · show r2.new_start = y
        omega
      · show OpsChain (x + r1.old_count) (y + r2.new_count) (mergeReplaceOperations rest) qx qy
        rw [show x + r1.old_count = x + r1.old_count + r2.old_count from by omega,
          show y + r2.new_count = y + r1.new_count + r2.new_count from by omega]
        exact ih.1
      · show r1.old_lines ++ oldConcat (mergeReplaceOperations rest) =
          r1.old_lines ++ (r2.old_lines ++ oldConcat rest)
        rw [hol2, List.nil_append, ih.2.1]
      · show r2.new_lines ++ newConcat (mergeReplaceOperations rest) =
          r1.new_lines ++ (r2.new_lines ++ newConcat rest)
        rw [hnl1, List.nil_append, ih.2.2.1]
      · rw [editUnits_cons_replace _ _ rfl, editUnits_cons_delete _ _ hdi.1,
          editUnits_cons_insert _ _ hdi.2, ih.2.2.2.1]
        show r1.old_count + r2.new_count + editUnits rest =
          r1.old_count + (r2.new_count + editUnits rest)
        ring
      · intro r hr
        rcases List.mem_cons.mp hr with hr | hr
        · subst hr
          refine ⟨hsh1.1, hsh2.2.1, ?_, ?_⟩
          · show r1.old_lines = pySlice a r1.old_start (r1.old_start + r1.old_count)
            exact hsh1.2.2.2.1
          · show r2.new_lines = pySlice b r2.new_start (r2.new_start + r2.new_count)
            exact hsh2.2.2.2.2.1
        · exact ih.2.2.2.2 r hr
    · rw [if_neg hdi]
      have ih := mergeReplace_spec a b (r2 :: rest) (x + r1.old_count) (y + r1.new_count)
        qx qy ⟨ha2, hb2, hrest⟩
        (fun r hr => hsh r (List.mem_cons.mpr (Or.inr hr)))
      refine ⟨⟨ha1, hb1, ih.1⟩, ?_, ?_, ?_, ?_⟩
      · show r1.old_lines ++ oldConcat (mergeReplaceOperations (r2 :: rest)) =
          r1.old_lines ++ oldConcat (r2 :: rest)
        rw [ih.2.1]
      · show r1.new_lines ++ newConcat (mergeReplaceOperations (r2 :: rest)) =
          r1.new_lines ++ newConcat (r2 :: rest)
        rw [ih.2.2.1]
      · show _ + _ + editUnits (mergeReplaceOperations (r2 :: rest)) =
          _ + _ + editUnits (r2 :: rest)
        rw [ih.2.2.2.1]
      · intro r hr
        rcases List.mem_cons.mp hr with hr | hr
        · subst hr
          exact ⟨hsh1.1, hsh1.2.1, hsh1.2.2.2.1, hsh1.2.2.2.2.1⟩
        · exact ih.2.2.2.2 r hr

theorem noDelIns_cons (r : DiffResult) (L : List DiffResult)
    (hh : ∀ s, L.head? = some s → ¬(r.type = .delete ∧ s.type = .insert))
    (hL : noDelIns L) : noDelIns (r :: L) := by
  cases L with
  | nil => trivial
  | cons s L' => exact ⟨hh s rfl, hL⟩

theorem mergeReplace_head : ∀ (r : DiffResult) (l : List DiffResult),
    ∃ s, (mergeReplaceOperations (r :: l)).head? = some s ∧
      (s = r ∨ s.type = .replace)
  | r, [] => ⟨r, rfl, Or.inl rfl⟩
  | r, r2 :: rest => by
    rw [mergeReplaceOperations]
    by_cases hdi : r.type = .delete ∧ r2.type = .insert
    · rw [if_pos hdi]
      exact ⟨_, rfl, Or.inr rfl⟩
    · rw [if_neg hdi]
      exact ⟨r, rfl, Or.inl rfl⟩

theorem mergeReplace_noDelIns : ∀ rs : List DiffResult,
    noDelIns (mergeReplaceOperations rs)
  | [] => trivial
  | [_] => trivial
  | r1 :: r2 :: rest => by
    rw [mergeReplaceOperations]
    by_cases hdi : r1.type = .delete ∧ r2.type = .insert
    · rw [if_pos hdi]
      refine noDelIns_cons _ _ (fun s _ hbad => ?_) (mergeReplace_noDelIns rest)
      have : DiffType.replace = DiffType.delete := hbad.1
      simp at this
    · rw [if_neg hdi]
      refine noDelIns_cons _ _ (fun s hs hbad => ?_) (mergeReplace_noDelIns (r2 :: rest))
      obtain ⟨s', hs', hcase⟩ := mergeReplace_head r2 rest
      rw [hs'] at hs
      have hss : s' = s := by simpa using hs
      subst hss
      rcases hcase with hc | hc
      · subst hc
        exact hdi ⟨hbad.1, hbad.2⟩
      · rw [hc] at hbad
        simp at hbad

theorem opsChain_endpoint : ∀ (rs : List DiffResult) (x y qx qy : ℤ),
    OpsChain x y rs qx qy → (∀ r ∈ rs, 0 ≤ r.old_count ∧ 0 ≤ r.new_count) →
    x ≤ qx ∧ y ≤ qy
  | [], x, y, qx, qy => by
    intro hchain _
    exact ⟨le_of_eq hchain.1, le_of_eq hchain.2⟩
  | r :: rs, x, y, qx, qy => by
    intro hchain hsh
    have h0 := hsh r (List.mem_cons_self r rs)
    have ih := opsChain_endpoint rs (x + r.old_count) (y + r.new_count) qx qy
      hchain.2.2 (fun s hs => hsh s (List.mem_cons.mpr (Or.inr hs)))
    exact ⟨by omega, by omega⟩

theorem opsChain_bounds : ∀ (rs : List DiffResult) (x y qx qy : ℤ),
    OpsChain x y rs qx qy → (∀ r ∈ rs, 0 ≤ r.old_count ∧ 0 ≤ r.new_count) →
    ∀ r ∈ rs, r.old_start + r.old_count ≤ qx ∧ r.new_start + r.new_count ≤ qy
  | [], x, y, qx, qy => by
    intro _ _ r hr
    exact absurd hr (List.not_mem_nil r)
  | s :: rs, x, y, qx, qy => by
    intro hchain hsh r hr
    obtain ⟨ha, hb, hrest⟩ := hchain
    rcases List.mem_cons.mp hr with hr | hr
    · subst hr
      have hend := opsChain_endpoint rs (x + r.old_count) (y + r.new_count) qx qy hrest
        (fun s hs => hsh s (List.mem_cons.mpr (Or.inr hs)))
      exact ⟨by omega, by omega⟩
    · exact opsChain_bounds rs (x + s.old_count) (y + s.new_count) qx qy hrest
        (fun u hu => hsh u (List.mem_cons.mpr (Or.inr hu))) r hr

theorem opsChain_adjacent : ∀ (rs : List DiffResult) (x y qx qy : ℤ),
    OpsChain x y rs qx qy →
    ∀ i : ℕ, ∀ h : i + 1 < rs.length,
      (rs.get ⟨i, by omega⟩).old_start + (rs.get ⟨i, by omega⟩).old_count =
        (rs.get ⟨i + 1, h⟩).old_start ∧
      (rs.get ⟨i, by omega⟩).new_start + (rs.get ⟨i, by omega⟩).new_count =
        (rs.get ⟨i + 1, h⟩).new_start
  | [], x, y, qx, qy => by
    intro _ i h
    simp at h
  | [r], x, y, qx, qy => by
    intro _ i h
    simp at h
  | r :: s :: rs, x, y, qx, qy => by
    intro hchain i h
    obtain ⟨ha, hb, hc⟩ := hchain
    obtain ⟨ha2, hb2, hrest⟩ := hc
    cases i with
    | zero =>
      constructor
      · show r.old_start + r.old_count = s.old_start
        omega
      · show r.new_start + r.new_count = s.new_start
        omega
    | succ j =>
      have := opsChain_adjacent (s :: rs) (x + r.old_count) (y + r.new_count) qx qy
        ⟨ha2, hb2, hrest⟩ j (by simpa using h)
      exact this

/-! ## `MyersDiff.compute` end to end -/

theorem myersCompute_spec (a b : List String) (c w bl : Bool) :
    OpsChain 0 0 (myersCompute a b c w bl)
      ((preprocessSequence c w bl a).length : ℤ)
      ((preprocessSequence c w bl b).length : ℤ) ∧
    oldConcat (myersCompute a b c w bl) =
      pySlice a 0 ((preprocessSequence c w bl a).length : ℤ) ∧
    newConcat (myersCompute a b c w bl) =
      pySlice b 0 ((preprocessSequence c w bl b).length : ℤ) ∧
    editUnits (myersCompute a b c w bl) =
      (dFound (preprocessSequence c w bl a) (preprocessSequence c w bl b) : ℤ) ∧
    (∀ r ∈ myersCompute a b c w bl, OpShapeM a b r) ∧
    noDelIns (myersCompute a b c w bl) := by
  have hm : myersCompute a b c w bl =
      mergeReplaceOperations (buildDiffResults a b
        (findShortestEditScript (preprocessSequence c w bl a)
          (preprocessSequence c w bl b))) := rfl
  obtain ⟨hst, hcost, hhead, hlast⟩ :=
    findSES_staircase (preprocessSequence c w bl a) (preprocessSequence c w bl b)
  have hb := buildDiffResults_spec a b _
    (((preprocessSequence c w bl a).length : ℤ), ((preprocessSequence c w bl b).length : ℤ))
    hst hhead hlast
  have hmerge := mergeReplace_spec a b _ 0 0 _ _ hb.1 hb.2.2.2.2
  rw [hm]
  refine ⟨hmerge.1, ?_, ?_, ?_, hmerge.2.2.2.2, mergeReplace_noDelIns _⟩
  · rw [hmerge.2.1, hb.2.1]
  · rw [hmerge.2.2.1, hb.2.2.1]
  · rw [hmerge.2.2.2.1, hb.2.2.2.1, hcost]

theorem preprocess_id (l : List String) : preprocessSequence false false false l = l := by
  induction l with
  | nil => rfl
  | cons x xs ih =>
    rw [preprocessSequence]
    rw [if_neg (by simp)]
    simp only [if_neg Bool.false_ne_true]
    rw [ih]

theorem preprocess_len_le (c w bl : Bool) (l : List String) :
    (preprocessSequence c w bl l).length ≤ l.length := by
  induction l with
  | nil => exact le_refl 0
  | cons x xs ih =>
    rw [preprocessSequence]
    by_cases h : bl ∧ isBlankLine x
    · rw [if_pos h]
      simp only [List.length_cons]
      omega
    · rw [if_neg h]
      simp only [List.length_cons]
      omega

theorem lcsLen_refl (l : List String) : lcsLen l l = l.length := by
  induction l with
  | nil =>
    rw [lcsLen]
    rfl
  | cons x xs ih =>
    rw [lcsLen, if_pos rfl, ih]
    simp only [List.length_cons]
    omega

/-! ## The diff engine (`diff_engine.py`)

`DiffOptions` models the engine's options dictionary.  Regex-based pieces
(comment removal, ignore patterns) and the float similarity of
`difflib.SequenceMatcher.ratio` are modelled as oracle functions, so every
theorem over all `DiffOptions` holds for every behaviour of those pieces;
the similarity is a rational and the threshold `0.6` becomes `3/5`. -/

structure DiffOptions where
  ignore_case : Bool
  ignore_whitespace : Bool
  ignore_blank_lines : Bool
  ignore_leading_whitespace : Bool
  ignore_trailing_whitespace : Bool
  ignore_comments : Bool
  removeComments : String → String
  hasIgnorePatterns : Bool
  matchesIgnorePattern : String → Bool
  fuzzy_matching : Bool
  similarity : String → String → ℚ
  moving_block_detection : Bool

/-- `DiffEngine()` with an empty options dictionary: every `get` defaults. -/
def defaultOptions : DiffOptions :=
  ⟨false, false, false, false, false, false, id, false, fun _ => false, false,
    fun _ _ => 0, false⟩

/-- `DiffEngine._preprocess_lines`. -/
def preprocessLines (o : DiffOptions) : List String → List String
  | [] => []
  | line :: rest =>
    if o.ignore_blank_lines ∧ isBlankLine line then preprocessLines o rest
    else
      let l1 := if o.ignore_leading_whitespace then pyLstrip line else line
      let l2 := if o.ignore_trailing_whitespace then pyRstrip l1 else l1
      let l3 := if o.ignore_comments then o.removeComments l2 else l2
      if o.hasIgnorePatterns ∧ o.matchesIgnorePattern l3 then preprocessLines o rest
      else l3 :: preprocessLines o rest

/-- `'\n'.join(lines)`. -/
def joinNL (ls : List String) : String := String.intercalate "\n" ls

/-- `DiffEngine._apply_fuzzy_matching` (the `ratio() >= threshold` test via
the similarity oracle). -/
def applyFuzzyMatching (sim : String → String → ℚ) : List DiffResult → List DiffResult
  | r1 :: r2 :: rest =>
    if r1.type = .delete ∧ r2.type = .insert ∧
        (3 : ℚ) / 5 ≤ sim (joinNL r1.old_lines) (joinNL r2.new_lines) then
      ⟨.replace, r1.old_start, r1.old_count, r2.new_start, r2.new_count,
        r1.old_lines, r2.new_lines⟩ :: applyFuzzyMatching sim rest
    else r1 :: applyFuzzyMatching sim (r2 :: rest)
  | l => l

/-- `DiffEngine._detect_moving_blocks`: the source builds block maps but then
returns its `results` argument unchanged (lines 243-267). -/
def detectMovingBlocks (rs : List DiffResult) : List DiffResult := rs

/-- `DiffEngine.compare_lines`. -/
def compareLines (o : DiffOptions) (A B : List String) : List DiffResult :=
  let pa := preprocessLines o A
  let pb := preprocessLines o B
  let rs := myersCompute pa pb o.ignore_case o.ignore_whitespace o.ignore_blank_lines
  let rs2 := if o.fuzzy_matching then applyFuzzyMatching o.similarity rs else rs
  if o.moving_block_detection then detectMovingBlocks rs2 else rs2

theorem applyFuzzy_noop (sim : String → String → ℚ) :
    ∀ rs : List DiffResult, noDelIns rs → applyFuzzyMatching sim rs = rs
  | [] => fun _ => rfl
  | [_] => fun _ => rfl
  | r1 :: r2 :: rest => by
    intro h
    rw [applyFuzzyMatching, if_neg (fun hc => h.1 ⟨hc.1, hc.2.1⟩),
      applyFuzzy_noop sim (r2 :: rest) h.2]

/-- With the diff post-passes being no-ops (`_apply_fuzzy_matching` never
fires after `_merge_replace_operations`, `_detect_moving_blocks` returns its
input), `compare_lines` is the Myers computation on the preprocessed lines. -/
theorem compareLines_eq (o : DiffOptions) (A B : List String) :
    compareLines o A B = myersCompute (preprocessLines o A) (preprocessLines o B)
      o.ignore_case o.ignore_whitespace o.ignore_blank_lines := by
  have hnd := (myersCompute_spec (preprocessLines o A) (preprocessLines o B)
    o.ignore_case o.ignore_whitespace o.ignore_blank_lines).2.2.2.2.2
  simp only [compareLines, detectMovingBlocks]
  by_cases hm : o.moving_block_detection
  · rw [if_pos hm]
    by_cases hf : o.fuzzy_matching
    · rw [if_pos hf, applyFuzzy_noop _ _ hnd]
    · rw [if_neg hf]
  · rw [if_neg hm]
    by_cases hf : o.fuzzy_matching
    · rw [if_pos hf, applyFuzzy_noop _ _ hnd]
    · rw [if_neg hf]

/-! ## Fuel-indexed evaluation forms

The loops above are defined by well-founded recursion, which the kernel
does not unfold on concrete inputs.  Each is mirrored here by a structural
version with explicit fuel, proved equal; the claims' concrete scenarios
are then evaluated through these forms. -/

def snakeF (a b : List String) : ℕ → ℤ → ℤ → ℤ × ℤ
  | 0, x, y => (x, y)
  | f + 1, x, y =>
    if x < (a.length : ℤ) ∧ y < (b.length : ℤ) ∧ linesEqual a b x y = true then
      snakeF a b f (x + 1) (y + 1)
    else (x, y)

theorem snakeF_eq (a b : List String) : ∀ (f : ℕ) (x y : ℤ),
    ((a.length : ℤ) - x).toNat < f → snakeF a b f x y = snake a b x y
  | 0, x, y => by
    intro h
    exact absurd h (Nat.not_lt_zero _)
  | f + 1, x, y => by
    intro h
    rw [snakeF, snake]
    by_cases hc : x < (a.length : ℤ) ∧ y < (b.length : ℤ) ∧ linesEqual a b x y = true
    · rw [if_pos hc, dif_pos hc]
      exact snakeF_eq a b f (x + 1) (y + 1) (by omega)
    · rw [if_neg hc, dif_neg hc]

def snakeE (a b : List String) (x y : ℤ) : ℤ × ℤ :=
  snakeF a b (((a.length : ℤ) - x).toNat + 1) x y

theorem snakeE_eq (a b : List String) (x y : ℤ) : snakeE a b x y = snake a b x y :=
  snakeF_eq a b _ x y (by omega)

def innerLoopE (a b : List String) (d : ℤ) (v : VMap) : List Int → Option VMap
  | [] => some v
  | k :: rest =>
    let x0 := chooseX v d k
    let s := snakeE a b x0 (x0 - k)
    let v' := vset v k s.1
    if (a.length : ℤ) ≤ s.1 ∧ (b.length : ℤ) ≤ s.2 then none
    else innerLoopE a b d v' rest

theorem innerLoopE_eq (a b : List String) (d : ℤ) : ∀ (ks : List Int) (v : VMap),
    innerLoopE a b d v ks = innerLoop a b d v ks
  | [], _ => rfl
  | k :: rest, v => by
    simp only [innerLoopE, innerLoop, snakeE_eq]
    split
    · rfl
    · exact innerLoopE_eq a b d rest _

def diagWalkF : ℕ → ℤ → ℤ → ℤ → ℤ → List (ℤ × ℤ) → (ℤ × ℤ) × List (ℤ × ℤ)
  | 0, _, _, x, y, acc => ((x, y), acc)
  | f + 1, prevx, prevy, x, y, acc =>
    if prevx < x ∧ prevy < y then
      diagWalkF f prevx prevy (x - 1) (y - 1) (acc ++ [(x - 1, y - 1)])
    else ((x, y), acc)

theorem diagWalkF_eq : ∀ (f : ℕ) (prevx prevy x y : ℤ) (acc : List (ℤ × ℤ)),
    (x - prevx).toNat < f → diagWalkF f prevx prevy x y acc = diagWalk prevx prevy x y acc
  | 0, _, _, x, y, acc => by
    intro h
    exact absurd h (Nat.not_lt_zero _)
  | f + 1, prevx, prevy, x, y, acc => by
    intro h
    rw [diagWalkF, diagWalk]
    by_cases hc : prevx < x ∧ prevy < y
    · rw [if_pos hc, dif_pos hc]
      exact diagWalkF_eq f prevx prevy (x - 1) (y - 1) _ (by omega)
    · rw [if_neg hc, dif_neg hc]

def diagWalkE (prevx prevy x y : ℤ) (acc : List (ℤ × ℤ)) : (ℤ × ℤ) × List (ℤ × ℤ) :=
  diagWalkF ((x - prevx).toNat + 1) prevx prevy x y acc

theorem diagWalkE_eq (prevx prevy x y : ℤ) (acc : List (ℤ × ℤ)) :
    diagWalkE prevx prevy x y acc = diagWalk prevx prevy x y acc :=
  diagWalkF_eq _ prevx prevy x y acc (by omega)

def backLoopE (trace : List VMap) : ℕ → ℤ → ℤ → List (ℤ × ℤ) → List (ℤ × ℤ)
  | 0, _, _, acc => acc
  | dp + 1, x, y, acc =>
    let v := (trace.get? (dp + 1)).getD (fun _ => none)
    let k := x - y
    let prevk := if chooseDown v ((dp : Int) + 1) k then k + 1 else k - 1
    let prevx := vget v prevk 0
    let prevy := prevx - prevk
    let w := diagWalkE prevx prevy x y acc
    if prevx < w.1.1 then
      backLoopE trace dp prevx w.1.2 (w.2 ++ [(prevx, w.1.2)])
    else
      backLoopE trace dp w.1.1 prevy (w.2 ++ [(w.1.1, prevy)])

theorem backLoopE_eq (trace : List VMap) : ∀ (dp : ℕ) (x y : ℤ) (acc : List (ℤ × ℤ)),
    backLoopE trace dp x y acc = backLoop trace dp x y acc
  | 0, _, _, _ => rfl
  | dp + 1, x, y, acc => by
    simp only [backLoopE, backLoop, diagWalkE_eq]
    split <;> split <;> exact backLoopE_eq trace dp _ _ _

def backtrackE (a b : List String) (trace : List VMap) (d : ℕ) : List (Int × Int) :=
  let n : Int := a.length
  let m : Int := b.length
  let path0 := (backLoopE trace d n m [(n, m)]).reverse
  let path1 := if path0 = [] ∨ path0.head? ≠ some (0, 0) then (0, 0) :: path0 else path0
  if path1.getLast? ≠ some (n, m) then path1 ++ [(n, m)] else path1

theorem backtrackE_eq (a b : List String) (trace : List VMap) (d : ℕ) :
    backtrackE a b trace d = backtrack a b trace d := by
  simp only [backtrackE, backtrack, backLoopE_eq]

def solveAuxE (a b : List String) : ℕ → ℕ → List VMap → VMap → List (Int × Int)
  | 0, _, _, _ => [(0, 0), ((a.length : Int), (b.length : Int))]
  | f + 1, d, trace, v =>
    let trace' := trace ++ [v]
    match innerLoopE a b (d : Int) v (kRange d) with
    | none => backtrackE a b trace' d
    | some v' => solveAuxE a b f (d + 1) trace' v'

theorem solveAuxE_eq (a b : List String) (dmax : ℕ) : ∀ (f d : ℕ) (trace : List VMap)
    (v : VMap), f = dmax + 1 - d → solveAuxE a b f d trace v = solveAux a b dmax d trace v
  | 0, d, trace, v => by
    intro hf
    rw [solveAuxE, solveAux, dif_neg (by omega)]
  | f + 1, d, trace, v => by
    intro hf
    have hd : d ≤ dmax := by omega
    simp only [solveAuxE, innerLoopE_eq]
    rw [solveAux, dif_pos hd]
    cases hil : innerLoop a b (d : Int) v (kRange d) with
    | none => exact backtrackE_eq a b (trace ++ [v]) d
    | some v2 => exact solveAuxE_eq a b dmax f (d + 1) (trace ++ [v]) v2 (by omega)

def findShortestEditScriptE (a b : List String) : List (Int × Int) :=
  solveAuxE a b (a.length + b.length + 1) 0 [] vInit

theorem findSES_E (a b : List String) :
    findShortestEditScriptE a b = findShortestEditScript a b :=
  solveAuxE_eq a b (a.length + b.length) _ 0 [] vInit (by omega)

def scanEqualEndF (p : List (Int × Int)) : ℕ → ℕ → ℕ
  | 0, j => j
  | f + 1, j =>
    if j + 1 < p.length ∧ (pathGet p (j + 1)).1 = (pathGet p j).1 + 1 ∧
        (pathGet p (j + 1)).2 = (pathGet p j).2 + 1 then
      scanEqualEndF p f (j + 1)
    else j

theorem scanEqualEndF_eq (p : List (Int × Int)) : ∀ (f j : ℕ), p.length - j < f →
    scanEqualEndF p f j = scanEqualEnd p j
  | 0, j => by
    intro h
    exact absurd h (Nat.not_lt_zero _)
  | f + 1, j => by
    intro h
    rw [scanEqualEndF, scanEqualEnd]
    by_cases hc : j + 1 < p.length ∧ (pathGet p (j + 1)).1 = (pathGet p j).1 + 1 ∧
        (pathGet p (j + 1)).2 = (pathGet p j).2 + 1
    · rw [if_pos hc, dif_pos hc]
      exact scanEqualEndF_eq p f (j + 1) (by omega)
    · rw [if_neg hc, dif_neg hc]

def scanEqualEndE (p : List (Int × Int)) (j : ℕ) : ℕ :=
  scanEqualEndF p (p.length - j + 1) j

theorem scanEqualEndE_eq (p : List (Int × Int)) (j : ℕ) :
    scanEqualEndE p j = scanEqualEnd p j :=
  scanEqualEndF_eq p _ j (by omega)

def buildLoopF (a b : List String) (p : List (Int × Int)) : ℕ → ℕ → List DiffResult
  | 0, _ => []
  | f + 1, i =>
    if i + 1 < p.length then
      (if (pathGet p i).1 < (pathGet p (i + 1)).1 ∧
          (pathGet p i).2 < (pathGet p (i + 1)).2 then
        ⟨.equal, (pathGet p i).1,
          (pathGet p (scanEqualEndE p (i + 1))).1 - (pathGet p i).1,
          (pathGet p i).2,
          (pathGet p (scanEqualEndE p (i + 1))).2 - (pathGet p i).2,
          pySlice a (pathGet p i).1 (pathGet p (scanEqualEndE p (i + 1))).1,
          pySlice b (pathGet p i).2 (pathGet p (scanEqualEndE p (i + 1))).2⟩ ::
          buildLoopF a b p f (scanEqualEndE p (i + 1))
      else if (pathGet p i).1 = (pathGet p (i + 1)).1 ∧
          (pathGet p i).2 < (pathGet p (i + 1)).2 then
        ⟨.insert, (pathGet p i).1, 0, (pathGet p i).2, 1, [],
          pySlice b (pathGet p i).2 (pathGet p (i + 1)).2⟩ :: buildLoopF a b p f (i + 1)
      else if (pathGet p i).1 < (pathGet p (i + 1)).1 ∧
          (pathGet p i).2 = (pathGet p (i + 1)).2 then
        ⟨.delete, (pathGet p i).1, 1, (pathGet p i).2, 0,
          pySlice a (pathGet p i).1 (pathGet p (i + 1)).1, []⟩ :: buildLoopF a b p f (i + 1)
      else buildLoopF a b p f (i + 1))
    else []

theorem buildLoopF_eq (a b : List String) (p : List (Int × Int)) : ∀ (f i : ℕ),
    p.length - i < f → buildLoopF a b p f i = buildLoop a b p i
  | 0, i => by
    intro h
    exact absurd h (Nat.not_lt_zero _)
  | f + 1, i => by
    intro h
    rw [buildLoopF, buildLoop_eq]
    by_cases hi : i + 1 < p.length
    · rw [if_pos hi, if_pos hi, scanEqualEndE_eq]
      have hle := le_scanEqualEnd p (i + 1)
      by_cases h1 : (pathGet p i).1 < (pathGet p (i + 1)).1 ∧
          (pathGet p i).2 < (pathGet p (i + 1)).2
      · rw [if_pos h1, if_pos h1, buildLoopF_eq a b p f (scanEqualEnd p (i + 1)) (by omega)]
      · rw [if_neg h1, if_neg h1]
        by_cases h2 : (pathGet p i).1 = (pathGet p (i + 1)).1 ∧
            (pathGet p i).2 < (pathGet p (i + 1)).2
        · rw [if_pos h2, if_pos h2, buildLoopF_eq a b p f (i + 1) (by omega)]
        · rw [if_neg h2, if_neg h2]
          by_cases h3 : (pathGet p i).1 < (pathGet p (i + 1)).1 ∧
              (pathGet p i).2 = (pathGet p (i + 1)).2
          · rw [if_pos h3, if_pos h3, buildLoopF_eq a b p f (i + 1) (by omega)]
          · rw [if_neg h3, if_neg h3, buildLoopF_eq a b p f (i + 1) (by omega)]
    · rw [if_neg hi, if_neg hi]

def myersComputeE (sa sb : List String) (c w bl : Bool) : List DiffResult :=
  mergeReplaceOperations (buildLoopF sa sb
    (findShortestEditScriptE (preprocessSequence c w bl sa) (preprocessSequence c w bl sb))
    ((findShortestEditScriptE (preprocessSequence c w bl sa)
      (preprocessSequence c w bl sb)).length + 1) 0)

theorem myersComputeE_eq (sa sb : List String) (c w bl : Bool) :
    myersComputeE sa sb c w bl = myersCompute sa sb c w bl := by
  unfold myersComputeE
  rw [findSES_E, buildLoopF_eq sa sb _ _ 0 (by omega)]
  rfl

/-! ## The claims -/

/-- C1: for every pair of line lists compared with no ignore options, the
number of non-Equal line-units of `MyersDiff.compute` (old_count over
Delete/Replace plus new_count over Insert/Replace) is `N + M - 2L`, where
`L` is the length of a longest common subsequence of `A` and `B`. -/
theorem C1_minimality (A B : List String) :
    ∃ L : ℕ,
      (∃ C : List String, List.Sublist C A ∧ List.Sublist C B ∧ C.length = L) ∧
      (∀ C : List String, List.Sublist C A → List.Sublist C B → C.length ≤ L) ∧
      editUnits (myersCompute A B false false false) =
        (A.length : ℤ) + (B.length : ℤ) - 2 * (L : ℤ) := by
  refine ⟨lcsLen A B, lcsLen_exists A B, fun C h1 h2 => lcsLen_ge A B C h1 h2, ?_⟩
  have h := (myersCompute_spec A B false false false).2.2.2.1
  rw [preprocess_id, preprocess_id, dFound_eq] at h
  rw [h]
  have h1 := lcsLen_le_left A B
  have h2 := lcsLen_le_right A B
  push_cast [Nat.cast_sub (by omega : 2 * lcsLen A B ≤ A.length + B.length)]
  ring

/-- C2: with no ignore options, concatenating the `old_lines` of the
returned operations reconstructs `A` exactly, and the `new_lines`
reconstruct `B`. -/
theorem C2_coverage (A B : List String) :
    oldConcat (myersCompute A B false false false) = A ∧
    newConcat (myersCompute A B false false false) = B := by
  have h := myersCompute_spec A B false false false
  rw [preprocess_id, preprocess_id] at h
  refine ⟨?_, ?_⟩
  · rw [h.2.1, pySlice_all]
  · rw [h.2.2.1, pySlice_all]

/-- C7: the solver returns via backtracking at an edit distance
`d ≤ N + M` at which the inner loop's return test `x >= n and y >= m`
fires; the fallback return after the loop is never the result. -/
theorem C7_solver_returns (a b : List String) :
    ∃ d : ℕ, d ≤ a.length + b.length ∧ foundAt a b d = true ∧
      findShortestEditScript a b =
        backtrack a b ((List.range (d + 1)).map (vRounds a b)) d :=
  ⟨dFound a b, dFound_le_sum a b, dFound_found a b, findSES_eq a b⟩

theorem preprocessLines_id (l : List String) : preprocessLines defaultOptions l = l := by
  induction l with
  | nil => rfl
  | cons x xs ih =>
    show x :: preprocessLines defaultOptions xs = x :: xs
    rw [ih]

theorem dFound_refl (X : List String) : dFound X X = 0 := by
  rw [dFound_eq, lcsLen_refl]
  omega

theorem findSES_refl (X : List String) :
    findShortestEditScript X X =
      if X.length = 0 then [(0, 0)]
      else [(0, 0), ((X.length : ℤ), (X.length : ℤ))] := by
  rw [findSES_eq, dFound_refl]
  by_cases hX : X.length = 0
  · rw [if_pos hX]
    simp [backtrack, backLoop, hX]
  · rw [if_neg hX]
    have hne : (X.length : ℤ) ≠ 0 := by omega
    simp [backtrack, backLoop, Prod.ext_iff, hne]

/-- C3: `compare_lines(X, X)` with no ignore options yields a single Equal
operation with `old_count = new_count = len(X)` spanning all of `X`, or an
empty list when `X` is empty; never an Insert, Delete or Replace. -/
theorem C3_identity (X : List String) :
    compareLines defaultOptions X X =
      if X.length = 0 then []
      else [⟨.equal, 0, (X.length : ℤ), 0, (X.length : ℤ), X, X⟩] := by
  rw [compareLines_eq, preprocessLines_id]
  show myersCompute X X false false false = _
  have hms : myersCompute X X false false false =
      mergeReplaceOperations (buildDiffResults X X
        (findShortestEditScript (preprocessSequence false false false X)
          (preprocessSequence false false false X))) := rfl
  rw [hms, preprocess_id, findSES_refl]
  by_cases hX : X.length = 0
  · rw [if_pos hX, if_pos hX, buildDiffResults, buildLoop_eq, if_neg (by simp)]
    rfl
  · rw [if_neg hX, if_neg hX, buildDiffResults, buildLoop_eq]
    rw [if_pos (show 0 + 1 < ([((0 : ℤ), (0 : ℤ)),
      ((X.length : ℤ), (X.length : ℤ))]).length by simp)]
    rw [show pathGet [((0 : ℤ), (0 : ℤ)), ((X.length : ℤ), (X.length : ℤ))] 0 =
      ((0 : ℤ), (0 : ℤ)) from rfl]
    rw [show pathGet [((0 : ℤ), (0 : ℤ)), ((X.length : ℤ), (X.length : ℤ))] 1 =
      ((X.length : ℤ), (X.length : ℤ)) from rfl]
    rw [if_pos (show ((0 : ℤ), (0 : ℤ)).1 < ((X.length : ℤ), (X.length : ℤ)).1 ∧
      ((0 : ℤ), (0 : ℤ)).2 < ((X.length : ℤ), (X.length : ℤ)).2 by
        constructor <;> (show (0 : ℤ) < (X.length : ℤ); omega))]
    rw [show scanEqualEnd [((0 : ℤ), (0 : ℤ)), ((X.length : ℤ), (X.length : ℤ))] 1 = 1 by
      rw [scanEqualEnd, dif_neg (by simp)]]
    rw [show pathGet [((0 : ℤ), (0 : ℤ)), ((X.length : ℤ), (X.length : ℤ))] 1 =
      ((X.length : ℤ), (X.length : ℤ)) from rfl]
    rw [buildLoop_eq, if_neg (by simp)]
    show mergeReplaceOperations [⟨.equal, 0, (X.length : ℤ) - 0, 0, (X.length : ℤ) - 0,
      pySlice X 0 (X.length : ℤ), pySlice X 0 (X.length : ℤ)⟩] = _
    rw [show mergeReplaceOperations [(⟨.equal, 0, (X.length : ℤ) - 0, 0, (X.length : ℤ) - 0,
      pySlice X 0 (X.length : ℤ), pySlice X 0 (X.length : ℤ)⟩ : DiffResult)] =
      [⟨.equal, 0, (X.length : ℤ) - 0, 0, (X.length : ℤ) - 0,
        pySlice X 0 (X.length : ℤ), pySlice X 0 (X.length : ℤ)⟩] from rfl]
    rw [pySlice_all, sub_zero]

/-- C5: `compare_lines([], ["x","y"])` in fact returns two unit Insert
operations (`new_count = 1` each), not one Insert with `new_count = 2`:
the backtracked path takes two separate right-steps and the builder emits
one Insert per step. -/
theorem C5_empty_vs_two :
    compareLines defaultOptions [] ["x", "y"] =
      [⟨.insert, 0, 0, 0, 1, [], ["x"]⟩, ⟨.insert, 0, 0, 1, 1, [], ["y"]⟩] ∧
    (compareLines defaultOptions [] ["x", "y"]).length ≠ 1 := by
  have h : compareLines defaultOptions [] ["x", "y"] =
      [⟨.insert, 0, 0, 0, 1, [], ["x"]⟩, ⟨.insert, 0, 0, 1, 1, [], ["y"]⟩] := by
    rw [compareLines_eq]
    show myersCompute [] ["x", "y"] false false false = _
    rw [← myersComputeE_eq]
    decide
  refine ⟨h, ?_⟩
  rw [h]
  decide

/-- C5 counterexample: the result is not the single claimed Insert
operation with `new_count = 2`. -/
theorem C5_counterexample :
    compareLines defaultOptions [] ["x", "y"] ≠
      [⟨.insert, 0, 0, 0, 2, [], ["x", "y"]⟩] := by
  rw [compareLines_eq]
  show myersCompute [] ["x", "y"] false false false ≠ _
  rw [← myersComputeE_eq]
  decide

/-- C9: the unified diff of `["a","b","c"]` vs `["a","x","c"]` with labels
`a`, `b` starts with the two header lines, and its line list holds exactly
one hunk header `@@ -2,1 +2,1 @@`, one `-b` line and one `+x` line. -/
theorem C9_unified_shape :
    formatDiffUnified (myersCompute ["a", "b", "c"] ["a", "x", "c"] false false false)
        "a" "b" = "--- a\n+++ b\n@@ -2,1 +2,1 @@\n-b\n+x" ∧
    ["--- a", "+++ b"] ++
        ((myersCompute ["a", "b", "c"] ["a", "x", "c"] false false false).map
          formatResultLines).flatten =
      ["--- a", "+++ b", "@@ -2,1 +2,1 @@", "-b", "+x"] ∧
    (["--- a", "+++ b"] ++
        ((myersCompute ["a", "b", "c"] ["a", "x", "c"] false false false).map
          formatResultLines).flatten).count "@@ -2,1 +2,1 @@" = 1 ∧
    (["--- a", "+++ b"] ++
        ((myersCompute ["a", "b", "c"] ["a", "x", "c"] false false false).map
          formatResultLines).flatten).count "-b" = 1 ∧
    (["--- a", "+++ b"] ++
        ((myersCompute ["a", "b", "c"] ["a", "x", "c"] false false false).map
          formatResultLines).flatten).count "+x" = 1 := by
  have h : myersCompute ["a", "b", "c"] ["a", "x", "c"] false false false =
      [⟨.equal, 0, 1, 0, 1, ["a"], ["a"]⟩,
        ⟨.replace, 1, 1, 1, 1, ["b"], ["x"]⟩,
        ⟨.equal, 2, 1, 2, 1, ["c"], ["c"]⟩] := by
    rw [← myersComputeE_eq]
    decide
  rw [h]
  refine ⟨?_, by decide, by decide, by decide, by decide⟩
  decide

/-- C6: the claim fails — with `ignore_case` the solver matches on the
case-normalized sequences, but the builder slices the sequences the engine
passed in, so `old_lines`/`new_lines` hold the engine-level (not
case-normalized) text: `compare_lines(["A"], ["a"])` yields an Equal whose
`old_lines` is `["A"]`.  What does hold: every operation's line fields are
contiguous slices of the engine-preprocessed inputs, so lines the engine's
`_preprocess_lines` filters out appear in neither side's output. -/
theorem C6_preprocessed_text :
    (compareLines ⟨true, false, false, false, false, false, id, false, fun _ => false,
        false, fun _ _ => 0, false⟩ ["A"] ["a"] =
      [⟨.equal, 0, 1, 0, 1, ["A"], ["a"]⟩] ∧
      preprocessSequence true false false ["A"] = ["a"] ∧
      (["A"] : List String) ≠ ["a"]) ∧
    ∀ (o : DiffOptions) (A B : List String), ∀ r ∈ compareLines o A B,
      r.old_lines = pySlice (preprocessLines o A) r.old_start (r.old_start + r.old_count) ∧
      r.new_lines = pySlice (preprocessLines o B) r.new_start (r.new_start + r.new_count) := by
  constructor
  · refine ⟨?_, by decide, by decide⟩
    rw [compareLines_eq]
    show myersCompute ["A"] ["a"] true false false = _
    rw [← myersComputeE_eq]
    decide
  · intro o A B r hr
    rw [compareLines_eq] at hr
    have h := (myersCompute_spec (preprocessLines o A) (preprocessLines o B)
      o.ignore_case o.ignore_whitespace o.ignore_blank_lines).2.2.2.2.1 r hr
    exact ⟨h.2.2.1, h.2.2.2⟩

/-- C6 counterexample: with `ignore_case`, the Equal operation over
`["A"]` vs `["a"]` reports `old_lines = ["A"]`, not the case-normalized
`["a"]` that the preprocessed sequences hold. -/
theorem C6_counterexample :
    (compareLines ⟨true, false, false, false, false, false, id, false, fun _ => false,
        false, fun _ _ => 0, false⟩ ["A"] ["a"]).map DiffResult.old_lines = [["A"]] ∧
    preprocessSequence true false false ["A"] = ["a"] ∧
    ([["A"]] : List (List String)) ≠ [["a"]] := by
  refine ⟨?_, by decide, by decide⟩
  rw [compareLines_eq]
  show (myersCompute ["A"] ["a"] true false false).map DiffResult.old_lines = _
  rw [← myersComputeE_eq]
  decide

/-- C8: every operation of `compare_lines` stays within the bounds of the
sequences handed to the differ, and consecutive operations are contiguous
on both sides. -/
theorem C8_invariants (o : DiffOptions) (A B : List String) :
    (∀ r ∈ compareLines o A B,
      r.old_start + r.old_count ≤ ((preprocessLines o A).length : ℤ) ∧
      r.new_start + r.new_count ≤ ((preprocessLines o B).length : ℤ)) ∧
    (∀ i : ℕ, ∀ h : i + 1 < (compareLines o A B).length,
      ((compareLines o A B).get ⟨i, by omega⟩).old_start +
          ((compareLines o A B).get ⟨i, by omega⟩).old_count =
        ((compareLines o A B).get ⟨i + 1, h⟩).old_start ∧
      ((compareLines o A B).get ⟨i, by omega⟩).new_start +
          ((compareLines o A B).get ⟨i, by omega⟩).new_count =
        ((compareLines o A B).get ⟨i + 1, h⟩).new_start) := by
  have hspec := myersCompute_spec (preprocessLines o A) (preprocessLines o B)
    o.ignore_case o.ignore_whitespace o.ignore_blank_lines
  have hcounts : ∀ r ∈ myersCompute (preprocessLines o A) (preprocessLines o B)
      o.ignore_case o.ignore_whitespace o.ignore_blank_lines,
      0 ≤ r.old_count ∧ 0 ≤ r.new_count :=
    fun r hr => ⟨(hspec.2.2.2.2.1 r hr).1, (hspec.2.2.2.2.1 r hr).2.1⟩
  rw [compareLines_eq]
  constructor
  · intro r hr
    have hb := opsChain_bounds _ 0 0 _ _ hspec.1 hcounts r hr
    have hlA := preprocess_len_le o.ignore_case o.ignore_whitespace o.ignore_blank_lines
      (preprocessLines o A)
    have hlB := preprocess_len_le o.ignore_case o.ignore_whitespace o.ignore_blank_lines
      (preprocessLines o B)
    constructor
    · calc r.old_start + r.old_count ≤ _ := hb.1
        _ ≤ ((preprocessLines o A).length : ℤ) := by exact_mod_cast hlA
    · calc r.new_start + r.new_count ≤ _ := hb.2
        _ ≤ ((preprocessLines o B).length : ℤ) := by exact_mod_cast hlB
  · intro i h
    exact opsChain_adjacent _ 0 0 _ _ hspec.1 i h

/-! ## `DiffEngine.three_way_merge` -/

/-- One entry of `_build_change_map`'s dictionary values. -/
structure Change where
  type : DiffType
  old_count : Int
  new_lines : List String
deriving DecidableEq, Repr

/-- One conflict record of `three_way_merge`. -/
structure Conflict where
  line : Int
  base_lines : List String
  yours_lines : List String
  theirs_lines : List String
deriving DecidableEq, Repr

/-- `DiffEngine._build_change_map`: keyed by `old_start`, Equal operations
skipped, a later operation with the same key overriding an earlier one. -/
def buildChangeMap : List DiffResult → Int → Option Change
  | [], _ => none
  | r :: rest, key =>
    match buildChangeMap rest key with
    | some c => some c
    | none =>
      if r.type = .equal then none
      else if key = r.old_start then some ⟨r.type, r.old_count, r.new_lines⟩
      else none

/-- Python's `x or 1` on an int. -/
def pyOr (x : Int) : Int := if x = 0 then 1 else x

/-- The `while i < len(base_lines)` loop of `three_way_merge`, with fuel;
`none` means the loop has not finished within the given fuel.  The
single-sided branches advance by `old_count or 1`; the both-sided branch
advances by `max(old_count, old_count)` with no `or 1` (source line 475).
`base_lines[i]` is read through `lineAt` (always in range here). -/
def mergeLoop (base : List String) (ym tm : Int → Option Change) :
    ℕ → Int → List String → List Conflict → Option (List String × List Conflict)
  | 0, i, merged, conflicts =>
    if (base.length : Int) ≤ i then some (merged, conflicts) else none
  | fuel + 1, i, merged, conflicts =>
    if (base.length : Int) ≤ i then some (merged, conflicts)
    else
      match ym i, tm i with
      | none, none => mergeLoop base ym tm fuel (i + 1) (merged ++ (lineAt base i).toList) conflicts
      | some yc, none =>
        mergeLoop base ym tm fuel (i + pyOr yc.old_count) (merged ++ yc.new_lines) conflicts
      | none, some tc =>
        mergeLoop base ym tm fuel (i + pyOr tc.old_count) (merged ++ tc.new_lines) conflicts
      | some yc, some tc =>
        if yc.new_lines = tc.new_lines then
          mergeLoop base ym tm fuel (i + max yc.old_count tc.old_count)
            (merged ++ yc.new_lines) conflicts
        else
          mergeLoop base ym tm fuel (i + max yc.old_count tc.old_count)
            (merged ++ ["<<<<<<< YOURS"] ++ yc.new_lines ++ ["======="] ++
              tc.new_lines ++ [">>>>>>> THEIRS"])
            (conflicts ++ [⟨i, pySlice base i (i + max yc.old_count tc.old_count),
              yc.new_lines, tc.new_lines⟩])

/-- `DiffEngine.three_way_merge` on an engine with options `o`. -/
def threeWayMerge (o : DiffOptions) (fuel : ℕ) (base yours theirs : List String) :
    Option (List String × List Conflict) :=
  mergeLoop base (buildChangeMap (compareLines o base yours))
    (buildChangeMap (compareLines o base theirs)) fuel 0 [] []

/-- C4: the claim fails — `three_way_merge` does not terminate on
`base = ["a"]`, `yours = ["b","a"]`, `theirs = ["c","a"]`.  Both sides are
pure insertions at base index 0 (`old_count = 0`), the sides differ, and the
walking loop then advances `i` by `max(0, 0) = 0` (line 475), looping
forever: for every fuel the loop is still running. -/
theorem C4_merge_nontermination (fuel : ℕ) :
    threeWayMerge defaultOptions fuel ["a"] ["b", "a"] ["c", "a"] = none := by
  have hy : compareLines defaultOptions ["a"] ["b", "a"] =
      [⟨.insert, 0, 0, 0, 1, [], ["b"]⟩, ⟨.equal, 0, 1, 1, 1, ["a"], ["a"]⟩] := by
    rw [compareLines_eq]
    show myersCompute ["a"] ["b", "a"] false false false = _
    rw [← myersComputeE_eq]
    decide
  have ht : compareLines defaultOptions ["a"] ["c", "a"] =
      [⟨.insert, 0, 0, 0, 1, [], ["c"]⟩, ⟨.equal, 0, 1, 1, 1, ["a"], ["a"]⟩] := by
    rw [compareLines_eq]
    show myersCompute ["a"] ["c", "a"] false false false = _
    rw [← myersComputeE_eq]
    decide
  have hloop : ∀ (f : ℕ) (m : List String) (c : List Conflict),
      mergeLoop ["a"]
        (buildChangeMap [⟨.insert, 0, 0, 0, 1, [], ["b"]⟩, ⟨.equal, 0, 1, 1, 1, ["a"], ["a"]⟩])
        (buildChangeMap [⟨.insert, 0, 0, 0, 1, [], ["c"]⟩, ⟨.equal, 0, 1, 1, 1, ["a"], ["a"]⟩])
        f 0 m c = none := by
    intro f
    induction f with
    | zero =>
      intro m c
      rfl
    | succ f ih =>
      intro m c
      exact ih _ _
  show mergeLoop ["a"] (buildChangeMap (compareLines defaultOptions ["a"] ["b", "a"]))
    (buildChangeMap (compareLines defaultOptions ["a"] ["c", "a"])) fuel 0 [] [] = none
  rw [hy, ht]
  exact hloop fuel [] []

/-! ## `DiffEngine.compare_words` and `difflib.SequenceMatcher`

`re.findall(r'\S+|\s+', s)` splits a string into maximal runs of
non-whitespace and whitespace characters (every character falls in one of
the two classes).  `SequenceMatcher` (no junk predicate, autojunk on) is
embedded below over the word lists. -/

/-- Concatenation of character runs. -/
def catC : List (List Char) → List Char
  | [] => []
  | x :: xs => x ++ catC xs

/-- The tokenizer's accumulator loop: `acc` is the current run, reversed. -/
def runsGo : List Char → List Char → List (List Char)
  | [], [] => []
  | [], a :: acc => [(a :: acc).reverse]
  | c :: cs, [] => runsGo cs [c]
  | c :: cs, a :: acc =>
    if isPySpace c = isPySpace a then runsGo cs (c :: a :: acc)
    else (a :: acc).reverse :: runsGo cs [c]

/-- `re.findall(r'\S+|\s+', s)`. -/
def pyTokens (s : String) : List String := (runsGo s.toList []).map String.mk

theorem runsGo_concat : ∀ (l acc : List Char), catC (runsGo l acc) = acc.reverse ++ l
  | [], [] => rfl
  | [], a :: acc => by
    rw [runsGo]
    show (a :: acc).reverse ++ [] = (a :: acc).reverse ++ []
    rfl
  | c :: cs, [] => by
    rw [runsGo, runsGo_concat cs [c]]
    rfl
  | c :: cs, a :: acc => by
    rw [runsGo]
    by_cases h : isPySpace c = isPySpace a
    · rw [if_pos h, runsGo_concat cs (c :: a :: acc)]
      simp
    · rw [if_neg h]
      show (a :: acc).reverse ++ catC (runsGo cs [c]) = (a :: acc).reverse ++ (c :: cs)
      rw [runsGo_concat cs [c]]
      simp

theorem smk_append (xs ys : List Char) :
    String.mk xs ++ String.mk ys = String.mk (xs ++ ys) := rfl

theorem join_mk : ∀ (rs : List (List Char)) (s : List Char),
    (rs.map String.mk).foldl (· ++ ·) (String.mk s) = String.mk (s ++ catC rs)
  | [], s => by
    show String.mk s = String.mk (s ++ [])
    rw [List.append_nil]
  | x :: rs, s => by
    show (rs.map String.mk).foldl (· ++ ·) (String.mk s ++ String.mk x) = _
    rw [smk_append, join_mk rs (s ++ x), List.append_assoc]
    rfl

theorem join_tokens (s : String) : String.join (pyTokens s) = s := by
  show ((runsGo s.toList []).map String.mk).foldl (· ++ ·) "" = s
  rw [show ("" : String) = String.mk [] from rfl, join_mk]
  rw [show ([] : List Char) ++ catC (runsGo s.toList []) = catC (runsGo s.toList []) from rfl,
    runsGo_concat s.toList []]
  show String.mk s.toList = s
  rfl

/-- `b2j` before autojunk: the indices `j` with `b[j] = w`, increasing. -/
def b2jList (b : List String) (w : String) : List ℕ :=
  (List.range b.length).filter (fun j => b.getD j "" = w)

/-- `b2j` with autojunk: for `len(b) >= 200`, entries seen more than
`len(b) // 100 + 1` times are removed. -/
def mkB2j (b : List String) (w : String) : List ℕ :=
  if 200 ≤ b.length ∧ b.length / 100 + 1 < (b2jList b w).length then []
  else b2jList b w

theorem mkB2j_mem (b : List String) (w : String) (j : ℕ) (h : j ∈ mkB2j b w) :
    b.getD j "" = w := by
  unfold mkB2j b2jList at h
  split at h
  · exact absurd h (List.not_mem_nil j)
  · have h2 := List.of_mem_filter h
    exact of_decide_eq_true h2

/-- `a[i+t] = b[j+t]` for all `t < k`: the block `(i, j, k)` is a matching run. -/
def MatchRun (a b : List String) (i j k : ℕ) : Prop :=
  ∀ t, t < k → a.getD (i + t) "" = b.getD (j + t) ""

/-- The best-match state invariant of `find_longest_match`. -/
def BestInv (a b : List String) (alo blo ahi bhi : ℕ) (best : ℕ × ℕ × ℕ) : Prop :=
  alo ≤ best.1 ∧ blo ≤ best.2.1 ∧
  (0 < best.2.2 → best.1 + best.2.2 ≤ ahi ∧ best.2.1 + best.2.2 ≤ bhi) ∧
  (best.2.2 = 0 → best.1 = alo ∧ best.2.1 = blo) ∧
  MatchRun a b best.1 best.2.1 best.2.2

/-- The `j2len` dictionary invariant before processing index `i`:
an entry `j2len[x] = s > 0` records a matching run of length `s` ending at
`a[i-1]`, `b[x]`. -/
def JInv (a b : List String) (alo blo : ℕ) (i : ℕ) (j2l : ℕ → ℕ) : Prop :=
  ∀ x, 0 < j2l x →
    blo + j2l x ≤ x + 1 ∧ alo + j2l x ≤ i ∧ j2l x ≤ x + 1 ∧
    MatchRun a b (i - j2l x) (x + 1 - j2l x) (j2l x)

/-- The inner `for j in b2j.get(a[i], [])` loop of `find_longest_match`
(`continue` below `blo`, `break` at `bhi`); `i - k + 1` is written
`i + 1 - k`, equal on every reachable state since `k ≤ i + 1` there. -/
def flmInner (j2l : ℕ → ℕ) (i blo bhi : ℕ) :
    List ℕ → (ℕ → ℕ) → ℕ × ℕ × ℕ → (ℕ → ℕ) × (ℕ × ℕ × ℕ)
  | [], nj2l, best => (nj2l, best)
  | j :: js, nj2l, best =>
    if j < blo then flmInner j2l i blo bhi js nj2l best
    else if bhi ≤ j then (nj2l, best)
    else
      let k := (if j = 0 then 0 else j2l (j - 1)) + 1
      let nj2l2 := fun x => if x = j then k else nj2l x
      if best.2.2 < k then flmInner j2l i blo bhi js nj2l2 (i + 1 - k, j + 1 - k, k)
      else flmInner j2l i blo bhi js nj2l2 best

/-- `range(lo, hi)`. -/
def rangeFromTo (lo hi : ℕ) : List ℕ := (List.range (hi - lo)).map (fun t => lo + t)

/-- The outer `for i in range(alo, ahi)` loop of `find_longest_match`. -/
def flmOuter (a : List String) (b2j : String → List ℕ) (blo bhi : ℕ) :
    List ℕ → (ℕ → ℕ) → ℕ × ℕ × ℕ → ℕ × ℕ × ℕ
  | [], _, best => best
  | i :: is2, j2l, best =>
    let r := flmInner j2l i blo bhi (b2j (a.getD i "")) (fun _ => 0) best
    flmOuter a b2j blo bhi is2 r.1 r.2

/-- The first (non-junk) backward extension loop of `find_longest_match`
(the junk predicate is empty with `isjunk=None`, so the remaining two
loops never fire). -/
def extendBack (a b : List String) (alo blo : ℕ) (besti bestj bestsize : ℕ) : ℕ × ℕ × ℕ :=
  if h : alo < besti ∧ blo < bestj ∧ a.getD (besti - 1) "" = b.getD (bestj - 1) "" then
    extendBack a b alo blo (besti - 1) (bestj - 1) (bestsize + 1)
  else (besti, bestj, bestsize)
termination_by besti
decreasing_by simp_wf; omega

/-- The forward extension loop of `find_longest_match`. -/
def extendFwd (a b : List String) (ahi bhi : ℕ) (besti bestj bestsize : ℕ) : ℕ :=
  if h : besti + bestsize < ahi ∧ bestj + bestsize < bhi ∧
      a.getD (besti + bestsize) "" = b.getD (bestj + bestsize) "" then
    extendFwd a b ahi bhi besti bestj (bestsize + 1)
  else bestsize
termination_by ahi - bestsize
decreasing_by simp_wf; omega

/-- `SequenceMatcher.find_longest_match`. -/
def findLongestMatch (a b : List String) (b2j : String → List ℕ)
    (alo ahi blo bhi : ℕ) : ℕ × ℕ × ℕ :=
  let r0 := flmOuter a b2j blo bhi (rangeFromTo alo ahi) (fun _ => 0) (alo, blo, 0)
  let r1 := extendBack a b alo blo r0.1 r0.2.1 r0.2.2
  (r1.1, r1.2.1, extendFwd a b ahi bhi r1.1 r1.2.1 r1.2.2)

theorem matchRun_snoc (a b : List String) (i j s : ℕ) (h : MatchRun a b i j s)
    (he : a.getD (i + s) "" = b.getD (j + s) "") : MatchRun a b i j (s + 1) := by
  intro t ht
  rcases Nat.lt_succ_iff_lt_or_eq.mp ht with ht | ht
  · exact h t ht
  · subst ht
    exact he

theorem matchRun_one (a b : List String) (i j : ℕ)
    (he : a.getD i "" = b.getD j "") : MatchRun a b i j 1 := by
  intro t ht
  have : t = 0 := by omega
  subst this
  simpa using he

theorem flmInner_spec (a b : List String) (alo blo ahi bhi i : ℕ)
    (hia : i < ahi) (hal : alo ≤ i) (j2l : ℕ → ℕ) (hj : JInv a b alo blo i j2l) :
    ∀ (js : List ℕ) (nj2l : ℕ → ℕ) (best : ℕ × ℕ × ℕ),
    (∀ j ∈ js, b.getD j "" = a.getD i "") →
    JInv a b alo blo (i + 1) nj2l →
    BestInv a b alo blo ahi bhi best →
    JInv a b alo blo (i + 1) (flmInner j2l i blo bhi js nj2l best).1 ∧
    BestInv a b alo blo ahi bhi (flmInner j2l i blo bhi js nj2l best).2
  | [], nj2l, best => fun _ hn hb => ⟨hn, hb⟩
  | j :: js, nj2l, best => by
    intro hjs hn hb
    simp only [flmInner]
    by_cases h1 : j < blo
    · rw [if_pos h1]
      exact flmInner_spec a b alo blo ahi bhi i hia hal j2l hj js nj2l best
        (fun u hu => hjs u (List.mem_cons.mpr (Or.inr hu))) hn hb
    · rw [if_neg h1]
      by_cases h2 : bhi ≤ j
      · rw [if_pos h2]
        exact ⟨hn, hb⟩
      · rw [if_neg h2]
        have hbj : b.getD j "" = a.getD i "" := hjs j (List.mem_cons_self j js)
        have hK1 : blo + ((if j = 0 then 0 else j2l (j - 1)) + 1) ≤ j + 1 ∧
            alo + ((if j = 0 then 0 else j2l (j - 1)) + 1) ≤ i + 1 ∧
            (if j = 0 then 0 else j2l (j - 1)) + 1 ≤ j + 1 ∧
            MatchRun a b (i + 1 - ((if j = 0 then 0 else j2l (j - 1)) + 1))
              (j + 1 - ((if j = 0 then 0 else j2l (j - 1)) + 1))
              ((if j = 0 then 0 else j2l (j - 1)) + 1) := by
          by_cases hj0 : j = 0
          · subst hj0
            rw [if_pos rfl]
            refine ⟨by omega, by omega, by omega, ?_⟩
            have := matchRun_one a b i 0 hbj.symm
            simpa using this
          · rw [if_neg hj0]
            by_cases hs : 0 < j2l (j - 1)
            · obtain ⟨e1, e2, e3, erun⟩ := hj (j - 1) hs
              have hj1 : 1 ≤ j := by omega
              refine ⟨by omega, by omega, by omega, ?_⟩
              have hrun2 : MatchRun a b (i - j2l (j - 1)) (j - j2l (j - 1)) (j2l (j - 1)) :=
                (by omega : (j - 1) + 1 - j2l (j - 1) = j - j2l (j - 1)) ▸ erun
              have hext := matchRun_snoc a b (i - j2l (j - 1)) (j - j2l (j - 1)) (j2l (j - 1))
                hrun2 (by
                  rw [show i - j2l (j - 1) + j2l (j - 1) = i from by omega,
                    show j - j2l (j - 1) + j2l (j - 1) = j from by omega]
                  exact hbj.symm)
              rw [show i + 1 - (j2l (j - 1) + 1) = i - j2l (j - 1) from by omega,
                show j + 1 - (j2l (j - 1) + 1) = j - j2l (j - 1) from by omega]
              exact hext
            · have hz : j2l (j - 1) = 0 := by omega
              rw [hz]
              refine ⟨by omega, by omega, by omega, ?_⟩
              rw [show i + 1 - (0 + 1) = i from by omega,
                show j + 1 - (0 + 1) = j from by omega]
              have := matchRun_one a b i j hbj.symm
              simpa using this
        have hn2 : JInv a b alo blo (i + 1)
            (fun x => if x = j then (if j = 0 then 0 else j2l (j - 1)) + 1 else nj2l x) := by
          intro x hx
          beta_reduce at hx ⊢
          by_cases hxj : x = j
          · subst hxj
            rw [if_pos rfl]
            exact ⟨hK1.1, hK1.2.1, hK1.2.2.1, hK1.2.2.2⟩
          · rw [if_neg hxj] at hx ⊢
            exact hn x hx
        by_cases hbk : best.2.2 < (if j = 0 then 0 else j2l (j - 1)) + 1
        · rw [if_pos hbk]
          refine flmInner_spec a b alo blo ahi bhi i hia hal j2l hj js _ _
            (fun u hu => hjs u (List.mem_cons.mpr (Or.inr hu))) hn2 ?_
          obtain ⟨e1, e2, e3, erun⟩ := hK1
          exact ⟨(by omega : alo ≤ i + 1 - ((if j = 0 then 0 else j2l (j - 1)) + 1)),
            (by omega : blo ≤ j + 1 - ((if j = 0 then 0 else j2l (j - 1)) + 1)),
            fun _ => ⟨(by omega : i + 1 - ((if j = 0 then 0 else j2l (j - 1)) + 1) +
                ((if j = 0 then 0 else j2l (j - 1)) + 1) ≤ ahi),
              (by omega : j + 1 - ((if j = 0 then 0 else j2l (j - 1)) + 1) +
                ((if j = 0 then 0 else j2l (j - 1)) + 1) ≤ bhi)⟩,
            fun hzero => absurd hzero
              (by omega : ¬((if j = 0 then 0 else j2l (j - 1)) + 1 = 0)), erun⟩
        · rw [if_neg hbk]
          exact flmInner_spec a b alo blo ahi bhi i hia hal j2l hj js _ best
            (fun u hu => hjs u (List.mem_cons.mpr (Or.inr hu))) hn2 hb

theorem rangeFromTo_cons (lo hi : ℕ) (h : lo < hi) :
    rangeFromTo lo hi = lo :: rangeFromTo (lo + 1) hi := by
  unfold rangeFromTo
  obtain ⟨s, hs⟩ : ∃ s, hi - lo = s + 1 := ⟨hi - lo - 1, by omega⟩
  rw [hs, List.range_succ_eq_map, show hi - (lo + 1) = s from by omega]
  simp only [List.map_cons, List.map_map]
  refine congrArg₂ List.cons (by omega) (List.map_congr_left fun t _ => ?_)
  show lo + (t + 1) = lo + 1 + t
  omega

theorem flmOuter_spec (a b : List String) (b2j : String → List ℕ) (alo blo ahi bhi : ℕ)
    (hb2j : ∀ w j, j ∈ b2j w → b.getD j "" = w) :
    ∀ (n i0 : ℕ) (j2l : ℕ → ℕ) (best : ℕ × ℕ × ℕ),
    ahi - i0 ≤ n → alo ≤ i0 →
    JInv a b alo blo i0 j2l → BestInv a b alo blo ahi bhi best →
    BestInv a b alo blo ahi bhi (flmOuter a b2j blo bhi (rangeFromTo i0 ahi) j2l best)
  | n, i0, j2l, best => by
    intro hn hal hj hb
    by_cases hlt : i0 < ahi
    · obtain ⟨m, rfl⟩ : ∃ m, n = m + 1 := ⟨n - 1, by omega⟩
      rw [rangeFromTo_cons i0 ahi hlt]
      simp only [flmOuter]
      have hstep := flmInner_spec a b alo blo ahi bhi i0 hlt hal j2l hj
        (b2j (a.getD i0 "")) (fun _ => 0) best
        (fun u hu => hb2j _ u hu)
        (fun x hx => absurd hx (lt_irrefl 0))
        hb
      exact flmOuter_spec a b b2j alo blo ahi bhi hb2j m (i0 + 1) _ _
        (by omega) (by omega) hstep.1 hstep.2
    · have hemp : rangeFromTo i0 ahi = [] := by
        unfold rangeFromTo
        rw [show ahi - i0 = 0 from by omega]
        rfl
      rw [hemp]
      exact hb
termination_by n _ _ _ => n

theorem matchRun_cons (a b : List String) (i j k : ℕ) (h : MatchRun a b i j k)
    (he : a.getD (i - 1) "" = b.getD (j - 1) "") (hi : 1 ≤ i) (hj : 1 ≤ j) :
    MatchRun a b (i - 1) (j - 1) (k + 1) := by
  intro t ht
  cases t with
  | zero => simpa using he
  | succ s =>
    have hrun := h s (by omega)
    rw [show i - 1 + (s + 1) = i + s from by omega,
      show j - 1 + (s + 1) = j + s from by omega]
    exact hrun

theorem extendBack_spec (a b : List String) (alo blo ahi bhi : ℕ) :
    ∀ (besti bestj bestsize : ℕ),
    BestInv a b alo blo ahi bhi (besti, bestj, bestsize) →
    BestInv a b alo blo ahi bhi (extendBack a b alo blo besti bestj bestsize)
  | besti, bestj, bestsize => by
    intro hb
    rw [extendBack]
    by_cases h : alo < besti ∧ blo < bestj ∧ a.getD (besti - 1) "" = b.getD (bestj - 1) ""
    · rw [dif_pos h]
      obtain ⟨h1, h2, h3, h4, h5⟩ := hb
      have e1 : alo ≤ besti := h1
      have e2 : blo ≤ bestj := h2
      have hk : bestsize ≠ 0 := by
        intro hz
        have e4 : besti = alo ∧ bestj = blo := h4 hz
        omega
      have hsum : besti + bestsize ≤ ahi ∧ bestj + bestsize ≤ bhi := h3 (by omega)
      have hrun : MatchRun a b besti bestj bestsize := h5
      apply extendBack_spec a b alo blo ahi bhi (besti - 1) (bestj - 1) (bestsize + 1)
      exact ⟨(by omega : alo ≤ besti - 1), (by omega : blo ≤ bestj - 1),
        fun _ => ⟨(by omega : besti - 1 + (bestsize + 1) ≤ ahi),
          (by omega : bestj - 1 + (bestsize + 1) ≤ bhi)⟩,
        fun hz => absurd hz (by omega : ¬bestsize + 1 = 0),
        matchRun_cons a b besti bestj bestsize hrun h.2.2 (by omega) (by omega)⟩
    · rw [dif_neg h]
      exact hb
termination_by besti _ _ => besti
decreasing_by simp_wf; omega

theorem extendFwd_spec (a b : List String) (alo blo ahi bhi : ℕ) :
    ∀ (bestsize besti bestj : ℕ),
    BestInv a b alo blo ahi bhi (besti, bestj, bestsize) →
    BestInv a b alo blo ahi bhi (besti, bestj, extendFwd a b ahi bhi besti bestj bestsize)
  | bestsize, besti, bestj => by
    intro hb
    rw [extendFwd]
    by_cases h : besti + bestsize < ahi ∧ bestj + bestsize < bhi ∧
        a.getD (besti + bestsize) "" = b.getD (bestj + bestsize) ""
    · rw [dif_pos h]
      obtain ⟨h1, h2, h3, h4, h5⟩ := hb
      have e1 : alo ≤ besti := h1
      have e2 : blo ≤ bestj := h2
      have hrun : MatchRun a b besti bestj bestsize := h5
      apply extendFwd_spec a b alo blo ahi bhi (bestsize + 1) besti bestj
      exact ⟨e1, e2,
        fun _ => ⟨(by omega : besti + (bestsize + 1) ≤ ahi),
          (by omega : bestj + (bestsize + 1) ≤ bhi)⟩,
        fun hz => absurd hz (by omega : ¬bestsize + 1 = 0),
        matchRun_snoc a b besti bestj bestsize hrun h.2.2⟩
    · rw [dif_neg h]
      exact hb
termination_by bestsize _ _ => ahi - bestsize
decreasing_by simp_wf; omega

theorem flm_spec (a b : List String) (b2j : String → List ℕ) (alo ahi blo bhi : ℕ)
    (hb2j : ∀ w j, j ∈ b2j w → b.getD j "" = w) :
    BestInv a b alo blo ahi bhi (findLongestMatch a b b2j alo ahi blo bhi) := by
  simp only [findLongestMatch]
  have h0 : BestInv a b alo blo ahi bhi (alo, blo, 0) :=
    ⟨le_refl _, le_refl _, fun h => absurd h (lt_irrefl 0), fun _ => ⟨rfl, rfl⟩,
      fun t ht => absurd ht (Nat.not_lt_zero t)⟩
  have h1 := flmOuter_spec a b b2j alo blo ahi bhi hb2j (ahi - alo) alo (fun _ => 0)
    (alo, blo, 0) (le_refl _) (le_refl _) (fun x hx => absurd hx (lt_irrefl 0)) h0
  have h2 := extendBack_spec a b alo blo ahi bhi _ _ _ h1
  exact extendFwd_spec a b alo blo ahi bhi _ _ _ h2

/-! ### `get_matching_blocks`: the rectangle queue -/

/-- `SequenceMatcher.get_matching_blocks`' queue loop, queue head = top of
Python's stack (`queue.pop()` pops the most recently pushed rectangle;
Python pushes the left then the right sub-rectangle, so the right is
processed first). -/
def mbQueue (a b : List String) :
    List (ℕ × ℕ × ℕ × ℕ) → List (ℕ × ℕ × ℕ) → List (ℕ × ℕ × ℕ)
  | [], acc => acc
  | (alo, ahi, blo, bhi) :: rest, acc =>
    if h : 0 < (findLongestMatch a b (mkB2j b) alo ahi blo bhi).2.2 then
      mbQueue a b
        ((if (findLongestMatch a b (mkB2j b) alo ahi blo bhi).1 +
              (findLongestMatch a b (mkB2j b) alo ahi blo bhi).2.2 < ahi ∧
            (findLongestMatch a b (mkB2j b) alo ahi blo bhi).2.1 +
              (findLongestMatch a b (mkB2j b) alo ahi blo bhi).2.2 < bhi then
          [((findLongestMatch a b (mkB2j b) alo ahi blo bhi).1 +
              (findLongestMatch a b (mkB2j b) alo ahi blo bhi).2.2, ahi,
            (findLongestMatch a b (mkB2j b) alo ahi blo bhi).2.1 +
              (findLongestMatch a b (mkB2j b) alo ahi blo bhi).2.2, bhi)]
         else []) ++
         (if alo < (findLongestMatch a b (mkB2j b) alo ahi blo bhi).1 ∧
            blo < (findLongestMatch a b (mkB2j b) alo ahi blo bhi).2.1 then
          [(alo, (findLongestMatch a b (mkB2j b) alo ahi blo bhi).1, blo,
            (findLongestMatch a b (mkB2j b) alo ahi blo bhi).2.1)]
         else []) ++ rest)
        (acc ++ [findLongestMatch a b (mkB2j b) alo ahi blo bhi])
    else mbQueue a b rest acc
termination_by q _ => (q.map (fun r => r.2.1 - r.1 + (r.2.2.2 - r.2.2.1) + 1)).sum
decreasing_by
  all_goals simp_wf
  · have hflm := flm_spec a b (mkB2j b) alo ahi blo bhi (fun w j hj => mkB2j_mem b w j hj)
    have h1 : alo ≤ (findLongestMatch a b (mkB2j b) alo ahi blo bhi).1 := hflm.1
    have h2 : blo ≤ (findLongestMatch a b (mkB2j b) alo ahi blo bhi).2.1 := hflm.2.1
    have h3 := hflm.2.2.1 h
    by_cases hc1 : (findLongestMatch a b (mkB2j b) alo ahi blo bhi).1 +
          (findLongestMatch a b (mkB2j b) alo ahi blo bhi).2.2 < ahi ∧
        (findLongestMatch a b (mkB2j b) alo ahi blo bhi).2.1 +
          (findLongestMatch a b (mkB2j b) alo ahi blo bhi).2.2 < bhi <;>
      by_cases hc2 : alo < (findLongestMatch a b (mkB2j b) alo ahi blo bhi).1 ∧
        blo < (findLongestMatch a b (mkB2j b) alo ahi blo bhi).2.1 <;>
      simp [hc1, hc2] <;> omega

/-- Bounds of a block within the two whole sequences, a positive size, and
its content actually matching. -/
def GoodBlock (a b : List String) (m : ℕ × ℕ × ℕ) : Prop :=
  m.1 + m.2.2 ≤ a.length ∧ m.2.1 + m.2.2 ≤ b.length ∧ 0 < m.2.2 ∧
  MatchRun a b m.1 m.2.1 m.2.2

/-- A rectangle `(alo, ahi, blo, bhi)` within the sequences. -/
def RectIn (la lb : ℕ) (r : ℕ × ℕ × ℕ × ℕ) : Prop := r.2.1 ≤ la ∧ r.2.2.2 ≤ lb

/-- Two rectangles are ordered-disjoint: one lies entirely before the other
on both sides. -/
def DR (r s : ℕ × ℕ × ℕ × ℕ) : Prop :=
  (r.2.1 ≤ s.1 ∧ r.2.2.2 ≤ s.2.2.1) ∨ (s.2.1 ≤ r.1 ∧ s.2.2.2 ≤ r.2.2.1)

/-- A block and a rectangle are ordered-disjoint. -/
def DBR (m : ℕ × ℕ × ℕ) (r : ℕ × ℕ × ℕ × ℕ) : Prop :=
  (m.1 + m.2.2 ≤ r.1 ∧ m.2.1 + m.2.2 ≤ r.2.2.1) ∨ (r.2.1 ≤ m.1 ∧ r.2.2.2 ≤ m.2.1)

/-- Two blocks are ordered-disjoint on both sides simultaneously. -/
def Dsep (m m2 : ℕ × ℕ × ℕ) : Prop :=
  (m.1 + m.2.2 ≤ m2.1 ∧ m.2.1 + m.2.2 ≤ m2.2.1) ∨
  (m2.1 + m2.2.2 ≤ m.1 ∧ m2.2.1 + m2.2.2 ≤ m.2.1)

theorem Dsep_symm : Symmetric Dsep := by
  intro x y h
  unfold Dsep at h ⊢
  omega

theorem mem_ite_list {α : Type} {c : Prop} [Decidable c] {r s : α}
    (h : s ∈ (if c then [r] else [])) : s = r := by
  split at h
  · simpa using h
  · simp at h

theorem pairwise_ite_single {α : Type} {R : α → α → Prop} {c : Prop} [Decidable c]
    {r : α} : List.Pairwise R (if c then [r] else []) := by
  split
  · simp
  · simp

theorem DR_sub (r r2 s : ℕ × ℕ × ℕ × ℕ)
    (hs : r.1 ≤ r2.1 ∧ r2.2.1 ≤ r.2.1 ∧ r.2.2.1 ≤ r2.2.2.1 ∧ r2.2.2.2 ≤ r.2.2.2)
    (h : DR r s) : DR r2 s := by
  unfold DR at h ⊢
  omega

theorem DBR_sub (m : ℕ × ℕ × ℕ) (r r2 : ℕ × ℕ × ℕ × ℕ)
    (hs : r.1 ≤ r2.1 ∧ r2.2.1 ≤ r.2.1 ∧ r.2.2.1 ≤ r2.2.2.1 ∧ r2.2.2.2 ≤ r.2.2.2)
    (h : DBR m r) : DBR m r2 := by
  unfold DBR at h ⊢
  omega

theorem mbQueue_spec (a b : List String) : ∀ (q : List (ℕ × ℕ × ℕ × ℕ)) (acc : List (ℕ × ℕ × ℕ)),
    (∀ r ∈ q, RectIn a.length b.length r) →
    List.Pairwise DR q →
    (∀ m ∈ acc, ∀ r ∈ q, DBR m r) →
    (∀ m ∈ acc, GoodBlock a b m) →
    List.Pairwise Dsep acc →
    (∀ m ∈ mbQueue a b q acc, GoodBlock a b m) ∧ List.Pairwise Dsep (mbQueue a b q acc)
  | [], acc => by
    intro _ _ _ hg hp
    rw [mbQueue]
    exact ⟨hg, hp⟩
  | (alo, ahi, blo, bhi) :: rest, acc => by
    intro hrin hdr hdbr hg hp
    rw [mbQueue]
    have hflm := flm_spec a b (mkB2j b) alo ahi blo bhi (fun w j hj => mkB2j_mem b w j hj)
    set F := findLongestMatch a b (mkB2j b) alo ahi blo bhi with hF
    have hrin0 : RectIn a.length b.length (alo, ahi, blo, bhi) :=
      hrin _ (List.mem_cons_self _ rest)
    have hla : ahi ≤ a.length := hrin0.1
    have hlb : bhi ≤ b.length := hrin0.2
    have hdr1 := List.pairwise_cons.mp hdr
    have hrint := fun r hr => hrin r (List.mem_cons.mpr (Or.inr hr))
    by_cases hk : 0 < F.2.2
    · rw [dif_pos hk]
      have hW1 : alo ≤ F.1 := hflm.1
      have hW2 : blo ≤ F.2.1 := hflm.2.1
      have hW3 : F.1 + F.2.2 ≤ ahi ∧ F.2.1 + F.2.2 ≤ bhi := hflm.2.2.1 hk
      have hrun : MatchRun a b F.1 F.2.1 F.2.2 := hflm.2.2.2.2
      have hsubR : (alo : ℕ) ≤ F.1 + F.2.2 ∧ ahi ≤ ahi ∧ blo ≤ F.2.1 + F.2.2 ∧ bhi ≤ bhi := by
        omega
      have hsubL : (alo : ℕ) ≤ alo ∧ F.1 ≤ ahi ∧ blo ≤ blo ∧ F.2.1 ≤ bhi := by
        omega
      have hmem : ∀ s ∈ (if F.1 + F.2.2 < ahi ∧ F.2.1 + F.2.2 < bhi then
            [(F.1 + F.2.2, ahi, F.2.1 + F.2.2, bhi)] else []) ++
          (if alo < F.1 ∧ blo < F.2.1 then [(alo, F.1, blo, F.2.1)] else []) ++ rest,
          s = (F.1 + F.2.2, ahi, F.2.1 + F.2.2, bhi) ∨ s = (alo, F.1, blo, F.2.1) ∨
            s ∈ rest := by
        intro s hs
        rcases List.mem_append.mp hs with hs | hs
        · rcases List.mem_append.mp hs with hs | hs
          · exact Or.inl (mem_ite_list hs)
          · exact Or.inr (Or.inl (mem_ite_list hs))
        · exact Or.inr (Or.inr hs)
      refine mbQueue_spec a b _ (acc ++ [F]) ?_ ?_ ?_ ?_ ?_
      · intro s hs
        rcases hmem s hs with hs | hs | hs
        · subst hs
          exact ⟨hla, hlb⟩
        · subst hs
          exact ⟨(by omega : F.1 ≤ a.length), (by omega : F.2.1 ≤ b.length)⟩
        · exact hrint s hs
      · refine List.pairwise_append.mpr ⟨List.pairwise_append.mpr
          ⟨pairwise_ite_single, pairwise_ite_single, ?_⟩, hdr1.2, ?_⟩
        · intro x hx y hy
          have hxv := mem_ite_list hx
          have hyv := mem_ite_list hy
          subst hxv
          subst hyv
          exact Or.inr ⟨(by omega : F.1 ≤ F.1 + F.2.2), (by omega : F.2.1 ≤ F.2.1 + F.2.2)⟩
        · intro x hx y hy
          rcases List.mem_append.mp hx with hx | hx
          · have hxv := mem_ite_list hx
            subst hxv
            exact DR_sub _ _ _ hsubR (hdr1.1 y hy)
          · have hxv := mem_ite_list hx
            subst hxv
            exact DR_sub _ _ _ hsubL (hdr1.1 y hy)
      · intro m hm r hr
        rcases List.mem_append.mp hm with hm | hm
        · have hmq : ∀ s ∈ (alo, ahi, blo, bhi) :: rest, DBR m s := hdbr m hm
          rcases hmem r hr with hr | hr | hr
          · subst hr
            exact DBR_sub m _ _ hsubR (hmq _ (List.mem_cons_self _ _))
          · subst hr
            exact DBR_sub m _ _ hsubL (hmq _ (List.mem_cons_self _ _))
          · exact hmq r (List.mem_cons.mpr (Or.inr hr))
        · have hmF : m = F := by simpa using hm
          subst hmF
          rcases hmem r hr with hr | hr | hr
          · subst hr
            exact Or.inl ⟨le_refl _, le_refl _⟩
          · subst hr
            exact Or.inr ⟨le_refl _, le_refl _⟩
          · have hdrs : (ahi ≤ r.1 ∧ bhi ≤ r.2.2.1) ∨ (r.2.1 ≤ alo ∧ r.2.2.2 ≤ blo) :=
              hdr1.1 r hr
            unfold DBR
            omega
      · intro m hm
        rcases List.mem_append.mp hm with hm | hm
        · exact hg m hm
        · have hmF : m = F := by simpa using hm
          subst hmF
          exact ⟨(by omega : F.1 + F.2.2 ≤ a.length), (by omega : F.2.1 + F.2.2 ≤ b.length),
            hk, hrun⟩
      · refine List.pairwise_append.mpr ⟨hp, by simp, ?_⟩
        intro m hm y hy
        have hyF : y = F := by simpa using hy
        subst hyF
        have hdm : (m.1 + m.2.2 ≤ alo ∧ m.2.1 + m.2.2 ≤ blo) ∨ (ahi ≤ m.1 ∧ bhi ≤ m.2.1) :=
          hdbr m hm _ (List.mem_cons_self _ _)
        unfold Dsep
        omega
    · rw [dif_neg hk]
      exact mbQueue_spec a b rest acc hrint hdr1.2
        (fun m hm r hr => hdbr m hm r (List.mem_cons.mpr (Or.inr hr))) hg hp
termination_by q _ => (q.map (fun r => r.2.1 - r.1 + (r.2.2.2 - r.2.2.1) + 1)).sum
decreasing_by
  all_goals simp_wf
  all_goals try rw [← hF]
  · by_cases hc1 : F.1 + F.2.2 < ahi ∧ F.2.1 + F.2.2 < bhi <;>
      by_cases hc2 : alo < F.1 ∧ blo < F.2.1 <;>
      simp [hc1, hc2] <;> omega

/-! ### `matching_blocks.sort()` -/

/-- Lexicographic order on `(i, j, size)` triples, as Python compares
tuples. -/
def blockLE (x y : ℕ × ℕ × ℕ) : Prop :=
  x.1 < y.1 ∨ (x.1 = y.1 ∧ (x.2.1 < y.2.1 ∨ (x.2.1 = y.2.1 ∧ x.2.2 ≤ y.2.2)))

instance blockLE.decide (x y : ℕ × ℕ × ℕ) : Decidable (blockLE x y) := by
  unfold blockLE
  infer_instance

theorem blockLE_total (x y : ℕ × ℕ × ℕ) : blockLE x y ∨ blockLE y x := by
  unfold blockLE
  omega

theorem blockLE_trans (x y z : ℕ × ℕ × ℕ) (h1 : blockLE x y) (h2 : blockLE y z) :
    blockLE x z := by
  unfold blockLE at h1 h2 ⊢
  omega

/-- One insertion step of a stable sort by `blockLE`. -/
def insertB (x : ℕ × ℕ × ℕ) : List (ℕ × ℕ × ℕ) → List (ℕ × ℕ × ℕ)
  | [] => [x]
  | y :: ys => if blockLE x y then x :: y :: ys else y :: insertB x ys

/-- `list.sort()` on the block list (insertion sort; Python's sort computes
the same lexicographically sorted, permutation-equal list). -/
def sortB : List (ℕ × ℕ × ℕ) → List (ℕ × ℕ × ℕ)
  | [] => []
  | x :: xs => insertB x (sortB xs)

theorem insertB_perm (x : ℕ × ℕ × ℕ) : ∀ l : List (ℕ × ℕ × ℕ),
    List.Perm (insertB x l) (x :: l)
  | [] => List.Perm.refl _
  | y :: ys => by
    rw [insertB]
    by_cases h : blockLE x y
    · rw [if_pos h]
    · rw [if_neg h]
      exact ((insertB_perm x ys).cons y).trans (List.Perm.swap x y ys)

theorem sortB_perm : ∀ l : List (ℕ × ℕ × ℕ), List.Perm (sortB l) l
  | [] => List.Perm.refl _
  | x :: xs => by
    rw [sortB]
    exact (insertB_perm x (sortB xs)).trans ((sortB_perm xs).cons x)

theorem insertB_sorted (x : ℕ × ℕ × ℕ) : ∀ l : List (ℕ × ℕ × ℕ),
    List.Pairwise blockLE l → List.Pairwise blockLE (insertB x l)
  | [], _ => List.pairwise_singleton _ _
  | y :: ys, hp => by
    rw [insertB]
    by_cases h : blockLE x y
    · rw [if_pos h]
      refine List.pairwise_cons.mpr ⟨?_, hp⟩
      intro z hz
      rcases List.mem_cons.mp hz with hz | hz
      · subst hz
        exact h
      · exact blockLE_trans x y z h ((List.pairwise_cons.mp hp).1 z hz)
    · rw [if_neg h]
      have hyx : blockLE y x := (blockLE_total x y).resolve_left h
      refine List.pairwise_cons.mpr ⟨?_, insertB_sorted x ys (List.pairwise_cons.mp hp).2⟩
      intro z hz
      have hz2 := (insertB_perm x ys).mem_iff.mp hz
      rcases List.mem_cons.mp hz2 with hz2 | hz2
      · subst hz2
        exact hyx
      · exact (List.pairwise_cons.mp hp).1 z hz2

theorem sortB_sorted : ∀ l : List (ℕ × ℕ × ℕ), List.Pairwise blockLE (sortB l)
  | [] => List.Pairwise.nil
  | x :: xs => insertB_sorted x (sortB xs) (sortB_sorted xs)

/-- After sorting, ordered-disjoint positive blocks are in increasing
order on both sides. -/
def InOrder (x y : ℕ × ℕ × ℕ) : Prop :=
  x.1 + x.2.2 ≤ y.1 ∧ x.2.1 + x.2.2 ≤ y.2.1

theorem sortB_inOrder (l : List (ℕ × ℕ × ℕ))
    (hsep : List.Pairwise Dsep l) (hpos : ∀ m ∈ l, 0 < m.2.2) :
    List.Pairwise InOrder (sortB l) := by
  have hsep2 : List.Pairwise Dsep (sortB l) :=
    ((sortB_perm l).pairwise_iff (fun h1 => Dsep_symm h1)).mpr hsep
  have hord := sortB_sorted l
  have hboth := hord.and hsep2
  refine hboth.imp_of_mem ?_
  intro x y hx hy hr
  have hxpos : 0 < x.2.2 := hpos x ((sortB_perm l).mem_iff.mp hx)
  have hypos : 0 < y.2.2 := hpos y ((sortB_perm l).mem_iff.mp hy)
  obtain ⟨hle, hsep3⟩ := hr
  unfold blockLE at hle
  unfold Dsep at hsep3
  unfold InOrder
  omega

/-! ### Adjacent-block merging and the final block list -/

/-- The adjacent-merge loop of `get_matching_blocks`: `cur` is
`(i1, j1, k1)`; blocks adjacent on both sides are coalesced, a nonzero
current block is flushed before starting a new one. -/
def mergeAdj (cur : ℕ × ℕ × ℕ) : List (ℕ × ℕ × ℕ) → List (ℕ × ℕ × ℕ)
  | [] => if 0 < cur.2.2 then [cur] else []
  | m :: ms =>
    if cur.1 + cur.2.2 = m.1 ∧ cur.2.1 + cur.2.2 = m.2.1 then
      mergeAdj (cur.1, cur.2.1, cur.2.2 + m.2.2) ms
    else
      (if 0 < cur.2.2 then [cur] else []) ++ mergeAdj m ms

/-- `SequenceMatcher.get_matching_blocks`: queue, sort, adjacent-merge,
and the `(la, lb, 0)` sentinel. -/
def matchingBlocks (a b : List String) : List (ℕ × ℕ × ℕ) :=
  mergeAdj (0, 0, 0) (sortB (mbQueue a b [(0, a.length, 0, b.length)] [])) ++
    [(a.length, b.length, 0)]

/-- The blocks tile monotonically from `(i, j)` and end exactly at
`(la, lb)`. -/
def BlocksChain (la lb : ℕ) : ℕ → ℕ → List (ℕ × ℕ × ℕ) → Prop
  | i, j, [] => i = la ∧ j = lb
  | i, j, m :: ms => i ≤ m.1 ∧ j ≤ m.2.1 ∧ BlocksChain la lb (m.1 + m.2.2) (m.2.1 + m.2.2) ms

theorem mergeAdj_chain (a b : List String) : ∀ (l : List (ℕ × ℕ × ℕ)) (cur : ℕ × ℕ × ℕ),
    List.Pairwise InOrder l →
    (∀ m ∈ l, InOrder cur m) →
    (∀ m ∈ l, m.1 + m.2.2 ≤ a.length ∧ m.2.1 + m.2.2 ≤ b.length ∧
      MatchRun a b m.1 m.2.1 m.2.2) →
    cur.1 + cur.2.2 ≤ a.length → cur.2.1 + cur.2.2 ≤ b.length →
    MatchRun a b cur.1 cur.2.1 cur.2.2 →
    ∀ i j, i ≤ cur.1 → j ≤ cur.2.1 →
    BlocksChain a.length b.length i j
      (mergeAdj cur l ++ [(a.length, b.length, 0)]) ∧
    ∀ m ∈ mergeAdj cur l, m.1 + m.2.2 ≤ a.length ∧ m.2.1 + m.2.2 ≤ b.length ∧
      MatchRun a b m.1 m.2.1 m.2.2
  | [], cur => by
    intro _ _ _ hba hbb hrun i j hi hj
    rw [mergeAdj]
    by_cases hk : 0 < cur.2.2
    · rw [if_pos hk]
      refine ⟨⟨hi, hj, hba, hbb, rfl, rfl⟩, ?_⟩
      · intro m hm
        have : m = cur := by simpa using hm
        subst this
        exact ⟨hba, hbb, hrun⟩
    · rw [if_neg hk]
      refine ⟨⟨(by omega : i ≤ a.length), (by omega : j ≤ b.length), rfl, rfl⟩, ?_⟩
      intro m hm
      exact absurd hm (List.not_mem_nil m)
  | m :: ms, cur => by
    intro hord hcur hbl hba hbb hrun i j hi hj
    rw [mergeAdj]
    have hord1 := List.pairwise_cons.mp hord
    have hm0 := hbl m (List.mem_cons_self m ms)
    by_cases hadj : cur.1 + cur.2.2 = m.1 ∧ cur.2.1 + cur.2.2 = m.2.1
    · rw [if_pos hadj]
      have hrun2 : MatchRun a b cur.1 cur.2.1 (cur.2.2 + m.2.2) := by
        intro t ht
        by_cases htc : t < cur.2.2
        · exact hrun t htc
        · have hstep := hm0.2.2 (t - cur.2.2) (by omega)
          rw [show cur.1 + t = m.1 + (t - cur.2.2) from by omega,
            show cur.2.1 + t = m.2.1 + (t - cur.2.2) from by omega]
          exact hstep
      refine mergeAdj_chain a b ms (cur.1, cur.2.1, cur.2.2 + m.2.2) hord1.2 ?_ ?_
        (by omega : cur.1 + (cur.2.2 + m.2.2) ≤ a.length)
        (by omega : cur.2.1 + (cur.2.2 + m.2.2) ≤ b.length)
        hrun2 i j hi hj
      · intro m2 hm2
        have h1 : m.1 + m.2.2 ≤ m2.1 ∧ m.2.1 + m.2.2 ≤ m2.2.1 := hord1.1 m2 hm2
        exact ⟨(by omega : cur.1 + (cur.2.2 + m.2.2) ≤ m2.1),
          (by omega : cur.2.1 + (cur.2.2 + m.2.2) ≤ m2.2.1)⟩
      · intro m2 hm2
        exact hbl m2 (List.mem_cons.mpr (Or.inr hm2))
    · rw [if_neg hadj]
      have hcm : InOrder cur m := hcur m (List.mem_cons_self m ms)
      have hrec := mergeAdj_chain a b ms m hord1.2 hord1.1
        (fun m2 hm2 => hbl m2 (List.mem_cons.mpr (Or.inr hm2)))
        hm0.1 hm0.2.1 hm0.2.2
      by_cases hk : 0 < cur.2.2
      · rw [if_pos hk]
        have hchain := hrec (cur.1 + cur.2.2) (cur.2.1 + cur.2.2) hcm.1 hcm.2
        refine ⟨?_, ?_⟩
        · show BlocksChain a.length b.length i j
            ((cur :: mergeAdj m ms) ++ [(a.length, b.length, 0)])
          exact ⟨hi, hj, hchain.1⟩
        · intro m2 hm2
          rcases List.mem_cons.mp hm2 with hm2 | hm2
          · subst hm2
            exact ⟨hba, hbb, hrun⟩
          · exact hchain.2 m2 hm2
      · rw [if_neg hk]
        have hcm2 : cur.1 + cur.2.2 ≤ m.1 ∧ cur.2.1 + cur.2.2 ≤ m.2.1 := hcm
        have hchain := hrec i j (by omega) (by omega)
        exact ⟨hchain.1, fun m2 hm2 => hchain.2 m2 (by simpa using hm2)⟩

theorem blocksChain_le (la lb : ℕ) : ∀ (blocks : List (ℕ × ℕ × ℕ)) (i j : ℕ),
    BlocksChain la lb i j blocks → i ≤ la ∧ j ≤ lb
  | [], i, j => fun h => ⟨le_of_eq h.1, le_of_eq h.2⟩
  | m :: ms, i, j => fun h => by
    have hrec := blocksChain_le la lb ms (m.1 + m.2.2) (m.2.1 + m.2.2) h.2.2
    have h1 : i ≤ m.1 := h.1
    have h2 : j ≤ m.2.1 := h.2.1
    exact ⟨by omega, by omega⟩

theorem matchingBlocks_spec (a b : List String) :
    BlocksChain a.length b.length 0 0 (matchingBlocks a b) ∧
    ∀ m ∈ matchingBlocks a b, m.1 + m.2.2 ≤ a.length ∧ m.2.1 + m.2.2 ≤ b.length ∧
      MatchRun a b m.1 m.2.1 m.2.2 := by
  have hq := mbQueue_spec a b [(0, a.length, 0, b.length)] []
    (fun r hr => by
      have : r = (0, a.length, 0, b.length) := by simpa using hr
      subst this
      exact ⟨le_refl _, le_refl _⟩)
    (List.pairwise_singleton _ _)
    (fun m hm => absurd hm (List.not_mem_nil m))
    (fun m hm => absurd hm (List.not_mem_nil m))
    List.Pairwise.nil
  have hsorted := sortB_inOrder (mbQueue a b [(0, a.length, 0, b.length)] []) hq.2
    (fun m hm => (hq.1 m hm).2.2.1)
  have hmain := mergeAdj_chain a b (sortB (mbQueue a b [(0, a.length, 0, b.length)] []))
    (0, 0, 0) hsorted
    (fun m _ => ⟨Nat.zero_le _, Nat.zero_le _⟩)
    (fun m hm => by
      have hg := hq.1 m ((sortB_perm _).mem_iff.mp hm)
      exact ⟨hg.1, hg.2.1, hg.2.2.2⟩)
    (Nat.zero_le _) (Nat.zero_le _)
    (fun t ht => absurd ht (Nat.not_lt_zero t))
    0 0 (le_refl 0) (le_refl 0)
  constructor
  · exact hmain.1
  · intro m hm
    rcases List.mem_append.mp hm with hm | hm
    · exact hmain.2 m hm
    · have : m = (a.length, b.length, 0) := by simpa using hm
      subst this
      exact ⟨(by omega : a.length + 0 ≤ a.length), (by omega : b.length + 0 ≤ b.length),
        fun t ht => absurd ht (Nat.not_lt_zero t)⟩

/-! ### `get_opcodes` and the word walk of `compare_words` -/

/-- `l[i:j]` for natural slice indices (as used with in-range indices). -/
def nSlice (l : List String) (i j : ℕ) : List String := (l.take j).drop i

/-- `SequenceMatcher.get_opcodes`: walk the matching blocks from `(0, 0)`,
emitting a replace/delete/insert for each gap and an equal for each block. -/
def getOpcodes : ℕ → ℕ → List (ℕ × ℕ × ℕ) → List (DiffType × ℕ × ℕ × ℕ × ℕ)
  | _, _, [] => []
  | i, j, m :: ms =>
    (if i < m.1 ∧ j < m.2.1 then [(.replace, i, m.1, j, m.2.1)]
     else if i < m.1 then [(.delete, i, m.1, j, m.2.1)]
     else if j < m.2.1 then [(.insert, i, m.1, j, m.2.1)]
     else []) ++
    (if 0 < m.2.2 then [(.equal, m.1, m.1 + m.2.2, m.2.1, m.2.1 + m.2.2)] else []) ++
    getOpcodes (m.1 + m.2.2) (m.2.1 + m.2.2) ms

/-- `WordDiff` from `diff_engine.py`. -/
structure WordDiff where
  type : DiffType
  word : String
  start_pos : Int
  end_pos : Int
deriving DecidableEq, Repr

/-- Emit one `WordDiff` per word of a range, threading the position. -/
def emitRange (t : DiffType) : List String → Int → List WordDiff × Int
  | [], pos => ([], pos)
  | w :: ws, pos =>
    (⟨t, w, pos, pos + (w.length : Int)⟩ ::
        (emitRange t ws (pos + (w.length : Int))).1,
      (emitRange t ws (pos + (w.length : Int))).2)

/-- `sum(len(w) for w in ws)`. -/
def sumLen (ws : List String) : ℕ := (ws.map String.length).sum

/-- The opcode walk of `compare_words`: equal/delete ranges emit the words
of `words_a` advancing `pos_a` (an equal block advances `pos_b` by the
matched length), insert ranges emit the words of `words_b` advancing
`pos_b`, replace emits deletes then inserts. -/
def cwGo (wa wb : List String) : List (DiffType × ℕ × ℕ × ℕ × ℕ) → Int → Int → List WordDiff
  | [], _, _ => []
  | (tag, i1, i2, j1, j2) :: ops, pa, pb =>
    match tag with
    | .equal =>
      (emitRange .equal (nSlice wa i1 i2) pa).1 ++
        cwGo wa wb ops (emitRange .equal (nSlice wa i1 i2) pa).2
          (pb + (sumLen (nSlice wb j1 j2) : Int))
    | .delete =>
      (emitRange .delete (nSlice wa i1 i2) pa).1 ++
        cwGo wa wb ops (emitRange .delete (nSlice wa i1 i2) pa).2 pb
    | .insert =>
      (emitRange .insert (nSlice wb j1 j2) pb).1 ++
        cwGo wa wb ops pa (emitRange .insert (nSlice wb j1 j2) pb).2
    | .replace =>
      (emitRange .delete (nSlice wa i1 i2) pa).1 ++
        ((emitRange .insert (nSlice wb j1 j2) pb).1 ++
          cwGo wa wb ops (emitRange .delete (nSlice wa i1 i2) pa).2
            (emitRange .insert (nSlice wb j1 j2) pb).2)

/-- `DiffEngine.compare_words`. -/
def compareWords (la lb : String) : List WordDiff :=
  cwGo (pyTokens la) (pyTokens lb)
    (getOpcodes 0 0 (matchingBlocks (pyTokens la) (pyTokens lb))) 0 0

/-- The words of the EQUAL and DELETE entries, in order. -/
def aWords : List WordDiff → List String
  | [] => []
  | e :: es => (if e.type = .equal ∨ e.type = .delete then [e.word] else []) ++ aWords es

/-- The words of the EQUAL and INSERT entries, in order. -/
def bWords : List WordDiff → List String
  | [] => []
  | e :: es => (if e.type = .equal ∨ e.type = .insert then [e.word] else []) ++ bWords es

/-- The `words_a` ranges the opcodes read, in order. -/
def aSlices (wa : List String) : List (DiffType × ℕ × ℕ × ℕ × ℕ) → List String
  | [] => []
  | (tag, i1, i2, _, _) :: ops =>
    (if tag = .insert then [] else nSlice wa i1 i2) ++ aSlices wa ops

/-- The b-side words contributed per opcode: an equal range contributes the
`words_a` slice (the emitted entries hold `words_a[i]`), an insert or
replace contributes the `words_b` slice, a delete contributes nothing. -/
def bSlices (wa wb : List String) : List (DiffType × ℕ × ℕ × ℕ × ℕ) → List String
  | [] => []
  | (tag, i1, i2, j1, j2) :: ops =>
    (if tag = .equal then nSlice wa i1 i2
     else if tag = .delete then [] else nSlice wb j1 j2) ++ bSlices wa wb ops

theorem nSlice_self (l : List String) (i : ℕ) : nSlice l i i = [] := by
  apply List.drop_eq_nil_of_le
  rw [List.length_take]
  omega

theorem nSlice_all (l : List String) : nSlice l 0 l.length = l := by
  simp [nSlice]

theorem nSlice_succ (l : List String) (i k : ℕ) (h : i + k < l.length) :
    nSlice l i (i + k + 1) = nSlice l i (i + k) ++ [l.getD (i + k) ""] := by
  show (l.take (i + k + 1)).drop i = _
  rw [List.take_succ]
  have h1 : l[i + k]? = some (l.getD (i + k) "") := by
    rw [List.getD_eq_getElem l "" h]
    exact List.getElem?_eq_getElem h
  rw [h1]
  show ((l.take (i + k)) ++ [l.getD (i + k) ""]).drop i = _
  rw [List.drop_append_of_le_length (by rw [List.length_take]; omega)]
  rfl

theorem nSlice_eq_of_matchRun (wa wb : List String) (i j : ℕ) :
    ∀ (k : ℕ), MatchRun wa wb i j k → i + k ≤ wa.length → j + k ≤ wb.length →
    nSlice wa i (i + k) = nSlice wb j (j + k)
  | 0, _, _, _ => by rw [Nat.add_zero, Nat.add_zero, nSlice_self, nSlice_self]
  | k + 1, h, ha, hb => by
    have hrec := nSlice_eq_of_matchRun wa wb i j k
      (fun t ht => h t (by omega)) (by omega) (by omega)
    rw [show i + (k + 1) = i + k + 1 from rfl, show j + (k + 1) = j + k + 1 from rfl,
      nSlice_succ wa i k (by omega), nSlice_succ wb j k (by omega), hrec,
      h k (by omega)]

theorem aWords_append (l1 l2 : List WordDiff) :
    aWords (l1 ++ l2) = aWords l1 ++ aWords l2 := by
  induction l1 with
  | nil => rfl
  | cons e l1 ih => simp [aWords, ih]

theorem bWords_append (l1 l2 : List WordDiff) :
    bWords (l1 ++ l2) = bWords l1 ++ bWords l2 := by
  induction l1 with
  | nil => rfl
  | cons e l1 ih => simp [bWords, ih]

theorem aSlices_append (wa : List String) (l1 l2 : List (DiffType × ℕ × ℕ × ℕ × ℕ)) :
    aSlices wa (l1 ++ l2) = aSlices wa l1 ++ aSlices wa l2 := by
  induction l1 with
  | nil => rfl
  | cons op l1 ih =>
    obtain ⟨t, i1, i2, j1, j2⟩ := op
    simp [aSlices, ih]

theorem bSlices_append (wa wb : List String)
    (l1 l2 : List (DiffType × ℕ × ℕ × ℕ × ℕ)) :
    bSlices wa wb (l1 ++ l2) = bSlices wa wb l1 ++ bSlices wa wb l2 := by
  induction l1 with
  | nil => rfl
  | cons op l1 ih =>
    obtain ⟨t, i1, i2, j1, j2⟩ := op
    simp [bSlices, ih]

theorem aWords_emitRange (t : DiffType) (ws : List String) : ∀ (pos : Int),
    aWords (emitRange t ws pos).1 = (if t = .equal ∨ t = .delete then ws else []) := by
  induction ws with
  | nil => intro pos; cases t <;> simp [emitRange, aWords]
  | cons w ws ih => intro pos; cases t <;> simp_all [emitRange, aWords]

theorem bWords_emitRange (t : DiffType) (ws : List String) : ∀ (pos : Int),
    bWords (emitRange t ws pos).1 = (if t = .equal ∨ t = .insert then ws else []) := by
  induction ws with
  | nil => intro pos; cases t <;> simp [emitRange, bWords]
  | cons w ws ih => intro pos; cases t <;> simp_all [emitRange, bWords]

theorem emitRange_mem (t : DiffType) (ws : List String) : ∀ (pos : Int) (e : WordDiff),
    e ∈ (emitRange t ws pos).1 → e.end_pos - e.start_pos = (e.word.length : Int) := by
  induction ws with
  | nil => intro pos e he; simp [emitRange] at he
  | cons w ws ih =>
    intro pos e he
    rw [emitRange] at he
    rcases List.mem_cons.mp he with he | he
    · subst he
      simp
    · exact ih _ e he

theorem cwGo_aWords (wa wb : List String) :
    ∀ (ops : List (DiffType × ℕ × ℕ × ℕ × ℕ)) (pa pb : Int),
    aWords (cwGo wa wb ops pa pb) = aSlices wa ops := by
  intro ops
  induction ops with
  | nil => intro pa pb; rfl
  | cons op ops ih =>
    obtain ⟨tag, i1, i2, j1, j2⟩ := op
    intro pa pb
    cases tag <;>
      simp [cwGo, aSlices, aWords_append, aWords_emitRange, ih]

theorem cwGo_bWords (wa wb : List String) :
    ∀ (ops : List (DiffType × ℕ × ℕ × ℕ × ℕ)) (pa pb : Int),
    bWords (cwGo wa wb ops pa pb) = bSlices wa wb ops := by
  intro ops
  induction ops with
  | nil => intro pa pb; rfl
  | cons op ops ih =>
    obtain ⟨tag, i1, i2, j1, j2⟩ := op
    intro pa pb
    cases tag <;>
      simp [cwGo, bSlices, bWords_append, bWords_emitRange, ih]

theorem cwGo_mem (wa wb : List String) :
    ∀ (ops : List (DiffType × ℕ × ℕ × ℕ × ℕ)) (pa pb : Int) (e : WordDiff),
    e ∈ cwGo wa wb ops pa pb → e.end_pos - e.start_pos = (e.word.length : Int) := by
  intro ops
  induction ops with
  | nil => intro pa pb e he; simp [cwGo] at he
  | cons op ops ih =>
    obtain ⟨tag, i1, i2, j1, j2⟩ := op
    intro pa pb e he
    cases tag <;> rw [cwGo] at he
    · rcases List.mem_append.mp he with he | he
      · exact emitRange_mem _ _ _ e he
      · exact ih _ _ e he
    · rcases List.mem_append.mp he with he | he
      · exact emitRange_mem _ _ _ e he
      · exact ih _ _ e he
    · rcases List.mem_append.mp he with he | he
      · exact emitRange_mem _ _ _ e he
      · exact ih _ _ e he
    · rcases List.mem_append.mp he with he | he
      · exact emitRange_mem _ _ _ e he
      · rcases List.mem_append.mp he with he | he
        · exact emitRange_mem _ _ _ e he
        · exact ih _ _ e he

theorem getOpcodes_aSlices (wa : List String) (lb : ℕ) :
    ∀ (blocks : List (ℕ × ℕ × ℕ)) (i j : ℕ),
    BlocksChain wa.length lb i j blocks →
    aSlices wa (getOpcodes i j blocks) = nSlice wa i wa.length
  | [], i, j => fun h => by
    have h1 : i = wa.length := h.1
    subst h1
    rw [getOpcodes]
    exact (nSlice_self wa wa.length).symm
  | m :: ms, i, j => fun h => by
    obtain ⟨mi, mj, k⟩ := m
    have h1 : i ≤ mi := h.1
    have h2 : j ≤ mj := h.2.1
    have h3 : BlocksChain wa.length lb (mi + k) (mj + k) ms := h.2.2
    have hk : mi + k ≤ wa.length := (blocksChain_le wa.length lb ms _ _ h3).1
    have hrec := getOpcodes_aSlices wa lb ms (mi + k) (mj + k) h3
    rw [getOpcodes, aSlices_append, aSlices_append, hrec]
    have hgap : aSlices wa
        (if i < mi ∧ j < mj then [(.replace, i, mi, j, mj)]
         else if i < mi then [(.delete, i, mi, j, mj)]
         else if j < mj then [(.insert, i, mi, j, mj)]
         else []) = nSlice wa i mi := by
      by_cases hc1 : i < mi ∧ j < mj
      · rw [if_pos hc1]
        simp [aSlices]
      · rw [if_neg hc1]
        by_cases hc2 : i < mi
        · rw [if_pos hc2]
          simp [aSlices]
        · have hieq : i = mi := by omega
          subst hieq
          rw [nSlice_self]
          by_cases hc3 : j < mj
          · rw [if_neg hc2, if_pos hc3]
            simp [aSlices]
          · rw [if_neg hc2, if_neg hc3]
            rfl
    have heq : aSlices wa
        (if 0 < k then [(.equal, mi, mi + k, mj, mj + k)] else []) =
        nSlice wa mi (mi + k) := by
      by_cases hc : 0 < k
      · rw [if_pos hc]
        simp [aSlices]
      · have hk0 : k = 0 := by omega
        subst hk0
        rw [if_neg hc, Nat.add_zero, nSlice_self]
        rfl
    rw [hgap, heq]
    have e1 : nSlice wa i mi ++ nSlice wa mi (mi + k) = nSlice wa i (mi + k) :=
      take_drop_glue wa i mi (mi + k) h1 (by omega)
    have e2 : nSlice wa i (mi + k) ++ nSlice wa (mi + k) wa.length = nSlice wa i wa.length :=
      take_drop_glue wa i (mi + k) wa.length (by omega) hk
    rw [e1, e2]

theorem getOpcodes_bSlices (wa wb : List String) :
    ∀ (blocks : List (ℕ × ℕ × ℕ)) (i j : ℕ),
    BlocksChain wa.length wb.length i j blocks →
    (∀ m ∈ blocks, m.1 + m.2.2 ≤ wa.length ∧ m.2.1 + m.2.2 ≤ wb.length ∧
      MatchRun wa wb m.1 m.2.1 m.2.2) →
    bSlices wa wb (getOpcodes i j blocks) = nSlice wb j wb.length
  | [], i, j => fun h _ => by
    have h1 : j = wb.length := h.2
    subst h1
    rw [getOpcodes]
    exact (nSlice_self wb wb.length).symm
  | m :: ms, i, j => fun h hmem => by
    obtain ⟨mi, mj, k⟩ := m
    have h1 : i ≤ mi := h.1
    have h2 : j ≤ mj := h.2.1
    have h3 : BlocksChain wa.length wb.length (mi + k) (mj + k) ms := h.2.2
    have hk : mj + k ≤ wb.length := (blocksChain_le wa.length wb.length ms _ _ h3).2
    have hhead := hmem (mi, mj, k) (List.mem_cons_self _ _)
    have hrec := getOpcodes_bSlices wa wb ms (mi + k) (mj + k) h3
      (fun m hm => hmem m (List.mem_cons_of_mem _ hm))
    rw [getOpcodes, bSlices_append, bSlices_append, hrec]
    have hgap : bSlices wa wb
        (if i < mi ∧ j < mj then [(.replace, i, mi, j, mj)]
         else if i < mi then [(.delete, i, mi, j, mj)]
         else if j < mj then [(.insert, i, mi, j, mj)]
         else []) = nSlice wb j mj := by
      by_cases hc1 : i < mi ∧ j < mj
      · rw [if_pos hc1]
        simp [bSlices]
      · rw [if_neg hc1]
        by_cases hc2 : i < mi
        · have hjeq : j = mj := by omega
          subst hjeq
          rw [if_pos hc2, nSlice_self]
          simp [bSlices]
        · by_cases hc3 : j < mj
          · rw [if_neg hc2, if_pos hc3]
            simp [bSlices]
          · have hjeq : j = mj := by omega
            subst hjeq
            rw [if_neg hc2, if_neg hc3, nSlice_self]
            rfl
    have heq : bSlices wa wb
        (if 0 < k then [(.equal, mi, mi + k, mj, mj + k)] else []) =
        nSlice wb mj (mj + k) := by
      by_cases hc : 0 < k
      · rw [if_pos hc]
        have hcc := nSlice_eq_of_matchRun wa wb mi mj k hhead.2.2 hhead.1 hhead.2.1
        simp [bSlices, hcc]
      · have hk0 : k = 0 := by omega
        subst hk0
        rw [if_neg hc, Nat.add_zero, nSlice_self]
        rfl
    rw [hgap, heq]
    have e1 : nSlice wb j mj ++ nSlice wb mj (mj + k) = nSlice wb j (mj + k) :=
      take_drop_glue wb j mj (mj + k) h2 (by omega)
    have e2 : nSlice wb j (mj + k) ++ nSlice wb (mj + k) wb.length = nSlice wb j wb.length :=
      take_drop_glue wb j (mj + k) wb.length (by omega) hk
    rw [e1, e2]

/-- C10: for every pair of strings `line_a`, `line_b`, in the list returned
by `compare_words`, concatenating the `word` fields of the EQUAL and DELETE
entries in order yields exactly `line_a`, concatenating the `word` fields of
the EQUAL and INSERT entries in order yields exactly `line_b`, and every
entry satisfies `end_pos - start_pos = len(word)`. -/
theorem C10_words_reconstruction (la lb : String) :
    String.join (aWords (compareWords la lb)) = la ∧
    String.join (bWords (compareWords la lb)) = lb ∧
    ∀ e ∈ compareWords la lb, e.end_pos - e.start_pos = (e.word.length : Int) := by
  have hmb := matchingBlocks_spec (pyTokens la) (pyTokens lb)
  refine ⟨?_, ?_, ?_⟩
  · rw [compareWords, cwGo_aWords,
      getOpcodes_aSlices (pyTokens la) (pyTokens lb).length _ 0 0 hmb.1,
      nSlice_all, join_tokens]
  · rw [compareWords, cwGo_bWords,
      getOpcodes_bSlices (pyTokens la) (pyTokens lb) _ 0 0 hmb.1 hmb.2,
      nSlice_all, join_tokens]
  · intro e he
    exact cwGo_mem _ _ _ _ _ e he
